import Mathlib

/-!
# Ladder-Logic Analysis & Code-Generation Engine — a verification development

A shallow embedding, in Lean 4, of the ladder-logic core of the
PLCProgramming repository:

* the ladder grid model (`LadderElement`, `LadderRung`) and the
  series/parallel topology analysis of
  `src/features/ladder-editor/utils/ladder-utils.ts`
  (`analyzeRungLogic`, `analyzeParallelCircuit`, `analyzeSeriesCircuit`,
  `convertElementToST`, `optimizeLogicExpression`, `convertToSTLanguage`);
* the scan-cycle simulator (`LadderSimulator`: `scan`, `executeRung`,
  `executeSeriesCircuit`, `executeParallelCircuit`, `evaluateElement`,
  `applyOutput`, `setVariable`, `getState`, `start`, `stop`);
* the unified code generator of `shared/lib/code-generation`
  (`PLCCodeGenerator.convertLadderToST`, `extractVariablesFromLadder`,
  `VariableDeclarationGenerator.generateSTDeclarations`).

Conventions of the embedding:

* JavaScript numbers used as grid coordinates, timer values and counter
  values are modelled as `Nat` (the source only ever stores nonnegative
  integers in them).
* A JavaScript `Record`/object used as a map is modelled as an association
  list (`List (String × α)`); property update (`o[k] = v`) replaces the
  value of an existing key in place and otherwise appends, which matches
  JavaScript's key-insertion-order enumeration semantics for non-index
  string keys.  A `Record<number, …>` keyed by nonnegative integers is
  enumerated by JavaScript in ascending numeric key order; this is modelled
  explicitly where such a record is built (`pathsOfSection`).
* `Array.prototype.sort` is stable (ES2019); it is modelled by a stable
  insertion sort (`sortByKey`) and the JS comparator
  `(a, b) => a.position.x - b.position.x` becomes the key function
  `fun el => el.position.x`.
* JavaScript truthiness of a boolean-or-undefined map read
  (`state.variables[v]`) is modelled as `getVar m v = some true`.
-/

/-- `LadderElementType` from
`src/features/ladder-editor/components/ladder-elements.tsx`. -/
inductive LadderElementType where
  | NO_CONTACT
  | NC_CONTACT
  | OUTPUT_COIL
  | SET_COIL
  | RESET_COIL
  | TIMER_BLOCK
  | COUNTER_BLOCK
  | CUSTOM_FB_BLOCK
  | WIRE_HORIZONTAL
  | WIRE_VERTICAL
  | WIRE_JUNCTION
deriving DecidableEq, Repr, Inhabited

/-- The `position: {x, y}` record of a placed element. -/
structure LadderPos where
  x : Nat
  y : Nat
deriving DecidableEq, Repr, Inhabited

/-- `LadderElement` from `ladder-utils.ts`.  The source field `variable` is a
Lean keyword and is rendered `varName` here.  The `selected?` UI flag plays no
role in analysis or simulation and is omitted. -/
structure LadderElement where
  id : String
  type : LadderElementType
  varName : String
  position : LadderPos
deriving DecidableEq, Repr, Inhabited

/-- `LadderRung` from `ladder-utils.ts`. -/
structure LadderRung where
  id : String
  elements : List LadderElement
  height : Nat
deriving DecidableEq, Repr

/-- Stable insertion of `a` after all already-placed items whose key is ≤ its
key.  Together with `sortByKey` this models the stable ascending
`Array.prototype.sort` with comparator `(a, b) => key(a) - key(b)`. -/
def insertByKey (key : α → Nat) (a : α) : List α → List α
  | [] => [a]
  | b :: r => if key b ≤ key a then b :: insertByKey key a r else a :: b :: r

/-- Stable ascending sort by a `Nat` key; models the stable
`Array.prototype.sort` of the source. -/
def sortByKey (key : α → Nat) (l : List α) : List α :=
  l.foldl (fun acc a => insertByKey key a acc) []

/-- Sort ladder elements by `position.x`; models
`.sort((a, b) => a.position.x - b.position.x)`. -/
def sortByX (l : List LadderElement) : List LadderElement :=
  sortByKey (fun el => el.position.x) l

/-- `isInputElement` from `ladder-utils.ts`: only the two contact kinds count
as input elements. -/
def isInputElement (type : LadderElementType) : Bool :=
  [LadderElementType.NO_CONTACT, LadderElementType.NC_CONTACT].contains type

/-- `isOutputElement` from `ladder-utils.ts`. -/
def isOutputElement (type : LadderElementType) : Bool :=
  [LadderElementType.OUTPUT_COIL, LadderElementType.SET_COIL,
    LadderElementType.RESET_COIL].contains type

/-- `convertElementToST` from `ladder-utils.ts` (priority-aware version). -/
def convertElementToST (element : LadderElement)
    (requireParentheses : Bool := false) : String :=
  match element.type with
  | LadderElementType.NO_CONTACT => element.varName
  | LadderElementType.NC_CONTACT =>
      let expression := "NOT " ++ element.varName
      if requireParentheses then "(" ++ expression ++ ")" else expression
  | LadderElementType.OUTPUT_COIL => element.varName
  | LadderElementType.SET_COIL => "SET(" ++ element.varName ++ ")"
  | LadderElementType.RESET_COIL => "RESET(" ++ element.varName ++ ")"
  | LadderElementType.TIMER_BLOCK =>
      element.varName ++ "(IN := TRUE, PT := T#1S)"
  | LadderElementType.COUNTER_BLOCK =>
      element.varName ++ "(CU := TRUE, PV := 10)"
  | _ => ""

/-- JavaScript `Array.prototype.join(sep)`. -/
def joinSep (sep : String) : List String → String
  | [] => ""
  | [s] => s
  | s :: r => s ++ sep ++ joinSep sep r

/-- `analyzeSeriesCircuit` from `ladder-utils.ts`: a pure AND chain, left to
right.  (The source's `length = 0` / `length = 1` special cases coincide with
`join(' AND ')` and are kept literally.) -/
def analyzeSeriesCircuit (inputElements : List LadderElement) : String :=
  let expressions := inputElements.map (fun el => convertElementToST el false)
  if expressions.length = 0 then ""
  else if expressions.length = 1 then expressions.headI
  else joinSep " AND " expressions

/-- The input elements of a rung: input-kind elements sorted by column.  Both
`analyzeRungLogic` and `LadderSimulator.executeRung` compute this same
expression (`filter(isInputElement).sort((a, b) => a.position.x - b.position.x)`). -/
def inputElementsOf (rung : LadderRung) : List LadderElement :=
  sortByX (rung.elements.filter (fun el => isInputElement el.type))

/-- The wire-junction elements of a rung, in grid order. -/
def junctionsOf (rung : LadderRung) : List LadderElement :=
  rung.elements.filter (fun el => el.type = LadderElementType.WIRE_JUNCTION)

/-- The output-kind elements of a rung. -/
def outputElementsOf (rung : LadderRung) : List LadderElement :=
  rung.elements.filter (fun el => isOutputElement el.type)

/-- The distinct `y` coordinates of a list of elements in ascending order.
JavaScript enumerates a `Record<number, …>` keyed by nonnegative integers in
ascending numeric key order, so `Object.values(pathsByY)` lists the groups by
ascending row. -/
def rowsOf (els : List LadderElement) : List Nat :=
  sortByKey id
    (els.foldl
      (fun acc el =>
        if acc.contains el.position.y then acc else acc ++ [el.position.y])
      [])

/-- Grouping a span's elements by row: the `pathsByY` record of the source,
read back with `Object.values` (ascending row order), each group re-sorted by
`x` (the source re-sorts each path even though the input is already sorted). -/
def pathsOfSection (els : List LadderElement) : List (List LadderElement) :=
  (rowsOf els).map
    (fun y => sortByX (els.filter (fun el => el.position.y = y)))

/-- The adjacent junction pairs `(sortedJunctions[i], sortedJunctions[i+1])`
iterated by the `for i` loops of `analyzeParallelCircuit` and
`executeParallelCircuit`. -/
def junctionPairs (sorted : List LadderElement) :
    List (LadderElement × LadderElement) :=
  sorted.zip sorted.tail

/-- The input elements of a junction-pair span: strictly between the two
junction columns. -/
def sectionEls (inputElements : List LadderElement)
    (pair : LadderElement × LadderElement) : List LadderElement :=
  inputElements.filter
    (fun el =>
      pair.1.position.x < el.position.x ∧ el.position.x < pair.2.position.x)

/-- The ST string pushed onto `sections` for one junction-pair span (empty
spans push nothing, modelled by `Option`); `analyzeParallelCircuit`'s loop
body. -/
def sectionStrOfPair (inputElements : List LadderElement)
    (pair : LadderElement × LadderElement) : Option String :=
  let els := sectionEls inputElements pair
  if els.length = 0 then none
  else
    let paths := pathsOfSection els
    if paths.length = 1 then
      some (joinSep " AND "
        ((paths.headI).map (fun el => convertElementToST el false)))
    else
      some ("(" ++
        joinSep " OR "
          (paths.map (fun path =>
            let pathST := path.map (fun el => convertElementToST el false)
            if pathST.length > 1 then "(" ++ joinSep " AND " pathST ++ ")"
            else pathST.headI)) ++ ")")

/-- `analyzeParallelCircuit` from `ladder-utils.ts`: leading series part,
one section per non-empty junction-pair span (single-row spans degenerate to a
series chain, multi-row spans become a parenthesised OR of paths), trailing
series part; all sections joined with `AND`. -/
def analyzeParallelCircuit (rung : LadderRung)
    (inputElements : List LadderElement)
    (junctions : List LadderElement) : String :=
  let _ := rung
  let sortedJunctions := sortByX junctions
  if sortedJunctions.length < 2 then analyzeSeriesCircuit inputElements
  else
    let firstJ := sortedJunctions.headI
    let lastJ := (sortedJunctions.reverse).headI
    let beforeFirstJunction := inputElements.filter
      (fun el => el.position.x < firstJ.position.x)
    let afterLastJunction := inputElements.filter
      (fun el => lastJ.position.x < el.position.x)
    let sections : List String :=
      beforeFirstJunction.map (fun el => convertElementToST el false)
        ++ (junctionPairs sortedJunctions).filterMap
            (sectionStrOfPair inputElements)
        ++ afterLastJunction.map (fun el => convertElementToST el false)
    if sections.length = 0 then ""
    else if sections.length = 1 then sections.headI
    else joinSep " AND " sections

/-- `analyzeRungLogic` from `ladder-utils.ts` (the `console.log` diagnostics
of the source are ignored): empty input set yields the empty expression; two
or more junctions select the parallel analysis, otherwise the series
analysis. -/
def analyzeRungLogic (rung : LadderRung) : String :=
  let inputElements := inputElementsOf rung
  if inputElements.length = 0 then ""
  else
    let wireJunctions := junctionsOf rung
    if 2 ≤ wireJunctions.length then
      analyzeParallelCircuit rung inputElements wireJunctions
    else analyzeSeriesCircuit inputElements

/-- A character the regex class `[^()]` accepts. -/
def notParen (c : Char) : Bool := ¬ (c = '(' ∨ c = ')')

/-- A character the JavaScript regex class `\s` accepts: the ASCII
whitespace characters `\f\n\r\t\v` and space together with the Unicode
whitespace code points U+00A0, U+1680, U+2000..U+200A, U+2028, U+2029,
U+202F, U+205F, U+3000 and U+FEFF. -/
def isWsChar (c : Char) : Bool :=
  c = ' ' ∨ c = '\t' ∨ c = '\n' ∨ c = '\r' ∨ c = '\x0b' ∨ c = '\x0c' ∨
  c = '\u00A0' ∨ c = '\u1680' ∨
  ('\u2000' ≤ c ∧ c ≤ '\u200A') ∨
  c = '\u2028' ∨ c = '\u2029' ∨ c = '\u202F' ∨ c = '\u205F' ∨
  c = '\u3000' ∨ c = '\uFEFF'

/-- `expression.replace(/^\(([^()]+)\)$/, '$1')`: if the whole string is a
single pair of parentheses around a nonempty parenthesis-free body, strip
them. -/
def stripOuterParens (l : List Char) : List Char :=
  match l with
  | [] => l
  | c :: rest =>
      if c = '(' ∧ rest.dropWhile notParen = [')'] ∧ rest.takeWhile notParen ≠ []
      then rest.takeWhile notParen
      else l

/-- One match attempt of `/\(\(([^()]+)\)\)/` at the head of the list: on
success returns the captured parenthesis-free body and the suffix after the
match.  (The greedy `[^()]+` run is the only candidate: giving characters
back would place a non-parenthesis where `))` is required.) -/
def tryDoubleParen (l : List Char) : Option (List Char × List Char) :=
  match l with
  | c0 :: c1 :: rest =>
      if c0 = '(' ∧ c1 = '(' then
        match rest.dropWhile notParen with
        | d0 :: d1 :: r2 =>
            if d0 = ')' ∧ d1 = ')' ∧ rest.takeWhile notParen ≠ [] then
              some (rest.takeWhile notParen, r2)
            else none
        | _ => none
      else none
  | _ => none

theorem tryDoubleParen_length {l body rest : List Char}
    (h : tryDoubleParen l = some (body, rest)) :
    rest.length < l.length := by
  match l with
  | [] => simp [tryDoubleParen] at h
  | [c] => simp [tryDoubleParen] at h
  | c0 :: c1 :: r =>
      simp only [tryDoubleParen] at h
      split at h
      · rename_i hd
        split at h
        · rename_i d0 d1 r2 hdrop
          split at h
          · simp only [Option.some.injEq, Prod.mk.injEq] at h
            obtain ⟨-, h2⟩ := h
            subst h2
            have hle : (r.dropWhile notParen).length ≤ r.length :=
              (List.dropWhile_sublist _).length_le
            rw [hdrop] at hle
            simp only [List.length_cons, List.length] at hle ⊢
            omega
          · exact absurd h (by simp)
        · exact absurd h (by simp)
      · exact absurd h (by simp)

/-- Global replacement `expression.replace(/\(\(([^()]+)\)\)/g, '($1)')`,
with an explicit step budget: scan left to right, replace each match by its
body in single parentheses, and continue scanning after the match (replaced
text is not rescanned).  Every step strictly shortens the remaining input
(`tryDoubleParen_length`), so with a budget of the input's length the budget
is never exhausted; the budget only makes the recursion structural. -/
def replaceDoubleParensF : Nat → List Char → List Char
  | 0, l => l
  | fuel + 1, l =>
      match tryDoubleParen l with
      | some (body, rest) => '(' :: body ++ ')' :: replaceDoubleParensF fuel rest
      | none =>
          match l with
          | [] => []
          | c :: cs => c :: replaceDoubleParensF fuel cs

/-- The global replacement `expression.replace(/\(\(([^()]+)\)\)/g, '($1)')`. -/
def replaceDoubleParens (l : List Char) : List Char :=
  replaceDoubleParensF l.length l

/-- One match attempt of `/NOT\s+NOT\s+/` at the head of the list: on success
returns the suffix after the match.  (The greedy `\s+` runs are the only
candidates: giving characters back would place a whitespace character where
`N`, or nothing, is required.) -/
def tryNotNot (l : List Char) : Option (List Char) :=
  match l with
  | c0 :: c1 :: c2 :: rest =>
      if c0 = 'N' ∧ c1 = 'O' ∧ c2 = 'T' ∧ rest.takeWhile isWsChar ≠ [] then
        match rest.dropWhile isWsChar with
        | d0 :: d1 :: d2 :: rest2 =>
            if d0 = 'N' ∧ d1 = 'O' ∧ d2 = 'T' ∧ rest2.takeWhile isWsChar ≠ []
            then some (rest2.dropWhile isWsChar)
            else none
        | _ => none
      else none
  | _ => none

theorem tryNotNot_length {l rest : List Char} (h : tryNotNot l = some rest) :
    rest.length < l.length := by
  match l with
  | [] => simp [tryNotNot] at h
  | [c] => simp [tryNotNot] at h
  | [c0, c1] => simp [tryNotNot] at h
  | c0 :: c1 :: c2 :: r =>
      simp only [tryNotNot] at h
      split at h
      · rename_i hword
        split at h
        · rename_i d0 d1 d2 r2 hdrop
          split at h
          · rename_i hword2
            simp only [Option.some.injEq] at h
            subst h
            have hle : (r.dropWhile isWsChar).length ≤ r.length :=
              (List.dropWhile_sublist _).length_le
            rw [hdrop] at hle
            have hle2 : (r2.dropWhile isWsChar).length ≤ r2.length :=
              (List.dropWhile_sublist _).length_le
            have hne : r2.takeWhile isWsChar ≠ [] := hword2.2.2.2
            have hlt : (r2.dropWhile isWsChar).length < r2.length := by
              cases r2 with
              | nil => simp at hne
              | cons e r3 =>
                by_cases he : isWsChar e
                · simp only [List.dropWhile_cons, he, if_true]
                  have : (r3.dropWhile isWsChar).length ≤ r3.length :=
                    (List.dropWhile_sublist _).length_le
                  simp only [List.length_cons]
                  omega
                · simp [List.takeWhile_cons, he] at hne
            simp only [List.length_cons] at hle ⊢
            omega
          · exact absurd h (by simp)
        · exact absurd h (by simp)
      · exact absurd h (by simp)

/-- Global replacement `expression.replace(/NOT\s+NOT\s+/g, '')`, with an
explicit step budget (cf. `replaceDoubleParensF`): scan left to right, delete
each match, and continue scanning after the match. -/
def replaceNotNotF : Nat → List Char → List Char
  | 0, l => l
  | fuel + 1, l =>
      match tryNotNot l with
      | some rest => replaceNotNotF fuel rest
      | none =>
          match l with
          | [] => []
          | c :: cs => c :: replaceNotNotF fuel cs

/-- The global replacement `expression.replace(/NOT\s+NOT\s+/g, '')`. -/
def replaceNotNot (l : List Char) : List Char :=
  replaceNotNotF l.length l

/-- `optimizeLogicExpression` from `ladder-utils.ts`: strip a single pair of
fully-wrapping parentheses, collapse doubled parentheses, collapse doubled
`NOT`, in that order. -/
def optimizeLogicExpression (expression : String) : String :=
  ⟨replaceNotNot (replaceDoubleParens (stripOuterParens expression.data))⟩

/-- `generateSTComment` from `ladder-utils.ts`. -/
def generateSTComment (rung : LadderRung) (rungIndex : Nat) : String :=
  let inputCount := (rung.elements.filter (fun el => isInputElement el.type)).length
  let outputCount := (rung.elements.filter (fun el => isOutputElement el.type)).length
  let junctionCount :=
    (rung.elements.filter
      (fun el => el.type = LadderElementType.WIRE_JUNCTION)).length
  let comment := "// Rung " ++ toString (rungIndex + 1)
  if 0 < junctionCount then
    comment ++ " (Parallel Circuit: " ++ toString inputCount ++ " inputs, "
      ++ toString outputCount ++ " outputs, " ++ toString junctionCount
      ++ " junctions)"
  else
    comment ++ " (Series Circuit: " ++ toString inputCount ++ " inputs, "
      ++ toString outputCount ++ " outputs)"

/-- The per-rung block of `convertToSTLanguage`: the rung comment, then — when
the rung's logic expression is nonempty — one assignment per output element
whose own ST rendering is nonempty, using the optimized expression. -/
def rungSTBlock (rung : LadderRung) (index : Nat) : String :=
  let logicExpression := analyzeRungLogic rung
  generateSTComment rung index ++ "\n"
    ++ (if logicExpression ≠ "" then
          String.join
            ((outputElementsOf rung).map (fun output =>
              let outputExpression := convertElementToST output false
              if outputExpression ≠ "" then
                outputExpression ++ " := "
                  ++ optimizeLogicExpression logicExpression ++ ";\n"
              else ""))
        else "")
    ++ "\n"

/-- `convertToSTLanguage` from `ladder-utils.ts` (the logic-structure-analysis
ST converter). -/
def convertToSTLanguage (rungs : List LadderRung) : String :=
  "// Generated ST Code from Ladder Logic\n\n"
    ++ String.join (rungs.enum.map (fun p => rungSTBlock p.2 p.1))

/-! ## The scan-cycle simulator (`LadderSimulator`) -/

/-- The contents of the `variables` record: a JavaScript object used as a
string-keyed boolean map, modelled as an association list in key-insertion
order. -/
def VarMap : Type := List (String × Bool)

instance : DecidableEq VarMap :=
  inferInstanceAs (DecidableEq (List (String × Bool)))

instance : Inhabited VarMap := ⟨([] : List (String × Bool))⟩

/-- Reading `m[v]`: `none` models JavaScript `undefined`. -/
def getVar (m : VarMap) (v : String) : Option Bool :=
  List.lookup v m

/-- Property write `m[v] = b`: update the value of an existing key in place,
otherwise append (JavaScript key-insertion-order semantics). -/
def updateVar (m : VarMap) (v : String) (b : Bool) : VarMap :=
  match m with
  | [] => [(v, b)]
  | (k, old) :: rest =>
      if k = v then (k, b) :: rest else (k, old) :: updateVar rest v b

/-- One timer's record in `SimulationState.timers`. -/
structure TimerState where
  current : Nat
  preset : Nat
  done : Bool
deriving DecidableEq, Repr

/-- One counter's record in `SimulationState.counters`. -/
structure CounterState where
  current : Nat
  preset : Nat
  done : Bool
deriving DecidableEq, Repr

/-- `SimulationState` from `ladder-utils.ts`: the contents of the state
object.  The source field `variables` is a Lean keyword and is rendered
`vars` here; the `timers`/`counters` records are association lists in
key-insertion order, as enumerated by `Object.keys`. -/
structure SimulationState where
  isRunning : Bool
  vars : VarMap
  timers : List (String × TimerState)
  counters : List (String × CounterState)
deriving DecidableEq

/-- `evaluateElement` from `ladder-utils.ts`:
`variables[v] || false` is truthiness of the read, `!variables[v]` is its
negation, timers/counters read their `_Q` output, anything else is the
neutral default `true`. -/
def evaluateElement (vars : VarMap) (element : LadderElement) : Bool :=
  match element.type with
  | LadderElementType.NO_CONTACT => getVar vars element.varName = some true
  | LadderElementType.NC_CONTACT =>
      ¬ (getVar vars element.varName = some true)
  | LadderElementType.TIMER_BLOCK =>
      getVar vars (element.varName ++ "_Q") = some true
  | LadderElementType.COUNTER_BLOCK =>
      getVar vars (element.varName ++ "_Q") = some true
  | _ => true

/-- `executeSeriesCircuit` from `ladder-utils.ts`. -/
def executeSeriesCircuit (vars : VarMap)
    (inputElements : List LadderElement) : Bool :=
  inputElements.all (evaluateElement vars)

/-- The boolean computed by `executeParallelCircuit`'s loop body for one
junction-pair span (empty spans push nothing, modelled by `Option`). -/
def sectionResultOfPair (vars : VarMap)
    (inputElements : List LadderElement)
    (pair : LadderElement × LadderElement) : Option Bool :=
  let els := sectionEls inputElements pair
  if els.length = 0 then none
  else
    let paths := pathsOfSection els
    if paths.length = 1 then
      some ((paths.headI).all (evaluateElement vars))
    else
      some (paths.any (fun path => path.all (evaluateElement vars)))

/-- `executeParallelCircuit` from `ladder-utils.ts`: the same partition into
leading series part, junction-pair spans, trailing series part as
`analyzeParallelCircuit`, combined by AND over sections (with OR over a
span's row paths). -/
def executeParallelCircuit (vars : VarMap) (rung : LadderRung)
    (inputElements : List LadderElement)
    (junctions : List LadderElement) : Bool :=
  let _ := rung
  let sortedJunctions := sortByX junctions
  if sortedJunctions.length < 2 then
    executeSeriesCircuit vars inputElements
  else
    let firstJ := sortedJunctions.headI
    let lastJ := (sortedJunctions.reverse).headI
    let beforeFirstJunction := inputElements.filter
      (fun el => el.position.x < firstJ.position.x)
    let afterLastJunction := inputElements.filter
      (fun el => lastJ.position.x < el.position.x)
    let sectionResults : List Bool :=
      (if beforeFirstJunction.length = 0 then []
       else [beforeFirstJunction.all (evaluateElement vars)])
        ++ (junctionPairs sortedJunctions).filterMap
            (sectionResultOfPair vars inputElements)
        ++ (if afterLastJunction.length = 0 then []
            else [afterLastJunction.all (evaluateElement vars)])
    sectionResults.all (fun result => result)

/-- `applyOutput` from `ladder-utils.ts`. -/
def applyOutput (vars : VarMap) (element : LadderElement)
    (condition : Bool) : VarMap :=
  match element.type with
  | LadderElementType.OUTPUT_COIL =>
      updateVar vars element.varName condition
  | LadderElementType.SET_COIL =>
      if condition then updateVar vars element.varName true else vars
  | LadderElementType.RESET_COIL =>
      if condition then updateVar vars element.varName false else vars
  | LadderElementType.TIMER_BLOCK =>
      updateVar vars (element.varName ++ "_EN") condition
  | LadderElementType.COUNTER_BLOCK =>
      updateVar vars (element.varName ++ "_CU") condition
  | _ => vars

/-- The `finalResult` computed inside `executeRung`: two or more junctions
select the parallel execution, otherwise the series execution. -/
def rungFinalResult (vars : VarMap) (rung : LadderRung) : Bool :=
  let wireJunctions := junctionsOf rung
  if 2 ≤ wireJunctions.length then
    executeParallelCircuit vars rung (inputElementsOf rung) wireJunctions
  else executeSeriesCircuit vars (inputElementsOf rung)

/-- `executeRung` from `ladder-utils.ts`: with no input elements every output
is driven with the condition `false`; otherwise every output is driven with
the rung's `finalResult`. -/
def executeRung (state : SimulationState) (rung : LadderRung) :
    SimulationState :=
  let inputElements := inputElementsOf rung
  let outputElements := outputElementsOf rung
  if inputElements.length = 0 then
    { state with
      vars :=
        outputElements.foldl (fun vs output => applyOutput vs output false)
          state.vars }
  else
    let finalResult := rungFinalResult state.vars rung
    { state with
      vars :=
        outputElements.foldl
          (fun vs output => applyOutput vs output finalResult)
          state.vars }

/-- The timer step of `LadderSimulator.scan`, for one timer entry: an enabled
timer accumulates 100 ms and publishes `done = current ≥ preset` to its `_Q`
variable; a disabled timer is cleared. -/
def processTimer (vars : VarMap) (name : String) (tm : TimerState) :
    TimerState × VarMap :=
  if getVar vars (name ++ "_EN") = some true then
    let current := tm.current + 100
    let done := decide (tm.preset ≤ current)
    (⟨current, tm.preset, done⟩, updateVar vars (name ++ "_Q") done)
  else
    (⟨0, tm.preset, false⟩, updateVar vars (name ++ "_Q") false)

/-- `Object.keys(this.state.timers).forEach(...)` of `scan`: process the
timer entries in enumeration order, threading the `variables` record. -/
def scanTimersGo (timers : List (String × TimerState)) (vars : VarMap) :
    List (String × TimerState) × VarMap :=
  match timers with
  | [] => ([], vars)
  | (name, tm) :: rest =>
      let (tm', vars') := processTimer vars name tm
      let (rest', vars'') := scanTimersGo rest vars'
      ((name, tm') :: rest', vars'')

/-- The timer-processing step of `scan`. -/
def scanTimers (state : SimulationState) : SimulationState :=
  let (timers', vars') := scanTimersGo state.timers state.vars
  { state with timers := timers', vars := vars' }

/-- The counter step of `LadderSimulator.scan`, for one counter entry: a
count-up increments and publishes `done = current ≥ preset`; afterwards (in
the same tick) an asserted reset clears the count, `done`, and `_Q`. -/
def processCounter (vars : VarMap) (name : String) (ct : CounterState) :
    CounterState × VarMap :=
  let step1 :=
    if getVar vars (name ++ "_CU") = some true then
      let current := ct.current + 1
      let done := decide (ct.preset ≤ current)
      ((⟨current, ct.preset, done⟩ : CounterState),
        updateVar vars (name ++ "_Q") done)
    else (ct, vars)
  if getVar step1.2 (name ++ "_R") = some true then
    (⟨0, step1.1.preset, false⟩, updateVar step1.2 (name ++ "_Q") false)
  else step1

/-- `Object.keys(this.state.counters).forEach(...)` of `scan`. -/
def scanCountersGo (counters : List (String × CounterState)) (vars : VarMap) :
    List (String × CounterState) × VarMap :=
  match counters with
  | [] => ([], vars)
  | (name, ct) :: rest =>
      let (ct', vars') := processCounter vars name ct
      let (rest', vars'') := scanCountersGo rest vars'
      ((name, ct') :: rest', vars'')

/-- The counter-processing step of `scan`. -/
def scanCounters (state : SimulationState) : SimulationState :=
  let (counters', vars') := scanCountersGo state.counters state.vars
  { state with counters := counters', vars := vars' }

/-- `LadderSimulator.scan`: timers, then counters, then every rung in
order. -/
def scan (rungs : List LadderRung) (state : SimulationState) :
    SimulationState :=
  rungs.foldl executeRung (scanCounters (scanTimers state))

/-! ## The unified code generator (`shared/lib/code-generation`) -/

/-- One entry of the variable list built by
`PLCCodeGenerator.extractVariablesFromLadder` and consumed by
`VariableDeclarationGenerator.generateSTDeclarations`. -/
structure STVarDecl where
  name : String
  type : String
  initialValue : Option String
deriving DecidableEq, Repr

/-- `CodeFormatter.addHeader`: the trailing `''` entry is removed again by
`filter(Boolean)`, so the header does *not* end in a newline. -/
def addHeader (targetLanguage : String) (sourceLanguage : Option String)
    (timestamp : String) : String :=
  joinSep "\n"
    ((["// Generated " ++ targetLanguage ++ " Code",
       (match sourceLanguage with
        | some s => "// Converted from " ++ s
        | none => ""),
       "// Generated on: " ++ timestamp,
       ""]).filter (fun s => s ≠ ""))

/-- `VariableDeclarationGenerator.generateSTDeclarations`. -/
def generateSTDeclarations (vars : List STVarDecl) : String :=
  if vars.length = 0 then ""
  else
    joinSep "\n"
      (["VAR"]
        ++ vars.map (fun v =>
            "    " ++ v.name ++ " : " ++ v.type
              ++ (match v.initialValue with
                  | some iv => " := " ++ iv
                  | none => "")
              ++ ";")
        ++ ["END_VAR", ""])

/-- The type heuristic of `extractVariablesFromLadder`: `let type = 'BOOL'`,
then two successive `if`s overwrite it for a `T` or `C` name prefix. -/
def ladderVarType (v : String) : String :=
  let type1 := if v.startsWith "T" then "TON" else "BOOL"
  if v.startsWith "C" then "CTU" else type1

/-- The loop body of `extractVariablesFromLadder`: the state is the
`variableSet` (a `Set`, modelled by its insertion-ordered element list) and
the `variables` output array. -/
def extractStep (st : List String × List STVarDecl) (el : LadderElement) :
    List String × List STVarDecl :=
  if el.varName ≠ "" ∧ el.varName ≠ "WIRE" ∧ ¬ st.1.contains el.varName then
    (st.1 ++ [el.varName],
      st.2 ++ [⟨el.varName, ladderVarType el.varName, none⟩])
  else st

/-- `PLCCodeGenerator.extractVariablesFromLadder`: first-occurrence
deduplication (a `Set` guard) over all elements of all rungs, skipping empty
(falsy) and `'WIRE'` variables. -/
def extractVariablesFromLadder (rungs : List LadderRung) : List STVarDecl :=
  (rungs.foldl (fun st rung => rung.elements.foldl extractStep st)
    (([], []) : List String × List STVarDecl)).2

/-- `PLCCodeGenerator.convertRungToST`: a rung comment, then — when both an
input and an output were collected in sorted order — one plain AND-chain
assignment per output.  (This generator has no parallel analysis.) -/
def convertRungToST (rung : LadderRung) (rungNumber : Nat) : String :=
  let sortedElements := sortByX rung.elements
  let inputs := sortedElements.filterMap (fun el =>
    match el.type with
    | LadderElementType.NO_CONTACT => some el.varName
    | LadderElementType.NC_CONTACT => some ("NOT " ++ el.varName)
    | _ => none)
  let outputs := sortedElements.filterMap (fun el =>
    match el.type with
    | LadderElementType.OUTPUT_COIL => some el.varName
    | LadderElementType.SET_COIL => some el.varName
    | LadderElementType.RESET_COIL => some el.varName
    | _ => none)
  "// Rung " ++ toString rungNumber ++ "\n"
    ++ (if 0 < inputs.length ∧ 0 < outputs.length then
          String.join (outputs.map (fun output =>
            output ++ " := " ++ joinSep " AND " inputs ++ ";\n"))
        else "")
    ++ "\n"

/-- `PLCCodeGenerator.convertLadderToST` (for `options.formatOutput = false`,
in which case the cosmetic `formatCode` whitespace post-pass is skipped and
the built `code` string is returned as is): header, then — when any variable
was referenced — the `VAR … END_VAR` declaration block, then one block per
rung.  The nondeterministic `new Date().toISOString()` of `addHeader` is
passed in as `timestamp`. -/
def convertLadderToST (rungs : List LadderRung) (timestamp : String) :
    String :=
  addHeader "ST" (some "Ladder Diagram") timestamp
    ++ (let vars := extractVariablesFromLadder rungs
        if 0 < vars.length then generateSTDeclarations vars else "")
    ++ String.join (rungs.enum.map (fun p => convertRungToST p.2 (p.1 + 1)))

/-! ## Object identity: the simulator's state object and `getState` -/

/-- The mutable map objects a `LadderSimulator` owns, addressed by reference.
The class allocates exactly one `variables`, one `timers` and one `counters`
object (in its constructor) and never reassigns those fields — every later
mutation (`setVariable`, `scan`, `applyOutput`) writes *through* them. -/
structure SimHeap where
  varObjs : List VarMap
  timerObjs : List (List (String × TimerState))
  counterObjs : List (List (String × CounterState))
deriving DecidableEq

/-- The `this.state` object of `LadderSimulator`: the primitive `isRunning`
plus references to the three map objects. -/
structure StateObj where
  isRunning : Bool
  varsRef : Nat
  timersRef : Nat
  countersRef : Nat
deriving DecidableEq, Repr

/-- A `LadderSimulator` instance: its state object, its rungs, and the
private `intervalId` handle. -/
structure LadderSimulatorObj where
  stateObj : StateObj
  rungs : List LadderRung
  intervalId : Option Nat
deriving DecidableEq, Repr

/-- Property write `o[k] = v` on a string-keyed record of arbitrary values:
update the value of an existing key in place, otherwise append. -/
def updateAssoc (m : List (String × α)) (k : String) (v : α) :
    List (String × α) :=
  match m with
  | [] => [(k, v)]
  | (k0, v0) :: rest =>
      if k0 = k then (k0, v) :: rest else (k0, v0) :: updateAssoc rest k v

/-- The contents `initializeVariables` gives the three fresh map objects:
contacts and coils start `false`; timers start `{current: 0, preset: 1000,
done: false}`; counters start `{current: 0, preset: 10, done: false}`; empty
and `'WIRE'` variables are skipped. -/
def initContents (rungs : List LadderRung) :
    VarMap × List (String × TimerState) × List (String × CounterState) :=
  rungs.foldl
    (fun st rung =>
      rung.elements.foldl
        (fun st el =>
          if el.varName ≠ "" ∧ el.varName ≠ "WIRE" then
            match el.type with
            | LadderElementType.NO_CONTACT =>
                (updateVar st.1 el.varName false, st.2)
            | LadderElementType.NC_CONTACT =>
                (updateVar st.1 el.varName false, st.2)
            | LadderElementType.OUTPUT_COIL =>
                (updateVar st.1 el.varName false, st.2)
            | LadderElementType.SET_COIL =>
                (updateVar st.1 el.varName false, st.2)
            | LadderElementType.RESET_COIL =>
                (updateVar st.1 el.varName false, st.2)
            | LadderElementType.TIMER_BLOCK =>
                (st.1, (updateAssoc st.2.1 el.varName ⟨0, 1000, false⟩, st.2.2))
            | LadderElementType.COUNTER_BLOCK =>
                (st.1, (st.2.1, updateAssoc st.2.2 el.varName ⟨0, 10, false⟩))
            | _ => st
          else st)
        st)
    (([], [], []) : VarMap × List (String × TimerState)
      × List (String × CounterState))

/-- The `LadderSimulator` constructor: allocate the state object's three map
objects on the heap (fresh references) and fill them via
`initializeVariables`. -/
def newLadderSimulator (rungs : List LadderRung) (h : SimHeap) :
    SimHeap × LadderSimulatorObj :=
  let contents := initContents rungs
  let sim : LadderSimulatorObj :=
    { stateObj :=
        { isRunning := false
          varsRef := h.varObjs.length
          timersRef := h.timerObjs.length
          countersRef := h.counterObjs.length }
      rungs := rungs
      intervalId := none }
  ({ varObjs := h.varObjs ++ [contents.1]
     timerObjs := h.timerObjs ++ [contents.2.1]
     counterObjs := h.counterObjs ++ [contents.2.2] }, sim)

/-- `LadderSimulator.getState`: `return { ...this.state }` — a *shallow*
spread copy of the state object.  `isRunning` is a primitive and is copied by
value; `variables`, `timers` and `counters` are object references and the
copy holds the *same* references. -/
def getState (sim : LadderSimulatorObj) : StateObj :=
  sim.stateObj

/-- Reading a snapshot's (or the live state's) `variables` object: dereference
its `varsRef` in the current heap. -/
def derefVars (h : SimHeap) (ref : Nat) : VarMap :=
  h.varObjs.getD ref default

/-- `LadderSimulator.setVariable`: `this.state.variables[variable] = value`
mutates the `variables` object in place, i.e. writes through the
reference. -/
def setVariable (h : SimHeap) (sim : LadderSimulatorObj) (v : String)
    (value : Bool) : SimHeap :=
  { h with
    varObjs :=
      h.varObjs.set sim.stateObj.varsRef
        (updateVar (derefVars h sim.stateObj.varsRef) v value) }

/-! ## The run-state machine (`start` / `stop`) -/

/-- The control state touched by `LadderSimulator.start`/`stop`: the
`state.isRunning` flag and the private `intervalId` handle. -/
structure SimCtl where
  isRunning : Bool
  intervalId : Option Nat
deriving DecidableEq, Repr

/-- The control state after the constructor: not running, `intervalId =
null`. -/
def initialCtl : SimCtl := ⟨false, none⟩

/-- `LadderSimulator.start`: early-return when already running; otherwise set
`isRunning` and store the (non-null) handle returned by `setInterval`. -/
def startSim (c : SimCtl) (handle : Nat) : SimCtl :=
  if c.isRunning then c else { isRunning := true, intervalId := some handle }

/-- `LadderSimulator.stop`: early-return when not running; otherwise clear
`isRunning`, and clear the interval and null the handle when one is held. -/
def stopSim (c : SimCtl) : SimCtl :=
  if ¬ c.isRunning then c
  else
    { isRunning := false
      intervalId := if c.intervalId.isSome then none else c.intervalId }

/-- A call in a `start()`/`stop()` call sequence (the `handle` of a `start`
is the value `setInterval` returned on that call). -/
inductive CtlOp where
  | start (handle : Nat)
  | stop
deriving DecidableEq, Repr

/-- Run a finite sequence of `start()`/`stop()` calls. -/
def runCtl (c : SimCtl) : List CtlOp → SimCtl
  | [] => c
  | CtlOp.start h :: rest => runCtl (startSim c h) rest
  | CtlOp.stop :: rest => runCtl (stopSim c) rest

/-! ## Small helpers for concrete computations -/

/-- `pat` is a prefix of `l` (executable). -/
def listStarts (l pat : List Char) : Bool :=
  match pat, l with
  | [], _ => true
  | _ :: _, [] => false
  | p :: ps, c :: cs => p = c ∧ listStarts cs ps

/-- `pat` occurs as a contiguous substring of `l` (executable). -/
def containsSub (l pat : List Char) : Bool :=
  match l with
  | [] => listStarts [] pat
  | _ :: t => listStarts l pat ∨ containsSub t pat

/-- `sub` occurs as a contiguous substring of `s`. -/
def strContains (s sub : String) : Bool :=
  containsSub s.data sub.data

/-- Evaluation helper: `generateSTComment` with the three element counts
supplied as explicit numerals, so that `toString` can reduce. -/
theorem generateSTComment_spec (rung : LadderRung) (idx ic oc jc : Nat)
    (h1 : (rung.elements.filter (fun el => isInputElement el.type)).length = ic)
    (h2 : (rung.elements.filter (fun el => isOutputElement el.type)).length = oc)
    (h3 : (rung.elements.filter
      (fun el => el.type = LadderElementType.WIRE_JUNCTION)).length = jc) :
    generateSTComment rung idx =
      if 0 < jc then
        "// Rung " ++ toString (idx + 1) ++ " (Parallel Circuit: "
          ++ toString ic ++ " inputs, " ++ toString oc ++ " outputs, "
          ++ toString jc ++ " junctions)"
      else
        "// Rung " ++ toString (idx + 1) ++ " (Series Circuit: "
          ++ toString ic ++ " inputs, " ++ toString oc ++ " outputs)" := by
  subst h1
  subst h2
  subst h3
  rfl

theorem sortByX_pair (e1 e2 : LadderElement)
    (h : e1.position.x ≤ e2.position.x) : sortByX [e1, e2] = [e1, e2] := by
  simp [sortByX, sortByKey, insertByKey, h]

theorem sortByX_pair_swap (e1 e2 : LadderElement)
    (h : ¬ e1.position.x ≤ e2.position.x) : sortByX [e1, e2] = [e2, e1] := by
  simp [sortByX, sortByKey, insertByKey, h]

/-- The series rung of claim C4: a NO contact `A`, an NC contact `B`, an
output coil `Y`, no junctions. -/
def seriesRungC4 (idA idB idY : String) (a b : Nat) (pa pb py : Nat)
    (cy : Nat) : LadderRung :=
  ⟨"rung-series",
    [⟨idA, LadderElementType.NO_CONTACT, "A", ⟨a, pa⟩⟩,
     ⟨idB, LadderElementType.NC_CONTACT, "B", ⟨b, pb⟩⟩,
     ⟨idY, LadderElementType.OUTPUT_COIL, "Y", ⟨cy, py⟩⟩], 1⟩

/-- C4: for a rung with a NO contact `A`, an NC contact `B` at a larger
column, and an output coil `Y` (and no junctions), the ST emitter emits the
assignment `Y := A AND NOT B;`. -/
theorem series_rung_emits_Y_eq_A_and_not_B
    (idA idB idY : String) (a b : Nat) (pa pb py cy : Nat) (hab : a < b) :
    convertToSTLanguage [seriesRungC4 idA idB idY a b pa pb py cy] =
      "// Generated ST Code from Ladder Logic\n\n// Rung 1 (Series Circuit: 2 inputs, 1 outputs)\nY := A AND NOT B;\n\n" := by
  have h1 : inputElementsOf (seriesRungC4 idA idB idY a b pa pb py cy) =
      [⟨idA, LadderElementType.NO_CONTACT, "A", ⟨a, pa⟩⟩,
        ⟨idB, LadderElementType.NC_CONTACT, "B", ⟨b, pb⟩⟩] := by
    have hf : (seriesRungC4 idA idB idY a b pa pb py cy).elements.filter
        (fun el => isInputElement el.type) =
        [⟨idA, LadderElementType.NO_CONTACT, "A", ⟨a, pa⟩⟩,
          ⟨idB, LadderElementType.NC_CONTACT, "B", ⟨b, pb⟩⟩] := rfl
    unfold inputElementsOf
    rw [hf]
    exact sortByX_pair _ _ (Nat.le_of_lt hab)
  have h2 : analyzeRungLogic (seriesRungC4 idA idB idY a b pa pb py cy) =
      "A AND NOT B" := by
    unfold analyzeRungLogic
    rw [h1]
    rfl
  have h3 : rungSTBlock (seriesRungC4 idA idB idY a b pa pb py cy) 0 =
      "// Rung 1 (Series Circuit: 2 inputs, 1 outputs)\nY := A AND NOT B;\n\n" := by
    unfold rungSTBlock
    rw [h2, generateSTComment_spec (seriesRungC4 idA idB idY a b pa pb py cy)
      0 2 1 0 rfl rfl rfl]
    rfl
  show "// Generated ST Code from Ladder Logic\n\n"
      ++ String.join [rungSTBlock (seriesRungC4 idA idB idY a b pa pb py cy) 0]
      = _
  rw [h3]
  rfl

/-- Witness for C4 at concrete columns 1 < 2. -/
theorem series_rung_emits_Y_eq_A_and_not_B_witness :
    convertToSTLanguage [seriesRungC4 "i1" "i2" "i3" 1 2 0 0 0 4] =
      "// Generated ST Code from Ladder Logic\n\n// Rung 1 (Series Circuit: 2 inputs, 1 outputs)\nY := A AND NOT B;\n\n" :=
  series_rung_emits_Y_eq_A_and_not_B "i1" "i2" "i3" 1 2 0 0 0 4
    (by decide)

/-- The parallel rung of claim C2: wire junctions at columns 2 and 5, a NO
contact `A` on row 0 and a NO contact `B` on row 1 between them, and an
output coil `Y`. -/
def parRungC2 (idJ1 idJ2 idA idB idY : String) (a b yj1 yj2 cy py : Nat) :
    LadderRung :=
  ⟨"rung-parallel",
    [⟨idJ1, LadderElementType.WIRE_JUNCTION, "WIRE", ⟨2, yj1⟩⟩,
     ⟨idJ2, LadderElementType.WIRE_JUNCTION, "WIRE", ⟨5, yj2⟩⟩,
     ⟨idA, LadderElementType.NO_CONTACT, "A", ⟨a, 0⟩⟩,
     ⟨idB, LadderElementType.NO_CONTACT, "B", ⟨b, 1⟩⟩,
     ⟨idY, LadderElementType.OUTPUT_COIL, "Y", ⟨cy, py⟩⟩], 2⟩

set_option maxRecDepth 4000 in
/-- C2, counterexample: for the claimed rung (junctions at columns 2 and 5,
`A` at row 0 and `B` at row 1 strictly between them, output `Y`) the emitted
code contains `Y := A OR B;` and does *not* contain the claimed
`Y := (A OR B);` — `optimizeLogicExpression` strips the fully-wrapping
parentheses of the OR group. -/
theorem parallel_rung_claimed_output_refuted :
    convertToSTLanguage [parRungC2 "j1" "j2" "ia" "ib" "iy" 3 4 0 0 6 0] =
      "// Generated ST Code from Ladder Logic\n\n// Rung 1 (Parallel Circuit: 2 inputs, 1 outputs, 2 junctions)\nY := A OR B;\n\n"
    ∧ strContains
        (convertToSTLanguage [parRungC2 "j1" "j2" "ia" "ib" "iy" 3 4 0 0 6 0])
        "Y := (A OR B);" = false := by
  constructor
  · rfl
  · decide

set_option maxRecDepth 8000 in
/-- C2, amended: for a rung with wire junctions at columns 2 and 5, a NO
contact `A` on row 0 and a NO contact `B` on row 1 with columns strictly
between the junctions, and an output coil `Y`, the ST emitter produces the
assignment `Y := A OR B;` — the parallel OR group synthesized as `(A OR B)`
loses its fully-wrapping parentheses to the cosmetic
`optimizeLogicExpression` pass. -/
theorem parallel_rung_emits_Y_eq_A_or_B (a b : Nat)
    (h2a : 2 < a) (ha5 : a < 5) (h2b : 2 < b) (hb5 : b < 5) :
    convertToSTLanguage [parRungC2 "j1" "j2" "ia" "ib" "iy" a b 0 0 6 0] =
      "// Generated ST Code from Ladder Logic\n\n// Rung 1 (Parallel Circuit: 2 inputs, 1 outputs, 2 junctions)\nY := A OR B;\n\n" := by
  have ha : a = 3 ∨ a = 4 := by omega
  have hb : b = 3 ∨ b = 4 := by omega
  rcases ha with rfl | rfl <;> rcases hb with rfl | rfl <;> rfl

/-- Witness for the amended C2 at concrete columns `A` at 3, `B` at 4. -/
theorem parallel_rung_emits_Y_eq_A_or_B_witness :
    convertToSTLanguage [parRungC2 "j1" "j2" "ia" "ib" "iy" 3 4 0 0 6 0] =
      "// Generated ST Code from Ladder Logic\n\n// Rung 1 (Parallel Circuit: 2 inputs, 1 outputs, 2 junctions)\nY := A OR B;\n\n" :=
  parallel_rung_emits_Y_eq_A_or_B 3 4 (by decide) (by decide) (by decide)
    (by decide)

/-! ## Substring facts -/

theorem listStarts_append_self (p r : List Char) :
    listStarts (p ++ r) p = true := by
  induction p with
  | nil => simp [listStarts]
  | cons c cs ih => simp [listStarts, ih]

theorem listStarts_append_of {l : List Char} (pat r : List Char)
    (h : listStarts l pat = true) : listStarts (l ++ r) pat = true := by
  induction pat generalizing l with
  | nil => simp [listStarts]
  | cons p ps ih =>
      cases l with
      | nil => simp [listStarts] at h
      | cons c cs =>
          simp only [listStarts, Bool.and_eq_true, decide_eq_true_eq] at h ⊢
          exact ⟨h.1, by simpa using @ih cs h.2⟩

theorem containsSub_of_starts {l pat : List Char}
    (h : listStarts l pat = true) : containsSub l pat = true := by
  cases l with
  | nil => simpa [containsSub] using h
  | cons c cs => simp [containsSub, h]

theorem containsSub_append_left (x : List Char) {rest pat : List Char}
    (h : containsSub rest pat = true) : containsSub (x ++ rest) pat = true := by
  induction x with
  | nil => simpa using h
  | cons c cs ih => simp [containsSub, ih]

/-- A string of the shape `a ++ b ++ c` contains `b` as a substring. -/
theorem strContains_mid (a b c : String) :
    strContains (a ++ b ++ c) b = true := by
  unfold strContains
  rw [String.append_assoc, String.data_append]
  refine containsSub_append_left _ (containsSub_of_starts ?_)
  rw [String.data_append]
  exact listStarts_append_self _ _

/-! ## The declaration block of `convertLadderToST` (claim C3) -/

theorem extract_eq_flat (rungs : List LadderRung) :
    extractVariablesFromLadder rungs =
      ((rungs.flatMap (fun r => r.elements)).foldl extractStep ([], [])).2 := by
  suffices h : ∀ init : List String × List STVarDecl,
      rungs.foldl (fun st rung => rung.elements.foldl extractStep st) init =
        (rungs.flatMap (fun r => r.elements)).foldl extractStep init by
    unfold extractVariablesFromLadder
    rw [h]
  intro init
  induction rungs generalizing init with
  | nil => rfl
  | cons r rs ih => simp [List.flatMap_cons, List.foldl_append, ih]

theorem extractGo_spec (els : List LadderElement)
    (st : List String × List STVarDecl)
    (hinv : st.1 = st.2.map (fun d => d.name)) :
    (els.foldl extractStep st).1 =
        (els.foldl extractStep st).2.map (fun d => d.name)
    ∧ (∀ v, v ∈ (els.foldl extractStep st).1 ↔
        v ∈ st.1 ∨ ∃ el ∈ els, el.varName = v ∧ v ≠ "" ∧ v ≠ "WIRE")
    ∧ (∀ d, d ∈ (els.foldl extractStep st).2 → d ∈ st.2 ∨
        (d.type = ladderVarType d.name ∧ d.initialValue = none)) := by
  induction els generalizing st with
  | nil => exact ⟨hinv, fun v => by simp, fun d hd => Or.inl hd⟩
  | cons el rest ih =>
      rw [List.foldl_cons]
      by_cases hc : el.varName ≠ "" ∧ el.varName ≠ "WIRE"
          ∧ ¬ st.1.contains el.varName
      · have hstep : extractStep st el =
            (st.1 ++ [el.varName],
              st.2 ++ [⟨el.varName, ladderVarType el.varName, none⟩]) := by
          simp only [extractStep, if_pos hc]
        obtain ⟨ih1, ih2, ih3⟩ := ih (extractStep st el)
          (by rw [hstep]; simp [hinv])
        refine ⟨ih1, ?_, ?_⟩
        · intro v
          rw [ih2 v, hstep]
          constructor
          · rintro (h | ⟨e, he, h1, h2, h3⟩)
            · rcases List.mem_append.mp h with h | h
              · exact Or.inl h
              · rcases List.mem_singleton.mp h with rfl
                exact Or.inr ⟨el, List.mem_cons_self _ _, rfl, hc.1, hc.2.1⟩
            · exact Or.inr ⟨e, List.mem_cons_of_mem _ he, h1, h2, h3⟩
          · rintro (h | ⟨e, he, h1, h2, h3⟩)
            · exact Or.inl (List.mem_append.mpr (Or.inl h))
            · rcases List.mem_cons.mp he with rfl | he2
              · exact Or.inl (List.mem_append.mpr
                  (Or.inr (List.mem_singleton.mpr h1.symm)))
              · exact Or.inr ⟨e, he2, h1, h2, h3⟩
        · intro d hd
          rcases ih3 d hd with h | h
          · rw [hstep] at h
            rcases List.mem_append.mp h with h | h
            · exact Or.inl h
            · rcases List.mem_singleton.mp h with rfl
              exact Or.inr ⟨rfl, rfl⟩
          · exact Or.inr h
      · have hstep : extractStep st el = st := by
          simp only [extractStep, if_neg hc]
        rw [hstep]
        obtain ⟨ih1, ih2, ih3⟩ := ih st hinv
        refine ⟨ih1, ?_, ih3⟩
        intro v
        rw [ih2 v]
        constructor
        · rintro (h | ⟨e, he, h1, h2, h3⟩)
          · exact Or.inl h
          · exact Or.inr ⟨e, List.mem_cons_of_mem _ he, h1, h2, h3⟩
        · rintro (h | ⟨e, he, h1, h2, h3⟩)
          · exact Or.inl h
          · rcases List.mem_cons.mp he with heq | he2
            · have h1e : el.varName = v := heq ▸ h1
              have hcontains : st.1.contains el.varName = true := by
                by_contra hnc
                exact hc ⟨by rw [h1e]; exact h2, by rw [h1e]; exact h3,
                  by simpa using hnc⟩
              exact Or.inl (h1e ▸ List.elem_iff.mp hcontains)
            · exact Or.inr ⟨e, he2, h1, h2, h3⟩

/-- `suf` is a suffix of `s` (executable). -/
def strEnds (s suf : String) : Bool :=
  listStarts s.data.reverse suf.data.reverse

theorem joinSep_cons (sep s : String) (l : List String) (h : l ≠ []) :
    joinSep sep (s :: l) = s ++ sep ++ joinSep sep l := by
  cases l with
  | nil => exact absurd rfl h
  | cons t r => rfl

theorem gen_decl_starts (vars : List STVarDecl) (h : vars ≠ []) :
    listStarts (generateSTDeclarations vars).data ("VAR\n").data = true := by
  unfold generateSTDeclarations
  rw [if_neg (by simpa using h)]
  rw [List.append_assoc, List.singleton_append]
  rw [joinSep_cons _ _ _ (by simp)]
  rw [String.data_append, String.data_append]
  exact listStarts_append_self _ _

theorem joinSep_end_block (l : List String) :
    ∃ pre : String,
      joinSep "\n" (l ++ ["END_VAR", ""]) = pre ++ "END_VAR\n" := by
  induction l with
  | nil => exact ⟨"", rfl⟩
  | cons x r ih =>
      obtain ⟨pre, hpre⟩ := ih
      refine ⟨x ++ "\n" ++ pre, ?_⟩
      rw [show ((x :: r) ++ ["END_VAR", ""]) = x :: (r ++ ["END_VAR", ""])
        from rfl]
      rw [joinSep_cons _ _ _ (by simp), hpre, String.append_assoc,
        String.append_assoc, String.append_assoc]

theorem gen_decl_ends (vars : List STVarDecl) (h : vars ≠ []) :
    strEnds (generateSTDeclarations vars) "END_VAR\n" = true := by
  unfold generateSTDeclarations
  rw [if_neg (by simpa using h)]
  rw [List.append_assoc, List.singleton_append, ← List.cons_append]
  obtain ⟨pre, hpre⟩ := joinSep_end_block ("VAR" :: vars.map (fun v =>
    "    " ++ v.name ++ " : " ++ v.type
      ++ (match v.initialValue with
          | some iv => " := " ++ iv
          | none => "")
      ++ ";"))
  rw [hpre]
  unfold strEnds
  rw [String.data_append, List.reverse_append]
  exact listStarts_append_self _ _

set_option maxRecDepth 4000 in
/-- C3, counterexample: the emitted ST program of `convertToSTLanguage` (the
ladder ST emitter the claim points at) contains no `VAR`/`END_VAR`
declaration block at all — for a rung referencing `A`, `B` and `Y` its output
never even contains the token `VAR`. -/
theorem convertToSTLanguage_has_no_var_block :
    strContains
        (convertToSTLanguage [seriesRungC4 "i1" "i2" "i3" 1 2 0 0 0 4])
        "VAR" = false
    ∧ strContains
        (convertToSTLanguage [seriesRungC4 "i1" "i2" "i3" 1 2 0 0 0 4])
        "END_VAR" = false := by
  constructor
  · decide
  · decide

/-- C3, amended: the ladder emitter `convertToSTLanguage` emits no
declaration block; it is the separate unified generator
`PLCCodeGenerator.convertLadderToST` whose output contains a
`VAR … END_VAR` block covering the union of all variables referenced across
the rungs (first-occurrence order, excluding wire sentinels and empty
names), each typed from the variable-name prefix (`C*` → `CTU`, `T*` →
`TON`, otherwise `BOOL`). -/
theorem convertLadderToST_var_block (rungs : List LadderRung) (ts : String) :
    (∀ v, v ∈ (extractVariablesFromLadder rungs).map (fun d => d.name) ↔
      ∃ rung ∈ rungs, ∃ el ∈ rung.elements,
        el.varName = v ∧ v ≠ "" ∧ v ≠ "WIRE")
    ∧ (∀ d ∈ extractVariablesFromLadder rungs,
        d.type = (if d.name.startsWith "C" then "CTU"
          else if d.name.startsWith "T" then "TON" else "BOOL"))
    ∧ (extractVariablesFromLadder rungs ≠ [] →
        strContains (convertLadderToST rungs ts)
            (generateSTDeclarations (extractVariablesFromLadder rungs)) = true
        ∧ listStarts (generateSTDeclarations
            (extractVariablesFromLadder rungs)).data ("VAR\n").data = true
        ∧ strEnds (generateSTDeclarations (extractVariablesFromLadder rungs))
            "END_VAR\n" = true) := by
  obtain ⟨spec1, spec2, spec3⟩ :=
    extractGo_spec (rungs.flatMap (fun r => r.elements)) ([], []) rfl
  refine ⟨?_, ?_, ?_⟩
  · intro v
    rw [extract_eq_flat, ← spec1, spec2 v]
    simp only [List.mem_nil_iff, false_or, List.mem_flatMap]
    constructor
    · rintro ⟨el, ⟨r, hr, hel⟩, h1, h2, h3⟩
      exact ⟨r, hr, el, hel, h1, h2, h3⟩
    · rintro ⟨r, hr, el, hel, h1, h2, h3⟩
      exact ⟨el, ⟨r, hr, hel⟩, h1, h2, h3⟩
  · intro d hd
    rw [extract_eq_flat] at hd
    rcases spec3 d hd with h | ⟨h, -⟩
    · simp at h
    · rw [h]
      unfold ladderVarType
      rfl
  · intro hne
    have hlen : 0 < (extractVariablesFromLadder rungs).length :=
      List.length_pos.mpr hne
    have heq : convertLadderToST rungs ts =
        addHeader "ST" (some "Ladder Diagram") ts
          ++ generateSTDeclarations (extractVariablesFromLadder rungs)
          ++ String.join
              (rungs.enum.map (fun p => convertRungToST p.2 (p.1 + 1))) := by
      unfold convertLadderToST
      rw [if_pos hlen]
    refine ⟨?_, gen_decl_starts _ hne, gen_decl_ends _ hne⟩
    rw [heq]
    exact strContains_mid _ _ _

/-- Witness for the amended C3 at a concrete rung referencing `A`, `T001`
and `Y`. -/
theorem convertLadderToST_var_block_witness :
    strContains
        (convertLadderToST
          [⟨"r", [⟨"e1", LadderElementType.NO_CONTACT, "A", ⟨1, 0⟩⟩,
            ⟨"e2", LadderElementType.TIMER_BLOCK, "T001", ⟨3, 0⟩⟩,
            ⟨"e3", LadderElementType.OUTPUT_COIL, "Y", ⟨6, 0⟩⟩], 1⟩] "TS")
        (generateSTDeclarations (extractVariablesFromLadder
          [⟨"r", [⟨"e1", LadderElementType.NO_CONTACT, "A", ⟨1, 0⟩⟩,
            ⟨"e2", LadderElementType.TIMER_BLOCK, "T001", ⟨3, 0⟩⟩,
            ⟨"e3", LadderElementType.OUTPUT_COIL, "Y", ⟨6, 0⟩⟩], 1⟩])) =
      true :=
  ((convertLadderToST_var_block
    [⟨"r", [⟨"e1", LadderElementType.NO_CONTACT, "A", ⟨1, 0⟩⟩,
      ⟨"e2", LadderElementType.TIMER_BLOCK, "T001", ⟨3, 0⟩⟩,
      ⟨"e3", LadderElementType.OUTPUT_COIL, "Y", ⟨6, 0⟩⟩], 1⟩] "TS").2.2
    (by decide)).1

/-! ## Run-state invariant (claim C10) -/

/-- C10: after construction and any finite sequence of `start()`/`stop()`
calls, `isRunning` holds exactly when the interval handle is non-null; and
`start()` on a running simulator and `stop()` on a stopped simulator leave
the control state unchanged. -/
theorem runCtl_invariant (ops : List CtlOp) (h : Nat) :
    ((runCtl initialCtl ops).isRunning = true ↔
      (runCtl initialCtl ops).intervalId ≠ none)
    ∧ ((runCtl initialCtl ops).isRunning = true →
        startSim (runCtl initialCtl ops) h = runCtl initialCtl ops)
    ∧ ((runCtl initialCtl ops).isRunning = false →
        stopSim (runCtl initialCtl ops) = runCtl initialCtl ops) := by
  have key : ∀ (ops : List CtlOp) (c : SimCtl),
      (c.isRunning = true ↔ c.intervalId ≠ none) →
      ((runCtl c ops).isRunning = true ↔ (runCtl c ops).intervalId ≠ none) := by
    intro ops
    induction ops with
    | nil => intro c hc; exact hc
    | cons op rest ih =>
        intro c hc
        cases op with
        | start hd =>
            refine ih (startSim c hd) ?_
            unfold startSim
            by_cases hr : c.isRunning
            · rw [if_pos hr]; exact hc
            · rw [if_neg hr]; simp
        | stop =>
            refine ih (stopSim c) ?_
            unfold stopSim
            by_cases hr : c.isRunning
            · rw [if_neg (by simp [hr])]
              simp
            · rw [if_pos (by simp [hr])]
              exact hc
  have hinv := key ops initialCtl (by simp [initialCtl])
  refine ⟨hinv, ?_, ?_⟩
  · intro hr
    unfold startSim
    rw [if_pos hr]
  · intro hr
    unfold stopSim
    rw [if_pos (by simp [hr])]

/-- Witness for C10 after the call sequence `start(7); start(9)`. -/
theorem runCtl_invariant_witness :
    ((runCtl initialCtl [CtlOp.start 7, CtlOp.start 9]).isRunning = true ↔
      (runCtl initialCtl [CtlOp.start 7, CtlOp.start 9]).intervalId ≠ none)
    ∧ startSim (runCtl initialCtl [CtlOp.start 7, CtlOp.start 9]) 11 =
        runCtl initialCtl [CtlOp.start 7, CtlOp.start 9] :=
  ⟨(runCtl_invariant [CtlOp.start 7, CtlOp.start 9] 11).1,
    (runCtl_invariant [CtlOp.start 7, CtlOp.start 9] 11).2.1 (by decide)⟩

/-! ## `getState` is a shallow copy (claim C8) -/

/-- The demo rung used for the C8 counterexample: one NO contact `X001`
driving one output coil `Y001`. -/
def demoRungC8 : LadderRung :=
  ⟨"r", [⟨"e1", LadderElementType.NO_CONTACT, "X001", ⟨1, 0⟩⟩,
    ⟨"e2", LadderElementType.OUTPUT_COIL, "Y001", ⟨4, 0⟩⟩], 1⟩

/-- C8, counterexample: a `SimulationState` returned by `getState()` is *not*
immune to later mutation.  After `setVariable("X001", true)` the `variables`
map reached through an earlier snapshot's reference reads `X001 = true`,
where it read `false` at snapshot time — `{ ...this.state }` copies the map
references, not the maps. -/
theorem getState_readonly_snapshot_refuted :
    getVar
        (derefVars (newLadderSimulator [demoRungC8] ⟨[], [], []⟩).1
          (getState (newLadderSimulator [demoRungC8] ⟨[], [], []⟩).2).varsRef)
        "X001" = some false
    ∧ getVar
        (derefVars
          (setVariable (newLadderSimulator [demoRungC8] ⟨[], [], []⟩).1
            (newLadderSimulator [demoRungC8] ⟨[], [], []⟩).2 "X001" true)
          (getState (newLadderSimulator [demoRungC8] ⟨[], [], []⟩).2).varsRef)
        "X001" = some true := by
  constructor
  · decide
  · decide

/-- C8, amended: `getState` returns a *shallow* copy of the state object:
the primitive `isRunning` is copied by value, but the `variables`, `timers`
and `counters` fields of the returned state are the same references as the
live state's, so a subsequent `setVariable` is visible through the
`variables` map of a previously returned state. -/
theorem getState_shallow_copy (h : SimHeap) (sim : LadderSimulatorObj)
    (v : String) (b : Bool)
    (href : sim.stateObj.varsRef < h.varObjs.length) :
    (getState sim).isRunning = sim.stateObj.isRunning
    ∧ (getState sim).varsRef = sim.stateObj.varsRef
    ∧ (getState sim).timersRef = sim.stateObj.timersRef
    ∧ (getState sim).countersRef = sim.stateObj.countersRef
    ∧ derefVars (setVariable h sim v b) (getState sim).varsRef =
        updateVar (derefVars h sim.stateObj.varsRef) v b := by
  refine ⟨rfl, rfl, rfl, rfl, ?_⟩
  unfold derefVars setVariable getState
  rw [List.getD_eq_getElem?_getD, List.getElem?_set_self (by simpa using href)]
  rfl

/-- Witness for the amended C8 on a freshly constructed simulator. -/
theorem getState_shallow_copy_witness :
    derefVars
        (setVariable (newLadderSimulator [demoRungC8] ⟨[], [], []⟩).1
          (newLadderSimulator [demoRungC8] ⟨[], [], []⟩).2 "X001" true)
        (getState (newLadderSimulator [demoRungC8] ⟨[], [], []⟩).2).varsRef =
      updateVar
        (derefVars (newLadderSimulator [demoRungC8] ⟨[], [], []⟩).1
          (newLadderSimulator [demoRungC8] ⟨[], [], []⟩).2.stateObj.varsRef)
        "X001" true :=
  (getState_shallow_copy (newLadderSimulator [demoRungC8] ⟨[], [], []⟩).1
    (newLadderSimulator [demoRungC8] ⟨[], [], []⟩).2 "X001" true
    (by decide)).2.2.2.2

/-! ## Timer and counter scan semantics (claims C5, C6) -/

/-- Two suffix-appended strings whose suffixes end in different characters
are different. -/
theorem append_str_ne (u t a b : String) (c d : Char) (ra rb : List Char)
    (ha : a.data.reverse = c :: ra) (hb : b.data.reverse = d :: rb)
    (hcd : c ≠ d) : u ++ a ≠ t ++ b := by
  intro h
  have h2 : (u ++ a).data.reverse = (t ++ b).data.reverse := by rw [h]
  rw [String.data_append, String.data_append, List.reverse_append,
    List.reverse_append, ha, hb] at h2
  exact hcd (by simpa using congrArg (fun l => l.headI) h2)

theorem q_ne_en (u t : String) : u ++ "_Q" ≠ t ++ "_EN" :=
  append_str_ne u t "_Q" "_EN" 'Q' 'N' ['_'] ['E', '_'] rfl rfl (by decide)

theorem q_ne_cu (u t : String) : u ++ "_Q" ≠ t ++ "_CU" :=
  append_str_ne u t "_Q" "_CU" 'Q' 'U' ['_'] ['C', '_'] rfl rfl (by decide)

theorem q_ne_r (u t : String) : u ++ "_Q" ≠ t ++ "_R" :=
  append_str_ne u t "_Q" "_R" 'Q' 'R' ['_'] ['_'] rfl rfl (by decide)

theorem getVar_updateVar_ne (m : VarMap) (v w : String) (b : Bool)
    (h : v ≠ w) : getVar (updateVar m v b) w = getVar m w := by
  induction m with
  | nil =>
      have hbe : (w == v) = false := beq_eq_false_iff_ne.mpr (Ne.symm h)
      simp [updateVar, getVar, List.lookup, hbe]
  | cons kv rest ih =>
      obtain ⟨k, old⟩ := kv
      by_cases hk : k = v
      · subst hk
        have hbe : (w == k) = false := beq_eq_false_iff_ne.mpr (Ne.symm h)
        simp [updateVar, getVar, List.lookup, hbe]
      · by_cases hw : w = k
        · subst hw
          simp [updateVar, getVar, List.lookup, hk]
        · have hbe : (w == k) = false := beq_eq_false_iff_ne.mpr hw
          simp only [updateVar, if_neg hk, getVar, List.lookup, hbe]
          exact ih

theorem getVar_updateVar_self (m : VarMap) (v : String) (b : Bool) :
    getVar (updateVar m v b) v = some b := by
  induction m with
  | nil => simp [updateVar, getVar, List.lookup]
  | cons kv rest ih =>
      obtain ⟨k, old⟩ := kv
      by_cases hk : k = v
      · subst hk
        simp [updateVar, getVar, List.lookup]
      · have hbe : (v == k) = false := beq_eq_false_iff_ne.mpr
          (fun he => hk he.symm)
        simp only [updateVar, if_neg hk, getVar, List.lookup, hbe]
        exact ih

/-- The `variables` record after the timer pass differs from the input only
at `_Q` keys. -/
theorem scanTimersGo_vars (timers : List (String × TimerState))
    (vars : VarMap) (w : String) (hw : ∀ u : String, w ≠ u ++ "_Q") :
    getVar (scanTimersGo timers vars).2 w = getVar vars w := by
  induction timers generalizing vars with
  | nil => rfl
  | cons e rest ih =>
      obtain ⟨name, tm⟩ := e
      show getVar (scanTimersGo rest (processTimer vars name tm).2).2 w = _
      rw [ih]
      unfold processTimer
      by_cases hen : getVar vars (name ++ "_EN") = some true
      · rw [if_pos hen]
        exact getVar_updateVar_ne _ _ _ _ (fun he => hw name he.symm)
      · rw [if_neg hen]
        exact getVar_updateVar_ne _ _ _ _ (fun he => hw name he.symm)

/-- The timer pass processes each timer entry against the tick-start
`variables` record: earlier entries only write `_Q` keys, which never collide
with an `_EN` key. -/
theorem scanTimersGo_lookup (timers : List (String × TimerState))
    (vars : VarMap) (t : String) (tm : TimerState)
    (hmem : (t, tm) ∈ timers) (hnd : (timers.map Prod.fst).Nodup) :
    List.lookup t (scanTimersGo timers vars).1 =
      some (if getVar vars (t ++ "_EN") = some true
        then ⟨tm.current + 100, tm.preset, decide (tm.preset ≤ tm.current + 100)⟩
        else ⟨0, tm.preset, false⟩) := by
  induction timers generalizing vars with
  | nil => simp at hmem
  | cons e rest ih =>
      obtain ⟨name, tm0⟩ := e
      rcases List.mem_cons.mp hmem with heq | hmem2
      · injection heq with h1 h2
        subst h1
        subst h2
        show List.lookup t ((t, (processTimer vars t tm).1)
          :: (scanTimersGo rest (processTimer vars t tm).2).1) = _
        simp only [List.lookup, beq_self_eq_true]
        unfold processTimer
        by_cases hen : getVar vars (t ++ "_EN") = some true
        · rw [if_pos hen, if_pos hen]
        · rw [if_neg hen, if_neg hen]
      · have hne : name ≠ t := by
          intro he
          have h1 : t ∈ rest.map Prod.fst :=
            List.mem_map_of_mem Prod.fst hmem2
          rw [← he] at h1
          exact (List.nodup_cons.mp (by simpa using hnd)).1 h1
        have hbe : (t == name) = false := beq_eq_false_iff_ne.mpr
          (fun he => hne he.symm)
        show List.lookup t ((name, (processTimer vars name tm0).1)
          :: (scanTimersGo rest (processTimer vars name tm0).2).1) = _
        simp only [List.lookup, hbe]
        rw [ih _ hmem2 (List.nodup_cons.mp hnd).2]
        have hpres : getVar (processTimer vars name tm0).2 (t ++ "_EN") =
            getVar vars (t ++ "_EN") := by
          unfold processTimer
          by_cases hen : getVar vars (name ++ "_EN") = some true
          · rw [if_pos hen]
            exact getVar_updateVar_ne _ _ _ _ (q_ne_en name t)
          · rw [if_neg hen]
            exact getVar_updateVar_ne _ _ _ _ (q_ne_en name t)
        rw [hpres]

theorem scanCounters_timers (s : SimulationState) :
    (scanCounters s).timers = s.timers := rfl

theorem executeRung_timers (s : SimulationState) (rung : LadderRung) :
    (executeRung s rung).timers = s.timers := by
  unfold executeRung
  by_cases h : (inputElementsOf rung).length = 0
  · rw [if_pos h]
  · rw [if_neg h]

theorem foldl_executeRung_timers (rungs : List LadderRung)
    (s : SimulationState) :
    (rungs.foldl executeRung s).timers = s.timers := by
  induction rungs generalizing s with
  | nil => rfl
  | cons r rest ih => rw [List.foldl_cons, ih, executeRung_timers]

/-- C5: on every scan tick, a timer whose enable input (`<name>_EN`) is true
at the start of the tick accumulates 100 ms and ends the tick with
`done = (accumulated ≥ preset)` — so `done` first becomes true exactly at the
tick where the accumulated time first reaches the preset — while a timer
whose enable input is not true is reset to zero accumulated time and
`done = false`. -/
theorem timer_scan_semantics (rungs : List LadderRung)
    (st : SimulationState) (t : String) (tm : TimerState)
    (hmem : (t, tm) ∈ st.timers) (hnd : (st.timers.map Prod.fst).Nodup) :
    List.lookup t (scan rungs st).timers =
      some (if getVar st.vars (t ++ "_EN") = some true
        then ⟨tm.current + 100, tm.preset,
          decide (tm.preset ≤ tm.current + 100)⟩
        else ⟨0, tm.preset, false⟩) := by
  unfold scan
  rw [foldl_executeRung_timers, scanCounters_timers]
  show List.lookup t (scanTimersGo st.timers st.vars).1 = _
  exact scanTimersGo_lookup st.timers st.vars t tm hmem hnd

/-- Witness for C5: a single `T1` timer, enabled, 900 ms accumulated of a
1000 ms preset, reaches `done` on this tick; disabled it resets. -/
theorem timer_scan_semantics_witness :
    List.lookup "T1"
        (scan []
          ⟨true, [("T1_EN", true)], [("T1", ⟨900, 1000, false⟩)], []⟩).timers =
      some ⟨1000, 1000, true⟩ := by
  have h := timer_scan_semantics []
    ⟨true, [("T1_EN", true)], [("T1", ⟨900, 1000, false⟩)], []⟩
    "T1" ⟨900, 1000, false⟩ (by decide) (by decide)
  rw [h]
  decide

/-- The `variables` record after the counter pass differs from the input only
at `_Q` keys. -/
theorem scanCountersGo_vars (counters : List (String × CounterState))
    (vars : VarMap) (w : String) (hw : ∀ u : String, w ≠ u ++ "_Q") :
    getVar (scanCountersGo counters vars).2 w = getVar vars w := by
  induction counters generalizing vars with
  | nil => rfl
  | cons e rest ih =>
      obtain ⟨name, ct⟩ := e
      show getVar (scanCountersGo rest (processCounter vars name ct).2).2 w = _
      rw [ih]
      unfold processCounter
      by_cases hcu : getVar vars (name ++ "_CU") = some true
      · rw [if_pos hcu]
        by_cases hr : getVar (updateVar vars (name ++ "_Q")
            (decide (ct.preset ≤ ct.current + 1))) (name ++ "_R") = some true
        · rw [if_pos hr]
          rw [getVar_updateVar_ne _ _ _ _ (fun he => hw name he.symm)]
          exact getVar_updateVar_ne _ _ _ _ (fun he => hw name he.symm)
        · rw [if_neg hr]
          exact getVar_updateVar_ne _ _ _ _ (fun he => hw name he.symm)
      · rw [if_neg hcu]
        by_cases hr : getVar vars (name ++ "_R") = some true
        · rw [if_pos hr]
          exact getVar_updateVar_ne _ _ _ _ (fun he => hw name he.symm)
        · rw [if_neg hr]

/-- A counter entry whose count-up *and* reset inputs are both true at the
start of the pass ends the pass cleared: the reset `if` runs after the
increment `if` and wins. -/
theorem scanCountersGo_reset (counters : List (String × CounterState))
    (vars : VarMap) (c : String) (ct : CounterState)
    (hmem : (c, ct) ∈ counters) (hnd : (counters.map Prod.fst).Nodup)
    (hcu : getVar vars (c ++ "_CU") = some true)
    (hr : getVar vars (c ++ "_R") = some true) :
    List.lookup c (scanCountersGo counters vars).1 =
      some ⟨0, ct.preset, false⟩ := by
  induction counters generalizing vars with
  | nil => simp at hmem
  | cons e rest ih =>
      obtain ⟨name, ct0⟩ := e
      rcases List.mem_cons.mp hmem with heq | hmem2
      · injection heq with h1 h2
        subst h1
        subst h2
        show List.lookup c ((c, (processCounter vars c ct).1)
          :: (scanCountersGo rest (processCounter vars c ct).2).1) = _
        simp only [List.lookup, beq_self_eq_true]
        unfold processCounter
        rw [if_pos hcu]
        rw [if_pos (by
          rw [getVar_updateVar_ne _ _ _ _ (q_ne_r c c)]
          exact hr)]
      · have hne : name ≠ c := by
          intro he
          have h1 : c ∈ rest.map Prod.fst :=
            List.mem_map_of_mem Prod.fst hmem2
          rw [← he] at h1
          exact (List.nodup_cons.mp (by simpa using hnd)).1 h1
        have hbe : (c == name) = false := beq_eq_false_iff_ne.mpr
          (fun he => hne he.symm)
        show List.lookup c ((name, (processCounter vars name ct0).1)
          :: (scanCountersGo rest (processCounter vars name ct0).2).1) = _
        simp only [List.lookup, hbe]
        have hpres : ∀ w : String, (∀ u : String, w ≠ u ++ "_Q") →
            getVar (processCounter vars name ct0).2 w = getVar vars w := by
          intro w hw
          unfold processCounter
          by_cases hcu0 : getVar vars (name ++ "_CU") = some true
          · rw [if_pos hcu0]
            by_cases hr0 : getVar (updateVar vars (name ++ "_Q")
                (decide (ct0.preset ≤ ct0.current + 1))) (name ++ "_R")
                = some true
            · rw [if_pos hr0]
              rw [getVar_updateVar_ne _ _ _ _ (fun he => hw name he.symm)]
              exact getVar_updateVar_ne _ _ _ _ (fun he => hw name he.symm)
            · rw [if_neg hr0]
              exact getVar_updateVar_ne _ _ _ _ (fun he => hw name he.symm)
          · rw [if_neg hcu0]
            by_cases hr0 : getVar vars (name ++ "_R") = some true
            · rw [if_pos hr0]
              exact getVar_updateVar_ne _ _ _ _ (fun he => hw name he.symm)
            · rw [if_neg hr0]
        refine ih _ hmem2 (List.nodup_cons.mp (by simpa using hnd)).2 ?_ ?_
        · rw [hpres _ (fun u he => q_ne_cu u c he.symm)]
          exact hcu
        · rw [hpres _ (fun u he => q_ne_r u c he.symm)]
          exact hr

/-- C6: if a counter's count-up input and reset input are both true at the
start of a scan tick, then after that tick's counter-processing step the
counter's count is 0 and its `done` flag is false — the reset `if` is
evaluated after the increment `if` and wins. -/
theorem counter_reset_priority (st : SimulationState) (c : String)
    (ct : CounterState)
    (hmem : (c, ct) ∈ st.counters) (hnd : (st.counters.map Prod.fst).Nodup)
    (hcu : getVar st.vars (c ++ "_CU") = some true)
    (hr : getVar st.vars (c ++ "_R") = some true) :
    List.lookup c (scanCounters (scanTimers st)).counters =
      some ⟨0, ct.preset, false⟩ := by
  show List.lookup c
    (scanCountersGo (scanTimers st).counters (scanTimers st).vars).1 = _
  have hc : (scanTimers st).counters = st.counters := rfl
  rw [hc]
  have hvcu : getVar (scanTimers st).vars (c ++ "_CU") =
      getVar st.vars (c ++ "_CU") := by
    show getVar (scanTimersGo st.timers st.vars).2 _ = _
    exact scanTimersGo_vars _ _ _ (fun u he => q_ne_cu u c he.symm)
  have hvr : getVar (scanTimers st).vars (c ++ "_R") =
      getVar st.vars (c ++ "_R") := by
    show getVar (scanTimersGo st.timers st.vars).2 _ = _
    exact scanTimersGo_vars _ _ _ (fun u he => q_ne_r u c he.symm)
  exact scanCountersGo_reset st.counters (scanTimers st).vars c ct hmem hnd
    (by rw [hvcu]; exact hcu) (by rw [hvr]; exact hr)

/-- Witness for C6: a single `C1` counter with both `C1_CU` and `C1_R` true
is cleared by the tick's counter step. -/
theorem counter_reset_priority_witness :
    List.lookup "C1"
        (scanCounters (scanTimers
          ⟨true, [("C1_CU", true), ("C1_R", true)], [],
            [("C1", ⟨5, 10, false⟩)]⟩)).counters =
      some ⟨0, 10, false⟩ :=
  counter_reset_priority
    ⟨true, [("C1_CU", true), ("C1_R", true)], [], [("C1", ⟨5, 10, false⟩)]⟩
    "C1" ⟨5, 10, false⟩ (by decide) (by decide) (by decide) (by decide)

/-! ## Facts about the stable sort -/

theorem insertByKey_perm (key : α → Nat) (a : α) (l : List α) :
    (insertByKey key a l).Perm (a :: l) := by
  induction l with
  | nil => exact List.Perm.refl _
  | cons b r ih =>
      unfold insertByKey
      by_cases h : key b ≤ key a
      · rw [if_pos h]
        exact (ih.cons b).trans (List.Perm.swap a b r)
      · rw [if_neg h]

theorem foldl_insertByKey_perm (key : α → Nat) (l acc : List α) :
    (l.foldl (fun acc a => insertByKey key a acc) acc).Perm (acc ++ l) := by
  induction l generalizing acc with
  | nil => simp
  | cons c r ih =>
      rw [List.foldl_cons]
      refine (ih (insertByKey key c acc)).trans ?_
      refine (List.Perm.append_right r (insertByKey_perm key c acc)).trans ?_
      exact List.perm_middle.symm

theorem sortByKey_perm (key : α → Nat) (l : List α) :
    (sortByKey key l).Perm l := by
  simpa using foldl_insertByKey_perm key l []

theorem mem_sortByKey {key : α → Nat} {l : List α} {a : α} :
    a ∈ sortByKey key l ↔ a ∈ l :=
  (sortByKey_perm key l).mem_iff

theorem insertByKey_sorted (key : α → Nat) (a : α) (l : List α)
    (h : l.Pairwise (fun x y => key x ≤ key y)) :
    (insertByKey key a l).Pairwise (fun x y => key x ≤ key y) := by
  induction l with
  | nil => simp [insertByKey]
  | cons b r ih =>
      rcases List.pairwise_cons.mp h with ⟨hb, hr⟩
      unfold insertByKey
      by_cases hba : key b ≤ key a
      · rw [if_pos hba]
        refine List.pairwise_cons.mpr ⟨?_, ih hr⟩
        intro x hx
        rcases List.mem_cons.mp ((insertByKey_perm key a r).mem_iff.mp hx)
          with rfl | hxr
        · exact hba
        · exact hb x hxr
      · rw [if_neg hba]
        refine List.pairwise_cons.mpr ⟨?_, h⟩
        intro x hx
        rcases List.mem_cons.mp hx with rfl | hxr
        · exact Nat.le_of_lt (Nat.lt_of_not_le hba)
        · exact Nat.le_trans (Nat.le_of_lt (Nat.lt_of_not_le hba)) (hb x hxr)

theorem sortByKey_sorted (key : α → Nat) (l : List α) :
    (sortByKey key l).Pairwise (fun x y => key x ≤ key y) := by
  suffices h : ∀ acc : List α,
      acc.Pairwise (fun x y => key x ≤ key y) →
      (l.foldl (fun acc a => insertByKey key a acc) acc).Pairwise
        (fun x y => key x ≤ key y) from h [] (by simp)
  induction l with
  | nil => intro acc hacc; exact hacc
  | cons c r ih =>
      intro acc hacc
      rw [List.foldl_cons]
      exact ih _ (insertByKey_sorted key c acc hacc)

/-! ## Input extraction (claim C7) -/

/-- The rung used in the C7 counterexample: a timer block used as the rung's
only potential condition, and an output coil. -/
def timerRungC7 : LadderRung :=
  ⟨"r", [⟨"e1", LadderElementType.TIMER_BLOCK, "T1", ⟨1, 0⟩⟩,
    ⟨"e2", LadderElementType.OUTPUT_COIL, "Y", ⟨3, 0⟩⟩], 1⟩

/-- C7, counterexample: the analyzer's input-element predicate rejects timer
and counter blocks — only contacts are extracted — and consequently a rung
whose only condition element is a timer block with its `done`/`_Q` output
true still drives its output coil `false` (the empty-extraction rule), where
the claim would have the timer's done output drive it `true`. -/
theorem input_extraction_claim_refuted :
    isInputElement LadderElementType.TIMER_BLOCK = false
    ∧ isInputElement LadderElementType.COUNTER_BLOCK = false
    ∧ getVar
        (executeRung
          ⟨true, [("T1_Q", true), ("Y", true)],
            [("T1", ⟨1000, 1000, true⟩)], []⟩
          timerRungC7).vars "Y" = some false := by
  refine ⟨rfl, rfl, ?_⟩
  decide

/-- C7, amended: the input-kind elements the analyzer extracts as boolean
conditions are exactly the contacts (NO and NC) — timer/counter done outputs
are *not* extracted — sorted by column (the same `inputElementsOf`
computation appears in `analyzeRungLogic` and in `executeRung`); and a rung
whose extracted input set is empty drives every output element with the
condition `false` and synthesizes the empty condition. -/
theorem input_extraction_contacts_only (rung : LadderRung)
    (st : SimulationState) :
    (∀ ty, isInputElement ty = true ↔
      (ty = LadderElementType.NO_CONTACT ∨ ty = LadderElementType.NC_CONTACT))
    ∧ (∀ el, el ∈ inputElementsOf rung ↔
        (el ∈ rung.elements ∧ isInputElement el.type = true))
    ∧ (inputElementsOf rung).Pairwise
        (fun e1 e2 => e1.position.x ≤ e2.position.x)
    ∧ (inputElementsOf rung = [] →
        executeRung st rung =
          { st with
            vars := (outputElementsOf rung).foldl
              (fun vs output => applyOutput vs output false) st.vars }
        ∧ analyzeRungLogic rung = "") := by
  refine ⟨?_, ?_, ?_, ?_⟩
  · intro ty
    cases ty <;> simp [isInputElement]
  · intro el
    unfold inputElementsOf
    rw [show sortByX (rung.elements.filter (fun el => isInputElement el.type))
      = sortByKey (fun el => el.position.x)
        (rung.elements.filter (fun el => isInputElement el.type)) from rfl]
    rw [mem_sortByKey, List.mem_filter]
  · exact sortByKey_sorted _ _
  · intro hempty
    constructor
    · unfold executeRung
      rw [if_pos (by rw [hempty]; rfl)]
    · unfold analyzeRungLogic
      rw [hempty]
      rfl

/-- Witness for the amended C7 at the counterexample rung and state: the
extraction is empty and the output coil is driven `false`. -/
theorem input_extraction_contacts_only_witness :
    executeRung
        ⟨true, [("T1_Q", true), ("Y", true)], [("T1", ⟨1000, 1000, true⟩)], []⟩
        timerRungC7 =
      { (⟨true, [("T1_Q", true), ("Y", true)],
          [("T1", ⟨1000, 1000, true⟩)], []⟩ : SimulationState) with
        vars := (outputElementsOf timerRungC7).foldl
          (fun vs output => applyOutput vs output false)
          [("T1_Q", true), ("Y", true)] } :=
  ((input_extraction_contacts_only timerRungC7
    ⟨true, [("T1_Q", true), ("Y", true)], [("T1", ⟨1000, 1000, true⟩)], []⟩).2.2.2
    (by decide)).1

/-! ## The analyzed topology of a rung

`analyzeRungLogic` (string synthesis) and the simulator's rung execution
both walk the same partition of a rung into sections.  `CondSec` captures
one section of that partition; `shapeOf` computes the partition.  The two
bridge theorems `analyzeRungLogic_render` and `rungFinalResult_eval` state
that the source's string synthesis renders this shape and the source's
simulator evaluates it. -/

/-- An atomic condition: one contact (`neg` for NC). -/
structure CondAtom where
  neg : Bool
  v : String
deriving DecidableEq, Repr

/-- One section of a rung's analyzed topology: a lone series element, a
single-row span (AND chain), or a multi-row span (OR of row paths). -/
inductive CondSec where
  | atom (a : CondAtom)
  | chain (l : List CondAtom)
  | par (paths : List (List CondAtom))
deriving DecidableEq, Repr

/-- The atom of an input element (NO or NC contact). -/
def atomOf (el : LadderElement) : CondAtom :=
  ⟨el.type = LadderElementType.NC_CONTACT, el.varName⟩

/-- Rendering of one atom, as produced by `convertElementToST` on an input
element. -/
def renderAtom (a : CondAtom) : String :=
  if a.neg then "NOT " ++ a.v else a.v

/-- Rendering of an AND chain, as produced by `join(' AND ')`. -/
def renderChain (l : List CondAtom) : String :=
  joinSep " AND " (l.map renderAtom)

/-- Rendering of one parallel path: parenthesised only when it has more than
one term. -/
def renderPath (p : List CondAtom) : String :=
  if 1 < p.length then "(" ++ renderChain p ++ ")" else renderChain p

/-- Rendering of a parallel section: the paths joined with `OR`, wrapped in
parentheses. -/
def renderPar (paths : List (List CondAtom)) : String :=
  "(" ++ joinSep " OR " (paths.map renderPath) ++ ")"

/-- Rendering of one section. -/
def renderSec : CondSec → String
  | CondSec.atom a => renderAtom a
  | CondSec.chain l => renderChain l
  | CondSec.par ps => renderPar ps

/-- Rendering of the whole analyzed rung: sections joined with `AND`. -/
def renderTop (secs : List CondSec) : String :=
  joinSep " AND " (secs.map renderSec)

/-- The section of one junction-pair span, mirroring
`sectionStrOfPair`/`sectionResultOfPair`. -/
def secOfPair (inputElements : List LadderElement)
    (pair : LadderElement × LadderElement) : Option CondSec :=
  let els := sectionEls inputElements pair
  if els.length = 0 then none
  else
    let paths := pathsOfSection els
    if paths.length = 1 then
      some (CondSec.chain ((paths.headI).map atomOf))
    else some (CondSec.par (paths.map (fun p => p.map atomOf)))

/-- The analyzed topology of a rung, mirroring the common partition of
`analyzeParallelCircuit` and `executeParallelCircuit` (with the series cases
as a single chain). -/
def shapeOf (rung : LadderRung) : List CondSec :=
  let inputElements := inputElementsOf rung
  let wireJunctions := junctionsOf rung
  if 2 ≤ wireJunctions.length then
    let sortedJunctions := sortByX wireJunctions
    if sortedJunctions.length < 2 then
      [CondSec.chain (inputElements.map atomOf)]
    else
      let firstJ := sortedJunctions.headI
      let lastJ := (sortedJunctions.reverse).headI
      (inputElements.filter
          (fun el => el.position.x < firstJ.position.x)).map
          (fun el => CondSec.atom (atomOf el))
        ++ (junctionPairs sortedJunctions).filterMap (secOfPair inputElements)
        ++ (inputElements.filter
            (fun el => lastJ.position.x < el.position.x)).map
            (fun el => CondSec.atom (atomOf el))
  else [CondSec.chain (inputElements.map atomOf)]

/-- Truth value of one atom under a `variables` record (with JavaScript
truthiness for the read, as in `evaluateElement`). -/
def evalAtom (vars : VarMap) (a : CondAtom) : Bool :=
  if a.neg then ¬ (getVar vars a.v = some true)
  else getVar vars a.v = some true

/-- Truth value of one section. -/
def evalSec (vars : VarMap) : CondSec → Bool
  | CondSec.atom a => evalAtom vars a
  | CondSec.chain l => l.all (evalAtom vars)
  | CondSec.par ps => ps.any (fun p => p.all (evalAtom vars))

/-- Truth value of the analyzed rung: AND over sections. -/
def evalShape (vars : VarMap) (secs : List CondSec) : Bool :=
  secs.all (evalSec vars)

/-! ### The synthesizer renders the shape -/

theorem joinSep_if_cases (sep : String) (l : List String) :
    (if l.length = 0 then "" else if l.length = 1 then l.headI
      else joinSep sep l) = joinSep sep l := by
  match l with
  | [] => rfl
  | [s] => rfl
  | a :: b :: r => rfl

theorem convertElementToST_input (el : LadderElement)
    (h : isInputElement el.type = true) :
    convertElementToST el false = renderAtom (atomOf el) := by
  cases hty : el.type <;> simp [isInputElement, hty] at h <;>
    simp [convertElementToST, renderAtom, atomOf, hty]

theorem conv_map (p : List LadderElement)
    (h : ∀ el ∈ p, isInputElement el.type = true) :
    p.map (fun el => convertElementToST el false) =
      (p.map atomOf).map renderAtom := by
  rw [List.map_map]
  exact List.map_congr_left (fun el hel => convertElementToST_input el (h el hel))

theorem analyzeSeriesCircuit_render (els : List LadderElement)
    (h : ∀ el ∈ els, isInputElement el.type = true) :
    analyzeSeriesCircuit els = renderChain (els.map atomOf) := by
  unfold analyzeSeriesCircuit renderChain
  rw [conv_map els h]
  exact joinSep_if_cases " AND " ((els.map atomOf).map renderAtom)

theorem headI_mem {α : Type _} [Inhabited α] {l : List α} (h : l ≠ []) :
    l.headI ∈ l := by
  cases l with
  | nil => exact absurd rfl h
  | cons a r => exact List.mem_cons_self a r

theorem mem_pathsOfSection {els : List LadderElement}
    {p : List LadderElement} (hp : p ∈ pathsOfSection els)
    {el : LadderElement} (hel : el ∈ p) : el ∈ els := by
  unfold pathsOfSection at hp
  rcases List.mem_map.mp hp with ⟨y, -, rfl⟩
  exact List.mem_filter.mp (mem_sortByKey.mp hel) |>.1

theorem mem_sectionEls {inputs : List LadderElement}
    {pair : LadderElement × LadderElement} {el : LadderElement}
    (h : el ∈ sectionEls inputs pair) : el ∈ inputs :=
  (List.mem_filter.mp h).1

theorem filterMap_option_map {α β γ : Type _} (f : α → Option β) (g : β → γ)
    (l : List α) :
    l.filterMap (fun x => (f x).map g) = (l.filterMap f).map g := by
  induction l with
  | nil => rfl
  | cons a r ih =>
      rcases hf : f a with _ | b
      · simp [List.filterMap_cons, hf, ih]
      · simp [List.filterMap_cons, hf, ih]

theorem renderPath_eq (p : List LadderElement)
    (h : ∀ el ∈ p, isInputElement el.type = true) :
    (if 1 < (p.map (fun el => convertElementToST el false)).length then
      "(" ++ joinSep " AND " (p.map (fun el => convertElementToST el false))
        ++ ")"
    else (p.map (fun el => convertElementToST el false)).headI) =
      renderPath (p.map atomOf) := by
  match p with
  | [] => rfl
  | [a] =>
      have ha := convertElementToST_input a (h a (List.mem_cons_self a []))
      simp only [List.map_cons, List.map_nil, List.length_cons,
        List.length_nil]
      rw [if_neg (by omega)]
      unfold renderPath
      rw [if_neg (by simp)]
      unfold renderChain
      simp only [List.map_cons, List.map_nil]
      show convertElementToST a false = joinSep " AND " [renderAtom (atomOf a)]
      rw [ha]
      rfl
  | a :: b :: r =>
      rw [if_pos (by simp)]
      unfold renderPath
      rw [if_pos (by simp)]
      unfold renderChain
      rw [conv_map _ h]

theorem sectionStrOfPair_render (inputs : List LadderElement)
    (pair : LadderElement × LadderElement)
    (h : ∀ el ∈ inputs, isInputElement el.type = true) :
    sectionStrOfPair inputs pair =
      (secOfPair inputs pair).map renderSec := by
  unfold sectionStrOfPair secOfPair
  by_cases h0 : (sectionEls inputs pair).length = 0
  · rw [if_pos h0, if_pos h0]
    rfl
  · rw [if_neg h0, if_neg h0]
    have hmem : ∀ p ∈ pathsOfSection (sectionEls inputs pair),
        ∀ el ∈ p, isInputElement el.type = true :=
      fun p hp el hel => h el (mem_sectionEls (mem_pathsOfSection hp hel))
    by_cases h1 : (pathsOfSection (sectionEls inputs pair)).length = 1
    · rw [if_pos h1, if_pos h1]
      have hne : pathsOfSection (sectionEls inputs pair) ≠ [] := by
        intro he
        rw [he] at h1
        simp at h1
      show some _ = some (renderChain _)
      congr 1
      unfold renderChain
      rw [conv_map _ (hmem _ (headI_mem hne))]
    · rw [if_neg h1, if_neg h1]
      show some _ = some (renderPar _)
      congr 1
      unfold renderPar
      rw [List.map_map]
      refine congrArg (fun z => "(" ++ joinSep " OR " z ++ ")") ?_
      refine List.map_congr_left ?_
      intro p hp
      exact renderPath_eq p (hmem p hp)

theorem analyzeRungLogic_render (rung : LadderRung) :
    analyzeRungLogic rung =
      if (inputElementsOf rung).length = 0 then ""
      else renderTop (shapeOf rung) := by
  have hin : ∀ el ∈ inputElementsOf rung, isInputElement el.type = true :=
    fun el hel => (List.mem_filter.mp (mem_sortByKey.mp hel)).2
  unfold analyzeRungLogic shapeOf
  by_cases h0 : (inputElementsOf rung).length = 0
  · rw [if_pos h0, if_pos h0]
  · rw [if_neg h0, if_neg h0]
    by_cases hj : 2 ≤ (junctionsOf rung).length
    · rw [if_pos hj, if_pos hj]
      unfold analyzeParallelCircuit
      by_cases hsj : (sortByX (junctionsOf rung)).length < 2
      · rw [if_pos hsj, if_pos hsj]
        rw [analyzeSeriesCircuit_render _ hin]
        rfl
      · rw [if_neg hsj, if_neg hsj]
        have hbefore :
            ((inputElementsOf rung).filter (fun el => el.position.x <
              ((sortByX (junctionsOf rung)).headI).position.x)).map
              (fun el => convertElementToST el false) =
            (((inputElementsOf rung).filter (fun el => el.position.x <
              ((sortByX (junctionsOf rung)).headI).position.x)).map
              (fun el => CondSec.atom (atomOf el))).map renderSec := by
          rw [List.map_map]
          refine List.map_congr_left ?_
          intro el hel
          exact convertElementToST_input el (hin el (List.mem_filter.mp hel).1)
        have hafter :
            ((inputElementsOf rung).filter (fun el =>
              (((sortByX (junctionsOf rung)).reverse).headI).position.x
                < el.position.x)).map
              (fun el => convertElementToST el false) =
            (((inputElementsOf rung).filter (fun el =>
              (((sortByX (junctionsOf rung)).reverse).headI).position.x
                < el.position.x)).map
              (fun el => CondSec.atom (atomOf el))).map renderSec := by
          rw [List.map_map]
          refine List.map_congr_left ?_
          intro el hel
          exact convertElementToST_input el (hin el (List.mem_filter.mp hel).1)
        have hmid :
            (junctionPairs (sortByX (junctionsOf rung))).filterMap
              (sectionStrOfPair (inputElementsOf rung)) =
            ((junctionPairs (sortByX (junctionsOf rung))).filterMap
              (secOfPair (inputElementsOf rung))).map renderSec := by
          rw [show sectionStrOfPair (inputElementsOf rung) =
            (fun pair => (secOfPair (inputElementsOf rung) pair).map renderSec)
            from funext (fun pair => sectionStrOfPair_render _ pair hin)]
          exact filterMap_option_map _ _ _
        dsimp only
        rw [hbefore, hafter, hmid, ← List.map_append, ← List.map_append]
        rw [joinSep_if_cases]
        rfl
    · rw [if_neg hj, if_neg hj]
      rw [analyzeSeriesCircuit_render _ hin]
      rfl

/-- `all` over a mapped list (heterogeneous version). -/
theorem all_map_gen {α β : Type _} (f : α → β) (l : List α) (p : β → Bool) :
    (l.map f).all p = l.all (fun a => p (f a)) := by
  induction l with
  | nil => rfl
  | cons a r ih => simp [List.all_cons, ih]

/-- `any` over a mapped list (heterogeneous version). -/
theorem any_map_gen {α β : Type _} (f : α → β) (l : List α) (p : β → Bool) :
    (l.map f).any p = l.any (fun a => p (f a)) := by
  induction l with
  | nil => rfl
  | cons a r ih => simp [List.any_cons, ih]

/-- Pointwise-congruent predicates give the same `any`. -/
theorem any_congr_gen {α : Type _} {l : List α} {f g : α → Bool}
    (h : ∀ a ∈ l, f a = g a) : l.any f = l.any g := by
  induction l with
  | nil => rfl
  | cons a r ih =>
      simp only [List.any_cons]
      rw [h a (List.mem_cons_self a r),
        ih (fun b hb => h b (List.mem_cons_of_mem a hb))]

/-! ### The simulator evaluates the shape -/

theorem evaluateElement_eval (vars : VarMap) (el : LadderElement)
    (h : isInputElement el.type = true) :
    evaluateElement vars el = evalAtom vars (atomOf el) := by
  cases hty : el.type <;> simp [isInputElement, hty] at h <;>
    simp [evaluateElement, evalAtom, atomOf, hty]

theorem all_eval_map (vars : VarMap) (p : List LadderElement)
    (h : ∀ el ∈ p, isInputElement el.type = true) :
    p.all (evaluateElement vars) = (p.map atomOf).all (evalAtom vars) := by
  induction p with
  | nil => rfl
  | cons a r ih =>
      simp only [List.all_cons, List.map_cons]
      rw [evaluateElement_eval vars a (h a (List.mem_cons_self a r)),
        ih (fun el hel => h el (List.mem_cons_of_mem a hel))]

theorem sectionResultOfPair_eval (vars : VarMap)
    (inputs : List LadderElement) (pair : LadderElement × LadderElement)
    (h : ∀ el ∈ inputs, isInputElement el.type = true) :
    sectionResultOfPair vars inputs pair =
      (secOfPair inputs pair).map (evalSec vars) := by
  unfold sectionResultOfPair secOfPair
  by_cases h0 : (sectionEls inputs pair).length = 0
  · rw [if_pos h0, if_pos h0]
    rfl
  · rw [if_neg h0, if_neg h0]
    have hmem : ∀ p ∈ pathsOfSection (sectionEls inputs pair),
        ∀ el ∈ p, isInputElement el.type = true :=
      fun p hp el hel => h el (mem_sectionEls (mem_pathsOfSection hp hel))
    by_cases h1 : (pathsOfSection (sectionEls inputs pair)).length = 1
    · rw [if_pos h1, if_pos h1]
      have hne : pathsOfSection (sectionEls inputs pair) ≠ [] := by
        intro he
        rw [he] at h1
        simp at h1
      show some _ = some _
      congr 1
      exact all_eval_map vars _ (hmem _ (headI_mem hne))
    · rw [if_neg h1, if_neg h1]
      show some _ = some _
      congr 1
      show _ = (List.map (fun p => List.map atomOf p)
        (pathsOfSection (sectionEls inputs pair))).any
          (fun p => p.all (evalAtom vars))
      rw [any_map_gen]
      refine any_congr_gen ?_
      intro p hp
      exact all_eval_map vars p (hmem p hp)

theorem rungFinalResult_eval (vars : VarMap) (rung : LadderRung) :
    rungFinalResult vars rung = evalShape vars (shapeOf rung) := by
  have hin : ∀ el ∈ inputElementsOf rung, isInputElement el.type = true :=
    fun el hel => (List.mem_filter.mp (mem_sortByKey.mp hel)).2
  unfold rungFinalResult shapeOf
  by_cases hj : 2 ≤ (junctionsOf rung).length
  · rw [if_pos hj, if_pos hj]
    unfold executeParallelCircuit evalShape
    by_cases hsj : (sortByX (junctionsOf rung)).length < 2
    · rw [if_pos hsj, if_pos hsj]
      unfold executeSeriesCircuit
      simp only [List.all_cons, List.all_nil, Bool.and_true, evalSec]
      exact all_eval_map vars _ hin
    · rw [if_neg hsj, if_neg hsj]
      dsimp only
      rw [List.all_append, List.all_append, List.all_append, List.all_append]
      have hbef : ∀ els : List LadderElement,
          (∀ el ∈ els, isInputElement el.type = true) →
          ((if els.length = 0 then ([] : List Bool)
            else [els.all (evaluateElement vars)]).all (fun r => r)) =
          (els.map (fun el => CondSec.atom (atomOf el))).all (evalSec vars) := by
        intro els hels
        by_cases he : els.length = 0
        · rw [if_pos he]
          rw [List.length_eq_zero.mp he]
          rfl
        · rw [if_neg he]
          simp only [List.all_cons, List.all_nil, Bool.and_true]
          rw [all_eval_map vars els hels, all_map_gen, all_map_gen]
          rfl
      rw [hbef _ (fun el hel => hin el (List.mem_filter.mp hel).1),
        hbef _ (fun el hel => hin el (List.mem_filter.mp hel).1)]
      congr 1
      rw [show sectionResultOfPair vars (inputElementsOf rung) =
        (fun pair => (secOfPair (inputElementsOf rung) pair).map
          (evalSec vars))
        from funext (fun pair => sectionResultOfPair_eval _ _ pair hin)]
      rw [filterMap_option_map]
      rw [all_map_gen (evalSec vars) _ (fun r => r)]
  · rw [if_neg hj, if_neg hj]
    unfold executeSeriesCircuit evalShape
    simp only [List.all_cons, List.all_nil, Bool.and_true, evalSec]
    exact all_eval_map vars _ hin

/-! ## A reference reading of the emitted ST condition fragment (claim C1)

To state that *evaluating the synthesized ST condition expression* agrees
with the simulator, the condition string is given an independent standard
reading: a whitespace/parenthesis tokenizer, a recursive-descent parser for
the `OR < AND < NOT < atom` precedence grammar of the fragment, and a
boolean evaluator over the parsed tree.  These definitions follow the spec's
words ("substituting those same values into the synthesized ST expression
and evaluating it"), not the source. -/

/-- A token of the condition fragment. -/
inductive STTok where
  | lp
  | rp
  | andT
  | orT
  | notT
  | ident (s : String)
deriving DecidableEq, Repr

/-- Token delimiters: space and parentheses. -/
def isTokDelim (c : Char) : Bool := c = ' ' ∨ c = '(' ∨ c = ')'

/-- Keyword recognition for a maximal non-delimiter run. -/
def keywordOrIdent (s : String) : STTok :=
  if s = "AND" then STTok.andT
  else if s = "OR" then STTok.orT
  else if s = "NOT" then STTok.notT
  else STTok.ident s

/-- Tokenizer with an explicit step budget (each step consumes at least one
character, so a budget of the input length is never exhausted). -/
def tokenizeF : Nat → List Char → List STTok
  | 0, _ => []
  | _ + 1, [] => []
  | fuel + 1, c :: cs =>
      if c = ' ' then tokenizeF fuel cs
      else if c = '(' then STTok.lp :: tokenizeF fuel cs
      else if c = ')' then STTok.rp :: tokenizeF fuel cs
      else
        keywordOrIdent ⟨c :: cs.takeWhile (fun d => ¬ isTokDelim d)⟩
          :: tokenizeF fuel (cs.dropWhile (fun d => ¬ isTokDelim d))

/-- The tokenizer. -/
def tokenize (l : List Char) : List STTok := tokenizeF l.length l

theorem tokenizeF_eq (fuel : Nat) :
    ∀ (fuel' : Nat) (l : List Char), l.length ≤ fuel → l.length ≤ fuel' →
      tokenizeF fuel l = tokenizeF fuel' l := by
  induction fuel with
  | zero =>
      intro fuel' l h h'
      rw [List.length_eq_zero.mp (Nat.le_zero.mp h)]
      cases fuel' <;> rfl
  | succ f ih =>
      intro fuel' l h h'
      cases l with
      | nil => cases fuel' <;> rfl
      | cons c cs =>
          cases fuel' with
          | zero => simp at h'
          | succ f' =>
              simp only [List.length_cons, Nat.succ_le_succ_iff] at h h'
              show tokenizeF (f + 1) (c :: cs) = tokenizeF (f' + 1) (c :: cs)
              unfold tokenizeF
              have hdrop : (cs.dropWhile (fun d => ¬ isTokDelim d)).length
                  ≤ cs.length := (List.dropWhile_sublist _).length_le
              by_cases hsp : c = ' '
              · simp only [if_pos hsp]
                exact ih f' cs h h'
              · by_cases hlp : c = '('
                · simp only [if_neg hsp, if_pos hlp]
                  rw [ih f' cs h h']
                · by_cases hrp : c = ')'
                  · simp only [if_neg hsp, if_neg hlp, if_pos hrp]
                    rw [ih f' cs h h']
                  · simp only [if_neg hsp, if_neg hlp, if_neg hrp]
                    rw [ih f' _ (Nat.le_trans hdrop h)
                      (Nat.le_trans hdrop h')]

theorem tokenizeF_spec (fuel : Nat) (l : List Char) (h : l.length ≤ fuel) :
    tokenizeF fuel l = tokenize l :=
  tokenizeF_eq fuel l.length l h (Nat.le_refl _)

theorem tokenize_space (l : List Char) : tokenize (' ' :: l) = tokenize l := by
  show tokenizeF (l.length + 1) (' ' :: l) = _
  unfold tokenizeF
  rw [if_pos rfl]
  exact tokenizeF_spec _ _ (Nat.le_refl _)

theorem tokenize_lp (l : List Char) :
    tokenize ('(' :: l) = STTok.lp :: tokenize l := by
  show tokenizeF (l.length + 1) ('(' :: l) = _
  unfold tokenizeF
  rw [if_neg (by decide), if_pos rfl]
  rw [tokenizeF_spec _ _ (Nat.le_refl _)]

theorem tokenize_rp (l : List Char) :
    tokenize (')' :: l) = STTok.rp :: tokenize l := by
  show tokenizeF (l.length + 1) (')' :: l) = _
  unfold tokenizeF
  rw [if_neg (by decide), if_neg (by decide), if_pos rfl]
  rw [tokenizeF_spec _ _ (Nat.le_refl _)]

theorem tokenize_run (c : Char) (l : List Char) (h : isTokDelim c = false) :
    tokenize (c :: l) =
      keywordOrIdent ⟨c :: l.takeWhile (fun d => ¬ isTokDelim d)⟩
        :: tokenize (l.dropWhile (fun d => ¬ isTokDelim d)) := by
  have hsp : ¬ c = ' ' := by intro he; subst he; simp [isTokDelim] at h
  have hlp : ¬ c = '(' := by intro he; subst he; simp [isTokDelim] at h
  have hrp : ¬ c = ')' := by intro he; subst he; simp [isTokDelim] at h
  show tokenizeF (l.length + 1) (c :: l) = _
  unfold tokenizeF
  rw [if_neg hsp, if_neg hlp, if_neg hrp]
  rw [tokenizeF_spec _ _ ((List.dropWhile_sublist _).length_le)]

theorem takeWhile_append_neg (p : Char → Bool) (c : Char) (hc : p c = false) :
    ∀ (xs ys : List Char),
      (xs ++ c :: ys).takeWhile p = xs.takeWhile p := by
  intro xs ys
  induction xs with
  | nil => simp [List.takeWhile, hc]
  | cons a xs ih =>
      simp only [List.cons_append, List.takeWhile]
      cases p a <;> simp [ih]

theorem dropWhile_append_neg (p : Char → Bool) (c : Char) (hc : p c = false) :
    ∀ (xs ys : List Char),
      (xs ++ c :: ys).dropWhile p = xs.dropWhile p ++ c :: ys := by
  intro xs ys
  induction xs with
  | nil => simp [List.dropWhile, hc]
  | cons a xs ih =>
      simp only [List.cons_append, List.dropWhile]
      cases p a <;> simp [ih]

/-- The token stream that a single delimiter character contributes. -/
def delimToks (c : Char) : List STTok :=
  if c = '(' then [STTok.lp] else if c = ')' then [STTok.rp] else []

/-- Tokenization splits at any delimiter occurrence. -/
theorem tokenize_append_delim :
    ∀ (n : Nat) (l1 : List Char), l1.length ≤ n → ∀ (l2 : List Char) (c : Char),
      isTokDelim c = true →
      tokenize (l1 ++ c :: l2) = tokenize l1 ++ delimToks c ++ tokenize l2 := by
  intro n
  induction n with
  | zero =>
      intro l1 h l2 c hc
      rw [List.length_eq_zero.mp (Nat.le_zero.mp h)]
      simp only [List.nil_append]
      have : tokenize ([] : List Char) = [] := rfl
      rw [this, List.nil_append]
      simp only [isTokDelim, decide_eq_true_eq, Bool.or_eq_true] at hc
      rcases hc with h1 | h1 | h1 <;> subst h1
      · rw [tokenize_space]; rfl
      · rw [tokenize_lp]; rfl
      · rw [tokenize_rp]; rfl
  | succ n ih =>
      intro l1 h l2 c hc
      cases l1 with
      | nil =>
          simp only [List.nil_append]
          have : tokenize ([] : List Char) = [] := rfl
          rw [this, List.nil_append]
          simp only [isTokDelim, decide_eq_true_eq, Bool.or_eq_true] at hc
          rcases hc with h1 | h1 | h1 <;> subst h1
          · rw [tokenize_space]; rfl
          · rw [tokenize_lp]; rfl
          · rw [tokenize_rp]; rfl
      | cons d l1' =>
          simp only [List.length_cons, Nat.succ_le_succ_iff] at h
          rw [List.cons_append]
          by_cases hd : isTokDelim d = true
          · have hstep :
                ∀ l : List Char, tokenize (d :: l) = delimToks d ++ tokenize l := by
              intro l
              simp only [isTokDelim, decide_eq_true_eq, Bool.or_eq_true] at hd
              rcases hd with h1 | h1 | h1 <;> subst h1
              · rw [tokenize_space]; rfl
              · rw [tokenize_lp]; rfl
              · rw [tokenize_rp]; rfl
            rw [hstep, hstep, ih l1' h l2 c hc]
            simp [List.append_assoc]
          · have hd' : isTokDelim d = false := by
              cases hde : isTokDelim d
              · rfl
              · exact absurd hde hd
            rw [tokenize_run d _ hd', tokenize_run d l1' hd']
            rw [takeWhile_append_neg _ c (by simp [hc]) l1' l2]
            rw [dropWhile_append_neg _ c (by simp [hc]) l1' l2]
            have hlen : (l1'.dropWhile (fun x => ¬ isTokDelim x)).length ≤ n :=
              Nat.le_trans (List.dropWhile_sublist _).length_le h
            rw [ih _ hlen l2 c hc]
            simp [List.append_assoc]

/-- A clean variable name: nonempty, delimiter-free characters, and not one
of the three operator keywords. -/
def cleanName (v : String) : Prop :=
  v.data ≠ [] ∧ (∀ c ∈ v.data, isTokDelim c = false) ∧
    v ≠ "AND" ∧ v ≠ "OR" ∧ v ≠ "NOT"

instance (v : String) : Decidable (cleanName v) := by
  unfold cleanName; infer_instance

theorem tokenize_cleanName (v : String) (h : cleanName v) :
    tokenize v.data = [STTok.ident v] := by
  obtain ⟨hne, hall, hand, hor, hnot⟩ := h
  cases hv : v.data with
  | nil => exact absurd hv hne
  | cons c cs =>
      have hc : isTokDelim c = false := hall c (by rw [hv]; exact List.mem_cons_self c cs)
      rw [tokenize_run c cs hc]
      have htw : cs.takeWhile (fun d => ¬ isTokDelim d) = cs := by
        rw [List.takeWhile_eq_self_iff]
        intro d hd
        simp [hall d (by rw [hv]; exact List.mem_cons_of_mem c hd)]
      have hdw : cs.dropWhile (fun d => ¬ isTokDelim d) = [] := by
        rw [List.dropWhile_eq_nil_iff]
        intro d hd
        simp [hall d (by rw [hv]; exact List.mem_cons_of_mem c hd)]
      rw [htw, hdw]
      have hvv : (⟨c :: cs⟩ : String) = v := by rw [← hv]
      rw [hvv]
      have : keywordOrIdent v = STTok.ident v := by
        unfold keywordOrIdent
        rw [if_neg hand, if_neg hor, if_neg hnot]
      rw [this]
      rfl

/-- Boolean expression tree of the ST condition fragment. -/
inductive BExpr where
  | var (s : String)
  | notE (e : BExpr)
  | andE (a b : BExpr)
  | orE (a b : BExpr)
deriving DecidableEq, Repr

mutual

/-- `atom := ident | '(' or ')'`. -/
def parseAtomF : Nat → List STTok → Option (BExpr × List STTok)
  | 0, _ => none
  | _ + 1, STTok.ident s :: rest => some (BExpr.var s, rest)
  | fuel + 1, STTok.lp :: rest =>
      match parseOrF fuel rest with
      | some (e, STTok.rp :: rest2) => some (e, rest2)
      | _ => none
  | _ + 1, _ => none

/-- `unary := 'NOT' unary | atom`. -/
def parseUnaryF : Nat → List STTok → Option (BExpr × List STTok)
  | 0, _ => none
  | fuel + 1, STTok.notT :: rest =>
      match parseUnaryF fuel rest with
      | some (e, rest2) => some (BExpr.notE e, rest2)
      | none => none
  | fuel + 1, toks => parseAtomF fuel toks

def parseAndRestF : Nat → BExpr → List STTok → Option (BExpr × List STTok)
  | 0, _, _ => none
  | fuel + 1, acc, STTok.andT :: rest =>
      match parseUnaryF fuel rest with
      | some (e, rest2) => parseAndRestF fuel (BExpr.andE acc e) rest2
      | none => none
  | _ + 1, acc, toks => some (acc, toks)

/-- `conj := unary ('AND' unary)*`, left associated. -/
def parseAndF : Nat → List STTok → Option (BExpr × List STTok)
  | 0, _ => none
  | fuel + 1, toks =>
      match parseUnaryF fuel toks with
      | some (e, rest) => parseAndRestF fuel e rest
      | none => none

def parseOrRestF : Nat → BExpr → List STTok → Option (BExpr × List STTok)
  | 0, _, _ => none
  | fuel + 1, acc, STTok.orT :: rest =>
      match parseAndF fuel rest with
      | some (e, rest2) => parseOrRestF fuel (BExpr.orE acc e) rest2
      | none => none
  | _ + 1, acc, toks => some (acc, toks)

/-- `disj := conj ('OR' conj)*`, left associated. -/
def parseOrF : Nat → List STTok → Option (BExpr × List STTok)
  | 0, _ => none
  | fuel + 1, toks =>
      match parseAndF fuel toks with
      | some (e, rest) => parseOrRestF fuel e rest
      | none => none

end

/-- Entry point; every parser step consumes fuel, and `4·|toks| + 4` is
shown sufficient for all streams the synthesizer emits. -/
def parseExpr (toks : List STTok) : Option (BExpr × List STTok) :=
  parseOrF (4 * toks.length + 4) toks

/-- Standard boolean evaluation of a parsed condition under a variable map
(JS truthiness: a variable is true iff the map binds it to `true`). -/
def evalBExpr (vars : VarMap) : BExpr → Bool
  | BExpr.var s => getVar vars s = some true
  | BExpr.notE e => ! evalBExpr vars e
  | BExpr.andE a b => evalBExpr vars a && evalBExpr vars b
  | BExpr.orE a b => evalBExpr vars a || evalBExpr vars b

/-- Evaluate an ST condition string: tokenize, parse, require the whole
stream to be consumed, evaluate.  `none` when the string is not a
well-formed condition expression. -/
def evalSTCondition (s : String) (vars : VarMap) : Option Bool :=
  match parseExpr (tokenize s.data) with
  | some (e, []) => some (evalBExpr vars e)
  | _ => none

/-! ### Token streams of the rendered shape -/

/-- Join token fragments with a separator token. -/
def joinToks (sep : STTok) : List (List STTok) → List STTok
  | [] => []
  | [t] => t
  | t :: ts => t ++ sep :: joinToks sep ts

/-- Tokens of one rendered atom. -/
def atomToks (a : CondAtom) : List STTok :=
  if a.neg then [STTok.notT, STTok.ident a.v] else [STTok.ident a.v]

/-- Tokens of a rendered AND chain. -/
def chainToks (l : List CondAtom) : List STTok :=
  joinToks STTok.andT (l.map atomToks)

/-- Tokens of one rendered parallel path. -/
def pathToks (p : List CondAtom) : List STTok :=
  if 1 < p.length then STTok.lp :: chainToks p ++ [STTok.rp] else chainToks p

/-- Tokens of a rendered parallel section. -/
def parToks (ps : List (List CondAtom)) : List STTok :=
  STTok.lp :: joinToks STTok.orT (ps.map pathToks) ++ [STTok.rp]

/-- Tokens of one rendered section. -/
def secToks : CondSec → List STTok
  | CondSec.atom a => atomToks a
  | CondSec.chain l => chainToks l
  | CondSec.par ps => parToks ps

/-- Tokens of the whole rendered rung condition. -/
def topToks (secs : List CondSec) : List STTok :=
  joinToks STTok.andT (secs.map secToks)

theorem joinToks_cons₂ (sep : STTok) (t t' : List STTok) (ts : List (List STTok)) :
    joinToks sep (t :: t' :: ts) = t ++ sep :: joinToks sep (t' :: ts) := rfl

theorem tokenize_split (l1 l2 : List Char) (c : Char) (hc : isTokDelim c = true) :
    tokenize (l1 ++ c :: l2) = tokenize l1 ++ delimToks c ++ tokenize l2 :=
  tokenize_append_delim l1.length l1 (Nat.le_refl _) l2 c hc

theorem tokenize_sep_and (x y : List Char) :
    tokenize (x ++ (" AND ").data ++ y) = tokenize x ++ STTok.andT :: tokenize y := by
  have h1 : x ++ (" AND ").data ++ y = x ++ ' ' :: (['A', 'N', 'D'] ++ ' ' :: y) := by
    simp
  rw [h1, tokenize_split x _ ' ' (by decide),
    tokenize_split ['A', 'N', 'D'] y ' ' (by decide)]
  have h2 : tokenize ['A', 'N', 'D'] = [STTok.andT] := by decide
  have hsp : delimToks ' ' = [] := by decide
  rw [h2, hsp]
  simp

theorem tokenize_sep_or (x y : List Char) :
    tokenize (x ++ (" OR ").data ++ y) = tokenize x ++ STTok.orT :: tokenize y := by
  have h1 : x ++ (" OR ").data ++ y = x ++ ' ' :: (['O', 'R'] ++ ' ' :: y) := by
    simp
  rw [h1, tokenize_split x _ ' ' (by decide),
    tokenize_split ['O', 'R'] y ' ' (by decide)]
  have h2 : tokenize ['O', 'R'] = [STTok.orT] := by decide
  have hsp : delimToks ' ' = [] := by decide
  rw [h2, hsp]
  simp

theorem atomToks_spec (a : CondAtom) (h : cleanName a.v) :
    tokenize (renderAtom a).data = atomToks a := by
  unfold renderAtom atomToks
  cases hn : a.neg
  · simp only [hn, Bool.false_eq_true, if_false]
    exact tokenize_cleanName a.v h
  · simp only [hn, if_true]
    have h1 : ("NOT " ++ a.v).data = ['N', 'O', 'T'] ++ ' ' :: a.v.data := by
      rw [String.data_append]; rfl
    rw [h1, tokenize_split ['N', 'O', 'T'] a.v.data ' ' (by decide)]
    have h2 : tokenize ['N', 'O', 'T'] = [STTok.notT] := by decide
    have hsp : delimToks ' ' = [] := by decide
    rw [h2, hsp, tokenize_cleanName a.v h]
    simp

theorem chainToks_spec (l : List CondAtom) (hne : l ≠ [])
    (h : ∀ a ∈ l, cleanName a.v) :
    tokenize (renderChain l).data = chainToks l := by
  induction l with
  | nil => exact absurd rfl hne
  | cons a r ih =>
      cases r with
      | nil =>
          show tokenize (renderAtom a).data = _
          rw [atomToks_spec a (h a (List.mem_cons_self a []))]
          rfl
      | cons b r' =>
          have hj : renderChain (a :: b :: r') =
              renderAtom a ++ " AND " ++ renderChain (b :: r') := by
            unfold renderChain
            rw [List.map_cons]
            exact joinSep_cons " AND " (renderAtom a) _ (by simp)
          rw [hj, String.data_append, String.data_append, tokenize_sep_and]
          rw [atomToks_spec a (h a (List.mem_cons_self a _))]
          rw [ih (by simp) (fun x hx => h x (List.mem_cons_of_mem a hx))]
          rfl

theorem pathToks_spec (p : List CondAtom) (hne : p ≠ [])
    (h : ∀ a ∈ p, cleanName a.v) :
    tokenize (renderPath p).data = pathToks p := by
  unfold renderPath pathToks
  by_cases hl : 1 < p.length
  · rw [if_pos hl, if_pos hl]
    have h1 : ("(" ++ renderChain p ++ ")").data =
        '(' :: ((renderChain p).data ++ ')' :: []) := by
      rw [String.data_append, String.data_append]
      rfl
    rw [h1, tokenize_lp, tokenize_split _ [] ')' (by decide)]
    rw [chainToks_spec p hne h]
    have hrp : delimToks ')' = [STTok.rp] := by decide
    have hnil : tokenize ([] : List Char) = [] := rfl
    rw [hrp, hnil]
    simp
  · rw [if_neg hl, if_neg hl]
    exact chainToks_spec p hne h

theorem orJoin_spec (ps : List (List CondAtom)) (hne : ps ≠ [])
    (hps : ∀ p ∈ ps, p ≠ []) (h : ∀ p ∈ ps, ∀ a ∈ p, cleanName a.v) :
    tokenize (joinSep " OR " (ps.map renderPath)).data =
      joinToks STTok.orT (ps.map pathToks) := by
  induction ps with
  | nil => exact absurd rfl hne
  | cons p r ih =>
      cases r with
      | nil =>
          show tokenize (renderPath p).data = _
          rw [pathToks_spec p (hps p (List.mem_cons_self p []))
            (h p (List.mem_cons_self p []))]
          rfl
      | cons q r' =>
          rw [List.map_cons,
            joinSep_cons " OR " (renderPath p) _ (by simp),
            String.data_append, String.data_append, tokenize_sep_or]
          rw [pathToks_spec p (hps p (List.mem_cons_self p _))
            (h p (List.mem_cons_self p _))]
          rw [show ((q :: r').map renderPath) =
            ((q :: r' : List (List CondAtom)).map renderPath) from rfl]
          rw [ih (by simp) (fun x hx => hps x (List.mem_cons_of_mem p hx))
            (fun x hx => h x (List.mem_cons_of_mem p hx))]
          rfl

theorem parToks_spec (ps : List (List CondAtom)) (hne : ps ≠ [])
    (hps : ∀ p ∈ ps, p ≠ []) (h : ∀ p ∈ ps, ∀ a ∈ p, cleanName a.v) :
    tokenize (renderPar ps).data = parToks ps := by
  unfold renderPar parToks
  have h1 : ("(" ++ joinSep " OR " (ps.map renderPath) ++ ")").data =
      '(' :: ((joinSep " OR " (ps.map renderPath)).data ++ ')' :: []) := by
    rw [String.data_append, String.data_append]
    rfl
  rw [h1, tokenize_lp, tokenize_split _ [] ')' (by decide)]
  rw [orJoin_spec ps hne hps h]
  have hrp : delimToks ')' = [STTok.rp] := by decide
  have hnil : tokenize ([] : List Char) = [] := rfl
  rw [hrp, hnil]
  simp

/-- Well-formedness of a section for the round trip: chains and paths
nonempty, and every referenced name clean. -/
def WFSec : CondSec → Prop
  | CondSec.atom a => cleanName a.v
  | CondSec.chain l => l ≠ [] ∧ ∀ a ∈ l, cleanName a.v
  | CondSec.par ps => ps ≠ [] ∧ ∀ p ∈ ps, p ≠ [] ∧ ∀ a ∈ p, cleanName a.v

theorem secToks_spec (sec : CondSec) (h : WFSec sec) :
    tokenize (renderSec sec).data = secToks sec := by
  cases sec with
  | atom a => exact atomToks_spec a h
  | chain l => exact chainToks_spec l h.1 h.2
  | par ps =>
      exact parToks_spec ps h.1 (fun p hp => (h.2 p hp).1)
        (fun p hp => (h.2 p hp).2)

theorem topToks_spec (secs : List CondSec) (hne : secs ≠ [])
    (h : ∀ sec ∈ secs, WFSec sec) :
    tokenize (renderTop secs).data = topToks secs := by
  induction secs with
  | nil => exact absurd rfl hne
  | cons s r ih =>
      cases r with
      | nil =>
          show tokenize (renderSec s).data = _
          rw [secToks_spec s (h s (List.mem_cons_self s []))]
          rfl
      | cons t r' =>
          show tokenize (joinSep " AND " (renderSec s :: (t :: r').map renderSec)).data = _
          rw [joinSep_cons " AND " (renderSec s) _ (by simp),
            String.data_append, String.data_append, tokenize_sep_and]
          rw [secToks_spec s (h s (List.mem_cons_self s _))]
          have ih' := ih (by simp) (fun x hx => h x (List.mem_cons_of_mem s hx))
          have ih2 : tokenize (joinSep " AND " (List.map renderSec (t :: r'))).data
              = topToks (t :: r') := ih'
          rw [ih2]
          rfl

/-! ### The parser recovers the shape from its token stream -/

/-- Expression of one atom. -/
def atomExpr (a : CondAtom) : BExpr :=
  if a.neg then BExpr.notE (BExpr.var a.v) else BExpr.var a.v

/-- Left-associated AND over a chain's atoms. -/
def chainExpr : List CondAtom → BExpr
  | [] => BExpr.var ""
  | a :: r => r.foldl (fun acc b => BExpr.andE acc (atomExpr b)) (atomExpr a)

/-- Left-associated OR over a parallel section's paths. -/
def parExpr : List (List CondAtom) → BExpr
  | [] => BExpr.var ""
  | p :: r => r.foldl (fun acc q => BExpr.orE acc (chainExpr q)) (chainExpr p)

/-- A top-level AND operand: a lone atom or a parenthesised group. -/
inductive CondUnit where
  | atomU (a : CondAtom)
  | groupU (ps : List (List CondAtom))
deriving DecidableEq, Repr

/-- Tokens of one operand. -/
def unitToks : CondUnit → List STTok
  | CondUnit.atomU a => atomToks a
  | CondUnit.groupU ps => parToks ps

/-- Expression of one operand. -/
def unitExpr : CondUnit → BExpr
  | CondUnit.atomU a => atomExpr a
  | CondUnit.groupU ps => parExpr ps

/-- The operand list of one section. -/
def unitsOfSec : CondSec → List CondUnit
  | CondSec.atom a => [CondUnit.atomU a]
  | CondSec.chain l => l.map CondUnit.atomU
  | CondSec.par ps => [CondUnit.groupU ps]

/-- The operand list of the whole rung condition. -/
def unitsOf (secs : List CondSec) : List CondUnit :=
  (secs.map unitsOfSec).flatten

/-- Left-associated AND over the operand list. -/
def unitsExpr : List CondUnit → BExpr
  | [] => BExpr.var ""
  | u :: r => r.foldl (fun acc u' => BExpr.andE acc (unitExpr u')) (unitExpr u)

/-- `toks` parses as a complete unary operand leaving exactly the trailing
input, for any sufficient fuel. -/
def ParsesUnary (toks : List STTok) (e : BExpr) : Prop :=
  ∀ fuel rest, 4 * toks.length ≤ fuel →
    parseUnaryF fuel (toks ++ rest) = some (e, rest)

/-- `toks` parses as a complete AND chain whenever the trailing input does
not begin with `AND`. -/
def ParsesAnd (toks : List STTok) (e : BExpr) : Prop :=
  ∀ fuel rest, 4 * toks.length + 2 ≤ fuel →
    rest.head? ≠ some STTok.andT →
    parseAndF fuel (toks ++ rest) = some (e, rest)

/-- `toks` parses as a complete OR chain whenever the trailing input does
not begin with `AND` or `OR`. -/
def ParsesOr (toks : List STTok) (e : BExpr) : Prop :=
  ∀ fuel rest, 4 * toks.length + 4 ≤ fuel →
    rest.head? ≠ some STTok.andT → rest.head? ≠ some STTok.orT →
    parseOrF fuel (toks ++ rest) = some (e, rest)

theorem parsesUnary_ident (v : String) :
    ParsesUnary [STTok.ident v] (BExpr.var v) := by
  intro fuel rest hf
  have h4 : 4 ≤ fuel := by simpa using hf
  match fuel, h4 with
  | f + 1, h4 =>
      show parseUnaryF (f + 1) (STTok.ident v :: rest) = _
      rw [show parseUnaryF (f + 1) (STTok.ident v :: rest)
          = parseAtomF f (STTok.ident v :: rest) from rfl]
      match f, (by omega : 1 ≤ f) with
      | _ + 1, _ => rfl

theorem parsesUnary_not (toks : List STTok) (e : BExpr)
    (h : ParsesUnary toks e) :
    ParsesUnary (STTok.notT :: toks) (BExpr.notE e) := by
  intro fuel rest hf
  simp only [List.length_cons] at hf
  match fuel, (by omega : 1 ≤ fuel) with
  | f + 1, _ =>
      show parseUnaryF (f + 1) (STTok.notT :: (toks ++ rest)) = _
      rw [show parseUnaryF (f + 1) (STTok.notT :: (toks ++ rest))
          = match parseUnaryF f (toks ++ rest) with
            | some (e, rest2) => some (BExpr.notE e, rest2)
            | none => none from rfl]
      rw [h f rest (by omega)]

theorem parsesUnary_group (inner : List STTok) (e : BExpr)
    (h : ParsesOr inner e) :
    ParsesUnary (STTok.lp :: inner ++ [STTok.rp]) e := by
  intro fuel rest hf
  simp only [List.length_cons, List.length_append, List.length_cons,
    List.length_nil] at hf
  match fuel, (by omega : 2 ≤ fuel) with
  | f + 2, _ =>
      have harr : (STTok.lp :: inner ++ [STTok.rp]) ++ rest
          = STTok.lp :: (inner ++ (STTok.rp :: rest)) := by simp
      rw [harr]
      show parseUnaryF (f + 2) (STTok.lp :: (inner ++ (STTok.rp :: rest))) = _
      rw [show parseUnaryF (f + 2) (STTok.lp :: (inner ++ (STTok.rp :: rest)))
          = parseAtomF (f + 1) (STTok.lp :: (inner ++ (STTok.rp :: rest)))
          from rfl]
      rw [show parseAtomF (f + 1) (STTok.lp :: (inner ++ (STTok.rp :: rest)))
          = match parseOrF f (inner ++ (STTok.rp :: rest)) with
            | some (e, STTok.rp :: rest2) => some (e, rest2)
            | _ => none from rfl]
      rw [h f (STTok.rp :: rest) (by omega) (by simp) (by simp)]

/-- The separator-prefixed tail glue of a joined token list. -/
def sepGlue (sep : STTok) : List (List STTok) → List STTok
  | [] => []
  | t :: ts => sep :: t ++ sepGlue sep ts

theorem joinToks_eq_glue (sep : STTok) (t : List STTok)
    (ts : List (List STTok)) :
    joinToks sep (t :: ts) = t ++ sepGlue sep ts := by
  induction ts generalizing t with
  | nil => simp [joinToks, sepGlue]
  | cons t' ts' ih =>
      rw [joinToks_cons₂, ih t', sepGlue]
      simp


theorem parseAndRest_glue (units : List (List STTok × BExpr))
    (h : ∀ u ∈ units, ParsesUnary u.1 u.2) :
    ∀ (acc : BExpr) (fuel : Nat) (rest : List STTok),
      4 * (sepGlue STTok.andT (units.map Prod.fst)).length + 1 ≤ fuel →
      rest.head? ≠ some STTok.andT →
      parseAndRestF fuel acc (sepGlue STTok.andT (units.map Prod.fst) ++ rest) =
        some (units.foldl (fun a u => BExpr.andE a u.2) acc, rest) := by
  induction units with
  | nil =>
      intro acc fuel rest hf hr
      match fuel, (by omega : 1 ≤ fuel) with
      | f + 1, _ =>
          show parseAndRestF (f + 1) acc rest = some (acc, rest)
          cases rest with
          | nil => rfl
          | cons t rest' =>
              cases t with
              | andT => exact absurd rfl hr
              | lp => rfl
              | rp => rfl
              | orT => rfl
              | notT => rfl
              | ident s => rfl
  | cons u units ih =>
      intro acc fuel rest hf hr
      rw [List.map_cons] at hf ⊢
      rw [show sepGlue STTok.andT (u.1 :: units.map Prod.fst)
          = STTok.andT :: u.1 ++ sepGlue STTok.andT (units.map Prod.fst)
          from rfl] at hf ⊢
      simp only [List.length_cons, List.length_append] at hf
      match fuel, (by omega : 1 ≤ fuel) with
      | f + 1, _ =>
          rw [show (STTok.andT :: u.1 ++ sepGlue STTok.andT (units.map Prod.fst)) ++ rest
              = STTok.andT :: (u.1 ++ (sepGlue STTok.andT (units.map Prod.fst) ++ rest))
              by simp]
          show parseAndRestF (f + 1) acc
            (STTok.andT :: (u.1 ++ (sepGlue STTok.andT (units.map Prod.fst) ++ rest))) = _
          rw [show parseAndRestF (f + 1) acc
              (STTok.andT :: (u.1 ++ (sepGlue STTok.andT (units.map Prod.fst) ++ rest)))
              = match parseUnaryF f
                  (u.1 ++ (sepGlue STTok.andT (units.map Prod.fst) ++ rest)) with
                | some (e, rest2) => parseAndRestF f (BExpr.andE acc e) rest2
                | none => none from rfl]
          rw [h u (List.mem_cons_self u units) f _ (by omega)]
          exact ih (fun x hx => h x (List.mem_cons_of_mem u hx))
            (BExpr.andE acc u.2) f rest (by omega) hr

theorem parsesAnd_of_units (u : List STTok × BExpr)
    (units : List (List STTok × BExpr))
    (h : ∀ x ∈ u :: units, ParsesUnary x.1 x.2) :
    ParsesAnd (joinToks STTok.andT ((u :: units).map Prod.fst))
      (units.foldl (fun a x => BExpr.andE a x.2) u.2) := by
  intro fuel rest hf hr
  rw [List.map_cons, joinToks_eq_glue] at hf ⊢
  simp only [List.length_append] at hf
  match fuel, (by omega : 1 ≤ fuel) with
  | f + 1, _ =>
      rw [show (u.1 ++ sepGlue STTok.andT (units.map Prod.fst)) ++ rest
          = u.1 ++ (sepGlue STTok.andT (units.map Prod.fst) ++ rest) by simp]
      show parseAndF (f + 1)
        (u.1 ++ (sepGlue STTok.andT (units.map Prod.fst) ++ rest)) = _
      rw [show parseAndF (f + 1)
          (u.1 ++ (sepGlue STTok.andT (units.map Prod.fst) ++ rest))
          = match parseUnaryF f
              (u.1 ++ (sepGlue STTok.andT (units.map Prod.fst) ++ rest)) with
            | some (e, rest') => parseAndRestF f e rest'
            | none => none from rfl]
      rw [h u (List.mem_cons_self u units) f _ (by omega)]
      exact parseAndRest_glue units
        (fun x hx => h x (List.mem_cons_of_mem u hx)) u.2 f rest (by omega) hr

theorem parseOrRest_glue (chains : List (List STTok × BExpr))
    (h : ∀ c ∈ chains, ParsesAnd c.1 c.2) :
    ∀ (acc : BExpr) (fuel : Nat) (rest : List STTok),
      4 * (sepGlue STTok.orT (chains.map Prod.fst)).length + 2 ≤ fuel →
      rest.head? ≠ some STTok.andT → rest.head? ≠ some STTok.orT →
      parseOrRestF fuel acc (sepGlue STTok.orT (chains.map Prod.fst) ++ rest) =
        some (chains.foldl (fun a c => BExpr.orE a c.2) acc, rest) := by
  induction chains with
  | nil =>
      intro acc fuel rest hf hra hro
      match fuel, (by omega : 1 ≤ fuel) with
      | f + 1, _ =>
          show parseOrRestF (f + 1) acc rest = some (acc, rest)
          cases rest with
          | nil => rfl
          | cons t rest' =>
              cases t with
              | orT => exact absurd rfl hro
              | lp => rfl
              | rp => rfl
              | andT => rfl
              | notT => rfl
              | ident s => rfl
  | cons c chains ih =>
      intro acc fuel rest hf hra hro
      rw [List.map_cons] at hf ⊢
      rw [show sepGlue STTok.orT (c.1 :: chains.map Prod.fst)
          = STTok.orT :: c.1 ++ sepGlue STTok.orT (chains.map Prod.fst)
          from rfl] at hf ⊢
      simp only [List.length_cons, List.length_append] at hf
      match fuel, (by omega : 1 ≤ fuel) with
      | f + 1, _ =>
          rw [show (STTok.orT :: c.1 ++ sepGlue STTok.orT (chains.map Prod.fst)) ++ rest
              = STTok.orT :: (c.1 ++ (sepGlue STTok.orT (chains.map Prod.fst) ++ rest))
              by simp]
          show parseOrRestF (f + 1) acc
            (STTok.orT :: (c.1 ++ (sepGlue STTok.orT (chains.map Prod.fst) ++ rest))) = _
          rw [show parseOrRestF (f + 1) acc
              (STTok.orT :: (c.1 ++ (sepGlue STTok.orT (chains.map Prod.fst) ++ rest)))
              = match parseAndF f
                  (c.1 ++ (sepGlue STTok.orT (chains.map Prod.fst) ++ rest)) with
                | some (e, rest2) => parseOrRestF f (BExpr.orE acc e) rest2
                | none => none from rfl]
          have hnext : (sepGlue STTok.orT (chains.map Prod.fst) ++ rest).head?
              ≠ some STTok.andT := by
            cases chains with
            | nil => exact hra
            | cons c' chains' => simp [sepGlue]
          rw [h c (List.mem_cons_self c chains) f _ (by omega) hnext]
          exact ih (fun x hx => h x (List.mem_cons_of_mem c hx))
            (BExpr.orE acc c.2) f rest (by omega) hra hro

theorem parsesOr_of_chains (c : List STTok × BExpr)
    (chains : List (List STTok × BExpr))
    (h : ∀ x ∈ c :: chains, ParsesAnd x.1 x.2) :
    ParsesOr (joinToks STTok.orT ((c :: chains).map Prod.fst))
      (chains.foldl (fun a x => BExpr.orE a x.2) c.2) := by
  intro fuel rest hf hra hro
  rw [List.map_cons, joinToks_eq_glue] at hf ⊢
  simp only [List.length_append] at hf
  match fuel, (by omega : 1 ≤ fuel) with
  | f + 1, _ =>
      rw [show (c.1 ++ sepGlue STTok.orT (chains.map Prod.fst)) ++ rest
          = c.1 ++ (sepGlue STTok.orT (chains.map Prod.fst) ++ rest) by simp]
      show parseOrF (f + 1)
        (c.1 ++ (sepGlue STTok.orT (chains.map Prod.fst) ++ rest)) = _
      rw [show parseOrF (f + 1)
          (c.1 ++ (sepGlue STTok.orT (chains.map Prod.fst) ++ rest))
          = match parseAndF f
              (c.1 ++ (sepGlue STTok.orT (chains.map Prod.fst) ++ rest)) with
            | some (e, rest') => parseOrRestF f e rest'
            | none => none from rfl]
      have hnext : (sepGlue STTok.orT (chains.map Prod.fst) ++ rest).head?
          ≠ some STTok.andT := by
        cases chains with
        | nil => exact hra
        | cons c' chains' => simp [sepGlue]
      rw [h c (List.mem_cons_self c chains) f _ (by omega) hnext]
      exact parseOrRest_glue chains
        (fun x hx => h x (List.mem_cons_of_mem c hx)) c.2 f rest (by omega)
        hra hro

theorem parsesAnd_single (toks : List STTok) (e : BExpr)
    (h : ParsesUnary toks e) : ParsesAnd toks e :=
  parsesAnd_of_units (toks, e) []
    (fun x hx => by
      rcases List.mem_singleton.mp hx with rfl
      exact h)

theorem parsesOr_single (toks : List STTok) (e : BExpr)
    (h : ParsesAnd toks e) : ParsesOr toks e :=
  parsesOr_of_chains (toks, e) []
    (fun x hx => by
      rcases List.mem_singleton.mp hx with rfl
      exact h)

theorem parsesUnary_atomToks (a : CondAtom) :
    ParsesUnary (atomToks a) (atomExpr a) := by
  unfold atomToks atomExpr
  cases hn : a.neg
  · simp only [Bool.false_eq_true, if_false]
    exact parsesUnary_ident a.v
  · simp only [if_true]
    exact parsesUnary_not [STTok.ident a.v] (BExpr.var a.v)
      (parsesUnary_ident a.v)

theorem parsesAnd_chainToks (p : List CondAtom) (hne : p ≠ []) :
    ParsesAnd (chainToks p) (chainExpr p) := by
  cases p with
  | nil => exact absurd rfl hne
  | cons a r =>
      have h := parsesAnd_of_units (atomToks a, atomExpr a)
        (r.map (fun b => (atomToks b, atomExpr b)))
        (fun x hx => by
          rcases List.mem_cons.mp hx with rfl | hx
          · exact parsesUnary_atomToks a
          · rcases List.mem_map.mp hx with ⟨b, -, rfl⟩
            exact parsesUnary_atomToks b)
      have h1 : ((atomToks a, atomExpr a) :: r.map (fun b => (atomToks b, atomExpr b))).map Prod.fst
          = (a :: r).map atomToks := by
        simp [List.map_map]
      have h2 : (r.map (fun b => (atomToks b, atomExpr b))).foldl
          (fun acc x => BExpr.andE acc x.2) (atomExpr a)
          = chainExpr (a :: r) := by
        rw [List.foldl_map]
        rfl
      rw [h1, h2] at h
      exact h

theorem parsesAnd_pathToks (p : List CondAtom) (hne : p ≠ []) :
    ParsesAnd (pathToks p) (chainExpr p) := by
  unfold pathToks
  by_cases hl : 1 < p.length
  · rw [if_pos hl]
    exact parsesAnd_single _ _
      (parsesUnary_group (chainToks p) (chainExpr p)
        (parsesOr_single _ _ (parsesAnd_chainToks p hne)))
  · rw [if_neg hl]
    exact parsesAnd_chainToks p hne

theorem parsesOr_parPaths (ps : List (List CondAtom)) (hne : ps ≠ [])
    (hps : ∀ p ∈ ps, p ≠ []) :
    ParsesOr (joinToks STTok.orT (ps.map pathToks)) (parExpr ps) := by
  cases ps with
  | nil => exact absurd rfl hne
  | cons p r =>
      have h := parsesOr_of_chains (pathToks p, chainExpr p)
        (r.map (fun q => (pathToks q, chainExpr q)))
        (fun x hx => by
          rcases List.mem_cons.mp hx with rfl | hx
          · exact parsesAnd_pathToks p (hps p (List.mem_cons_self p r))
          · rcases List.mem_map.mp hx with ⟨q, hq, rfl⟩
            exact parsesAnd_pathToks q (hps q (List.mem_cons_of_mem p hq)))
      have h1 : ((pathToks p, chainExpr p) :: r.map (fun q => (pathToks q, chainExpr q))).map Prod.fst
          = (p :: r).map pathToks := by
        simp [List.map_map]
      have h2 : (r.map (fun q => (pathToks q, chainExpr q))).foldl
          (fun acc x => BExpr.orE acc x.2) (chainExpr p)
          = parExpr (p :: r) := by
        rw [List.foldl_map]
        rfl
      rw [h1, h2] at h
      exact h

/-- Structural well-formedness of an operand needed by the parser. -/
def WFUnit : CondUnit → Prop
  | CondUnit.atomU _ => True
  | CondUnit.groupU ps => ps ≠ [] ∧ ∀ p ∈ ps, p ≠ []

theorem parsesUnary_unitToks (u : CondUnit) (h : WFUnit u) :
    ParsesUnary (unitToks u) (unitExpr u) := by
  cases u with
  | atomU a => exact parsesUnary_atomToks a
  | groupU ps =>
      show ParsesUnary (STTok.lp :: joinToks STTok.orT (ps.map pathToks) ++ [STTok.rp])
        (parExpr ps)
      exact parsesUnary_group _ _ (parsesOr_parPaths ps h.1 h.2)

theorem parsesOr_unitToks (u : CondUnit) (units : List CondUnit)
    (h : ∀ x ∈ u :: units, WFUnit x) :
    ParsesOr (joinToks STTok.andT ((u :: units).map unitToks))
      (unitsExpr (u :: units)) := by
  have hand := parsesAnd_of_units (unitToks u, unitExpr u)
    (units.map (fun x => (unitToks x, unitExpr x)))
    (fun x hx => by
      rcases List.mem_cons.mp hx with rfl | hx
      · exact parsesUnary_unitToks u (h u (List.mem_cons_self u units))
      · rcases List.mem_map.mp hx with ⟨y, hy, rfl⟩
        exact parsesUnary_unitToks y (h y (List.mem_cons_of_mem u hy)))
  have h1 : ((unitToks u, unitExpr u) :: units.map (fun x => (unitToks x, unitExpr x))).map Prod.fst
      = (u :: units).map unitToks := by
    simp [List.map_map]
  have h2 : (units.map (fun x => (unitToks x, unitExpr x))).foldl
      (fun acc x => BExpr.andE acc x.2) (unitExpr u)
      = unitsExpr (u :: units) := by
    rw [List.foldl_map]
    rfl
  rw [h1, h2] at hand
  exact parsesOr_single _ _ hand

theorem joinToks_append (sep : STTok) (A B : List (List STTok))
    (hA : A ≠ []) (hB : B ≠ []) :
    joinToks sep (A ++ B) = joinToks sep A ++ sep :: joinToks sep B := by
  induction A with
  | nil => exact absurd rfl hA
  | cons t A' ih =>
      cases A' with
      | nil =>
          cases B with
          | nil => exact absurd rfl hB
          | cons b B' =>
              rw [List.singleton_append, joinToks_cons₂]
              rfl
      | cons t' A'' =>
          have h1 : joinToks sep ((t :: t' :: A'') ++ B)
              = t ++ sep :: joinToks sep ((t' :: A'') ++ B) := rfl
          rw [h1, ih (by simp), joinToks_cons₂]
          simp

theorem secToks_units (sec : CondSec) :
    secToks sec = joinToks STTok.andT ((unitsOfSec sec).map unitToks) := by
  cases sec with
  | atom a => rfl
  | chain l =>
      show chainToks l = _
      unfold chainToks unitsOfSec
      rw [List.map_map]
      rfl
  | par ps => rfl

theorem unitsOfSec_ne (sec : CondSec) (h : WFSec sec) :
    unitsOfSec sec ≠ [] := by
  cases sec with
  | atom a => simp [unitsOfSec]
  | chain l =>
      simp only [unitsOfSec]
      exact fun he => h.1 (List.map_eq_nil_iff.mp he)
  | par ps => simp [unitsOfSec]

theorem unitsOf_ne (secs : List CondSec) (hne : secs ≠ [])
    (h : ∀ sec ∈ secs, WFSec sec) : unitsOf secs ≠ [] := by
  cases secs with
  | nil => exact absurd rfl hne
  | cons s r =>
      unfold unitsOf
      rw [List.map_cons, List.flatten_cons]
      intro he
      exact unitsOfSec_ne s (h s (List.mem_cons_self s r))
        (List.append_eq_nil.mp he).1

theorem topToks_units (secs : List CondSec) (h : ∀ sec ∈ secs, WFSec sec) :
    topToks secs = joinToks STTok.andT ((unitsOf secs).map unitToks) := by
  induction secs with
  | nil => rfl
  | cons s r ih =>
      cases r with
      | nil =>
          show joinToks STTok.andT [secToks s] = _
          rw [show unitsOf [s] = unitsOfSec s ++ [] from rfl, List.append_nil]
          rw [show joinToks STTok.andT [secToks s] = secToks s from rfl]
          exact secToks_units s
      | cons t r' =>
          rw [show topToks (s :: t :: r')
              = secToks s ++ STTok.andT :: topToks (t :: r') from rfl]
          rw [ih (fun x hx => h x (List.mem_cons_of_mem s hx))]
          rw [show unitsOf (s :: t :: r')
              = unitsOfSec s ++ unitsOf (t :: r') from by
            unfold unitsOf
            rw [List.map_cons, List.flatten_cons]]
          rw [List.map_append]
          rw [joinToks_append STTok.andT _ _
            (by
              intro he
              exact unitsOfSec_ne s (h s (List.mem_cons_self s _))
                (List.map_eq_nil_iff.mp he))
            (by
              intro he
              exact unitsOf_ne (t :: r') (by simp)
                (fun x hx => h x (List.mem_cons_of_mem s hx))
                (List.map_eq_nil_iff.mp he))]
          rw [secToks_units s]

theorem wfUnit_of_wfSec (secs : List CondSec) (h : ∀ sec ∈ secs, WFSec sec) :
    ∀ u ∈ unitsOf secs, WFUnit u := by
  intro u hu
  rcases List.mem_flatten.mp hu with ⟨l, hl, hul⟩
  rcases List.mem_map.mp hl with ⟨sec, hsec, rfl⟩
  have hw := h sec hsec
  cases sec with
  | atom a =>
      rcases List.mem_singleton.mp hul with rfl
      trivial
  | chain l =>
      rcases List.mem_map.mp hul with ⟨a, -, rfl⟩
      trivial
  | par ps =>
      rcases List.mem_singleton.mp hul with rfl
      exact ⟨hw.1, fun p hp => (hw.2 p hp).1⟩

/-- Truth value of one operand. -/
def evalUnit (vars : VarMap) : CondUnit → Bool
  | CondUnit.atomU a => evalAtom vars a
  | CondUnit.groupU ps => ps.any (fun p => p.all (evalAtom vars))

theorem evalBExpr_atomExpr (vars : VarMap) (a : CondAtom) :
    evalBExpr vars (atomExpr a) = evalAtom vars a := by
  unfold atomExpr evalAtom
  cases hn : a.neg
  · simp only [Bool.false_eq_true, if_false]
    rfl
  · simp only [if_true]
    show (! evalBExpr vars (BExpr.var a.v)) = _
    simp [evalBExpr, decide_not]

theorem evalBExpr_andFold (vars : VarMap) (l : List CondAtom) :
    ∀ acc : BExpr,
      evalBExpr vars (l.foldl (fun a b => BExpr.andE a (atomExpr b)) acc)
        = (evalBExpr vars acc && l.all (evalAtom vars)) := by
  induction l with
  | nil => intro acc; simp
  | cons b r ih =>
      intro acc
      rw [List.foldl_cons, ih]
      rw [show evalBExpr vars (BExpr.andE acc (atomExpr b))
          = (evalBExpr vars acc && evalBExpr vars (atomExpr b)) from rfl]
      rw [evalBExpr_atomExpr]
      simp [Bool.and_assoc]

theorem evalBExpr_chainExpr (vars : VarMap) (p : List CondAtom) (h : p ≠ []) :
    evalBExpr vars (chainExpr p) = p.all (evalAtom vars) := by
  cases p with
  | nil => exact absurd rfl h
  | cons a r =>
      show evalBExpr vars (r.foldl (fun a b => BExpr.andE a (atomExpr b)) (atomExpr a)) = _
      rw [evalBExpr_andFold, evalBExpr_atomExpr]
      simp

theorem evalBExpr_orFold (vars : VarMap) (ps : List (List CondAtom))
    (h : ∀ p ∈ ps, p ≠ []) :
    ∀ acc : BExpr,
      evalBExpr vars (ps.foldl (fun a q => BExpr.orE a (chainExpr q)) acc)
        = (evalBExpr vars acc || ps.any (fun p => p.all (evalAtom vars))) := by
  induction ps with
  | nil => intro acc; simp
  | cons q r ih =>
      intro acc
      rw [List.foldl_cons, ih (fun x hx => h x (List.mem_cons_of_mem q hx))]
      rw [show evalBExpr vars (BExpr.orE acc (chainExpr q))
          = (evalBExpr vars acc || evalBExpr vars (chainExpr q)) from rfl]
      rw [evalBExpr_chainExpr vars q (h q (List.mem_cons_self q r))]
      simp [Bool.or_assoc]

theorem evalBExpr_parExpr (vars : VarMap) (ps : List (List CondAtom))
    (hne : ps ≠ []) (h : ∀ p ∈ ps, p ≠ []) :
    evalBExpr vars (parExpr ps) = ps.any (fun p => p.all (evalAtom vars)) := by
  cases ps with
  | nil => exact absurd rfl hne
  | cons p r =>
      show evalBExpr vars (r.foldl (fun a q => BExpr.orE a (chainExpr q)) (chainExpr p)) = _
      rw [evalBExpr_orFold vars r (fun x hx => h x (List.mem_cons_of_mem p hx))]
      rw [evalBExpr_chainExpr vars p (h p (List.mem_cons_self p r))]
      simp

theorem evalBExpr_unitExpr (vars : VarMap) (u : CondUnit) (h : WFUnit u) :
    evalBExpr vars (unitExpr u) = evalUnit vars u := by
  cases u with
  | atomU a => exact evalBExpr_atomExpr vars a
  | groupU ps => exact evalBExpr_parExpr vars ps h.1 h.2

theorem evalBExpr_unitsFold (vars : VarMap) (units : List CondUnit)
    (h : ∀ u ∈ units, WFUnit u) :
    ∀ acc : BExpr,
      evalBExpr vars (units.foldl (fun a u => BExpr.andE a (unitExpr u)) acc)
        = (evalBExpr vars acc && units.all (evalUnit vars)) := by
  induction units with
  | nil => intro acc; simp
  | cons u r ih =>
      intro acc
      rw [List.foldl_cons, ih (fun x hx => h x (List.mem_cons_of_mem u hx))]
      rw [show evalBExpr vars (BExpr.andE acc (unitExpr u))
          = (evalBExpr vars acc && evalBExpr vars (unitExpr u)) from rfl]
      rw [evalBExpr_unitExpr vars u (h u (List.mem_cons_self u r))]
      simp [Bool.and_assoc]

theorem evalBExpr_unitsExpr (vars : VarMap) (units : List CondUnit)
    (hne : units ≠ []) (h : ∀ u ∈ units, WFUnit u) :
    evalBExpr vars (unitsExpr units) = units.all (evalUnit vars) := by
  cases units with
  | nil => exact absurd rfl hne
  | cons u r =>
      show evalBExpr vars (r.foldl (fun a u' => BExpr.andE a (unitExpr u')) (unitExpr u)) = _
      rw [evalBExpr_unitsFold vars r (fun x hx => h x (List.mem_cons_of_mem u hx))]
      rw [evalBExpr_unitExpr vars u (h u (List.mem_cons_self u r))]
      simp

theorem all_units_evalShape (vars : VarMap) (secs : List CondSec) :
    (unitsOf secs).all (evalUnit vars) = evalShape vars secs := by
  induction secs with
  | nil => rfl
  | cons s r ih =>
      rw [show unitsOf (s :: r) = unitsOfSec s ++ unitsOf r from by
        unfold unitsOf
        rw [List.map_cons, List.flatten_cons]]
      rw [List.all_append, ih]
      show _ = (evalSec vars s && evalShape vars r)
      have hs : (unitsOfSec s).all (evalUnit vars) = evalSec vars s := by
        cases s with
        | atom a => simp [unitsOfSec, evalUnit, evalSec]
        | chain l =>
            show ((l.map CondUnit.atomU).all (evalUnit vars)) = _
            rw [all_map_gen]
            rfl
        | par ps => simp [unitsOfSec, evalUnit, evalSec]
      rw [hs]

theorem parseExpr_topToks (secs : List CondSec) (hne : secs ≠ [])
    (h : ∀ sec ∈ secs, WFSec sec) :
    parseExpr (topToks secs) = some (unitsExpr (unitsOf secs), []) := by
  rcases hu : unitsOf secs with _ | ⟨u, us⟩
  · exact absurd hu (unitsOf_ne secs hne h)
  · have hwf : ∀ x ∈ u :: us, WFUnit x := by
      rw [← hu]
      exact wfUnit_of_wfSec secs h
    have hp := parsesOr_unitToks u us hwf
    unfold parseExpr
    rw [topToks_units secs h, hu]
    have := hp (4 * (joinToks STTok.andT ((u :: us).map unitToks)).length + 4) []
      (by omega) (by simp) (by simp)
    rw [List.append_nil] at this
    rw [this]

theorem evalSTCondition_renderTop (vars : VarMap) (secs : List CondSec)
    (hne : secs ≠ []) (h : ∀ sec ∈ secs, WFSec sec) :
    evalSTCondition (renderTop secs) vars = some (evalShape vars secs) := by
  unfold evalSTCondition
  rw [topToks_spec secs hne h, parseExpr_topToks secs hne h]
  show some (evalBExpr vars (unitsExpr (unitsOf secs))) = _
  rw [evalBExpr_unitsExpr vars (unitsOf secs) (unitsOf_ne secs hne h)
    (wfUnit_of_wfSec secs h)]
  rw [all_units_evalShape]

/-! ### Well-formedness of the analyzed shape -/

theorem foldl_rows_mono (els : List LadderElement) :
    ∀ (acc : List Nat) (y : Nat), y ∈ acc →
      y ∈ els.foldl
        (fun acc el =>
          if acc.contains el.position.y then acc else acc ++ [el.position.y])
        acc := by
  induction els with
  | nil => intro acc y h; exact h
  | cons e els ih =>
      intro acc y h
      rw [List.foldl_cons]
      apply ih
      by_cases hc : acc.contains e.position.y
      · rw [if_pos hc]; exact h
      · rw [if_neg hc]; exact List.mem_append_left _ h

theorem mem_foldl_rows (els : List LadderElement) :
    ∀ (acc : List Nat) (el : LadderElement), el ∈ els →
      el.position.y ∈ els.foldl
        (fun acc el =>
          if acc.contains el.position.y then acc else acc ++ [el.position.y])
        acc := by
  induction els with
  | nil => intro acc el h; exact absurd h (List.not_mem_nil el)
  | cons e els ih =>
      intro acc el h
      rw [List.foldl_cons]
      rcases List.mem_cons.mp h with rfl | h
      · apply foldl_rows_mono
        by_cases hc : acc.contains el.position.y
        · rw [if_pos hc]
          exact List.elem_iff.mp hc
        · rw [if_neg hc]
          exact List.mem_append_right _ (List.mem_singleton.mpr rfl)
      · exact ih _ el h

theorem foldl_rows_sub (els : List LadderElement) :
    ∀ (acc : List Nat) (y : Nat),
      y ∈ els.foldl
        (fun acc el =>
          if acc.contains el.position.y then acc else acc ++ [el.position.y])
        acc →
      y ∈ acc ∨ ∃ el ∈ els, el.position.y = y := by
  induction els with
  | nil => intro acc y h; exact Or.inl h
  | cons e els ih =>
      intro acc y h
      rw [List.foldl_cons] at h
      rcases ih _ y h with h1 | h1
      · by_cases hc : acc.contains e.position.y
        · rw [if_pos hc] at h1
          exact Or.inl h1
        · rw [if_neg hc] at h1
          rcases List.mem_append.mp h1 with h2 | h2
          · exact Or.inl h2
          · exact Or.inr ⟨e, List.mem_cons_self e els,
              (List.mem_singleton.mp h2).symm⟩
      · rcases h1 with ⟨el, hel, hy⟩
        exact Or.inr ⟨el, List.mem_cons_of_mem e hel, hy⟩

theorem rowsOf_mem_exists {els : List LadderElement} {y : Nat}
    (h : y ∈ rowsOf els) : ∃ el ∈ els, el.position.y = y := by
  unfold rowsOf at h
  rcases foldl_rows_sub els [] y (mem_sortByKey.mp h) with h1 | h1
  · exact absurd h1 (List.not_mem_nil y)
  · exact h1

theorem mem_rowsOf {els : List LadderElement} {el : LadderElement}
    (h : el ∈ els) : el.position.y ∈ rowsOf els := by
  unfold rowsOf
  exact mem_sortByKey.mpr (mem_foldl_rows els [] el h)

theorem pathsOfSection_ne {els : List LadderElement} (h : els ≠ []) :
    pathsOfSection els ≠ [] := by
  cases els with
  | nil => exact absurd rfl h
  | cons e els' =>
      unfold pathsOfSection
      intro he
      have := mem_rowsOf (List.mem_cons_self e els')
      rw [List.map_eq_nil_iff.mp he] at this
      exact List.not_mem_nil _ this

theorem mem_pathsOfSection_ne {els : List LadderElement}
    {p : List LadderElement} (hp : p ∈ pathsOfSection els) : p ≠ [] := by
  unfold pathsOfSection at hp
  rcases List.mem_map.mp hp with ⟨y, hy, rfl⟩
  rcases rowsOf_mem_exists hy with ⟨el, hel, hely⟩
  intro he
  have : el ∈ sortByX (els.filter fun el => el.position.y = y) :=
    mem_sortByKey.mpr (List.mem_filter.mpr ⟨hel, by simp [hely]⟩)
  rw [he] at this
  exact List.not_mem_nil _ this

theorem mem_inputElementsOf {rung : LadderRung} {el : LadderElement}
    (h : el ∈ inputElementsOf rung) :
    el ∈ rung.elements ∧ isInputElement el.type = true := by
  have := List.mem_filter.mp (mem_sortByKey.mp h)
  exact ⟨this.1, this.2⟩

theorem shapeOf_wf (rung : LadderRung)
    (hne : inputElementsOf rung ≠ [])
    (hclean : ∀ el ∈ rung.elements,
      isInputElement el.type = true → cleanName el.varName) :
    ∀ sec ∈ shapeOf rung, WFSec sec := by
  have hcin : ∀ el ∈ inputElementsOf rung, cleanName (atomOf el).v := by
    intro el hel
    have := mem_inputElementsOf hel
    exact hclean el this.1 this.2
  intro sec hsec
  unfold shapeOf at hsec
  by_cases hj : 2 ≤ (junctionsOf rung).length
  · rw [if_pos hj] at hsec
    by_cases hsj : (sortByX (junctionsOf rung)).length < 2
    · rw [if_pos hsj] at hsec
      rcases List.mem_singleton.mp hsec with rfl
      exact ⟨fun he => hne (List.map_eq_nil_iff.mp he),
        fun a ha => by
          rcases List.mem_map.mp ha with ⟨el, hel, rfl⟩
          exact hcin el hel⟩
    · rw [if_neg hsj] at hsec
      rcases List.mem_append.mp hsec with h1 | h1
      · rcases List.mem_append.mp h1 with h2 | h2
        · rcases List.mem_map.mp h2 with ⟨el, hel, rfl⟩
          exact hcin el (List.mem_filter.mp hel).1
        · rcases List.mem_filterMap.mp h2 with ⟨pair, hpair, hsp⟩
          unfold secOfPair at hsp
          by_cases h0 : (sectionEls (inputElementsOf rung) pair).length = 0
          · rw [if_pos h0] at hsp
            exact absurd hsp (by simp)
          · rw [if_neg h0] at hsp
            have hels : sectionEls (inputElementsOf rung) pair ≠ [] := by
              intro he
              exact h0 (by rw [he]; rfl)
            by_cases h1l :
                (pathsOfSection (sectionEls (inputElementsOf rung) pair)).length = 1
            · rw [if_pos h1l] at hsp
              rcases Option.some.inj hsp with rfl
              have hpne : (pathsOfSection
                  (sectionEls (inputElementsOf rung) pair)) ≠ [] :=
                pathsOfSection_ne hels
              have hhead := headI_mem hpne
              refine ⟨?_, ?_⟩
              · intro he
                exact mem_pathsOfSection_ne hhead (List.map_eq_nil_iff.mp he)
              · intro a ha
                rcases List.mem_map.mp ha with ⟨el, hel, rfl⟩
                exact hcin el
                  (mem_sectionEls (mem_pathsOfSection hhead hel))
            · rw [if_neg h1l] at hsp
              rcases Option.some.inj hsp with rfl
              refine ⟨?_, ?_⟩
              · intro he
                exact pathsOfSection_ne hels (List.map_eq_nil_iff.mp he)
              · intro p hp
                rcases List.mem_map.mp hp with ⟨q, hq, rfl⟩
                refine ⟨?_, ?_⟩
                · intro he
                  exact mem_pathsOfSection_ne hq (List.map_eq_nil_iff.mp he)
                · intro a ha
                  rcases List.mem_map.mp ha with ⟨el, hel, rfl⟩
                  exact hcin el (mem_sectionEls (mem_pathsOfSection hq hel))
      · rcases List.mem_map.mp h1 with ⟨el, hel, rfl⟩
        exact hcin el (List.mem_filter.mp hel).1
  · rw [if_neg hj] at hsec
    rcases List.mem_singleton.mp hsec with rfl
    exact ⟨fun he => hne (List.map_eq_nil_iff.mp he),
      fun a ha => by
        rcases List.mem_map.mp ha with ⟨el, hel, rfl⟩
        exact hcin el hel⟩

/-! ### Claim C1 -/

/-- A rung whose only contact sits exactly on the first junction's column:
the span filters use strict inequalities on both sides, so the contact
belongs to no section. -/
def rungC1cx : LadderRung :=
  ⟨"rung-c1-cx",
    [⟨"j1", LadderElementType.WIRE_JUNCTION, "WIRE", ⟨2, 0⟩⟩,
     ⟨"j2", LadderElementType.WIRE_JUNCTION, "WIRE", ⟨5, 0⟩⟩,
     ⟨"a", LadderElementType.NO_CONTACT, "A", ⟨2, 1⟩⟩,
     ⟨"y", LadderElementType.OUTPUT_COIL, "Y", ⟨6, 0⟩⟩], 2⟩

/-- C1, counterexample: synthesis and simulation are NOT in agreement for
every rung.  For a rung with junctions at columns 2 and 5 whose only contact
`A` sits exactly on column 2, every section of the partition is empty: the
simulator's `executeParallelCircuit` then takes `every` over an empty
section list and drives the rung `true`, while `analyzeRungLogic` emits the
empty condition string, which does not evaluate to any boolean.  So the
truth value obtained by evaluating the synthesized ST condition (none)
differs from the simulator's result (`true`). -/
theorem synthesis_simulation_agreement_refuted :
    rungFinalResult [("A", true)] rungC1cx = true ∧
    analyzeRungLogic rungC1cx = "" ∧
    evalSTCondition (analyzeRungLogic rungC1cx) [("A", true)]
      ≠ some (rungFinalResult [("A", true)] rungC1cx) := by
  refine ⟨by decide, by decide, by decide⟩

/-- C1 (amended): synthesis/simulation agreement holds for every rung whose
contact variable names are clean identifiers (nonempty, free of spaces and
parentheses, and not the keywords `AND`/`OR`/`NOT`) and whose synthesized
condition is nonempty: for every variable assignment, tokenizing, parsing
and evaluating the condition string produced by `analyzeRungLogic` yields
exactly the boolean the simulator computes for the rung via
`executeRung`/`executeParallelCircuit`. -/
theorem synthesis_simulation_agree (rung : LadderRung) (vars : VarMap)
    (hclean : ∀ el ∈ rung.elements,
      isInputElement el.type = true → cleanName el.varName)
    (hexpr : analyzeRungLogic rung ≠ "") :
    evalSTCondition (analyzeRungLogic rung) vars
      = some (rungFinalResult vars rung) := by
  have hbr := analyzeRungLogic_render rung
  by_cases h0 : (inputElementsOf rung).length = 0
  · rw [hbr, if_pos h0] at hexpr
    exact absurd rfl hexpr
  · have hne : inputElementsOf rung ≠ [] := fun he => h0 (by rw [he]; rfl)
    rw [if_neg h0] at hbr
    have hsne : shapeOf rung ≠ [] := by
      intro he
      rw [hbr, he] at hexpr
      exact hexpr rfl
    rw [hbr, evalSTCondition_renderTop vars (shapeOf rung) hsne
      (shapeOf_wf rung hne hclean), rungFinalResult_eval]

/-- A mixed rung for the agreement witness: a parallel span `(A OR NOT B)`
between junction columns 2 and 5. -/
def rungC1w : LadderRung :=
  ⟨"rung-c1-w",
    [⟨"w-j1", LadderElementType.WIRE_JUNCTION, "WIRE", ⟨2, 0⟩⟩,
     ⟨"w-j2", LadderElementType.WIRE_JUNCTION, "WIRE", ⟨5, 0⟩⟩,
     ⟨"w-a", LadderElementType.NO_CONTACT, "A", ⟨3, 0⟩⟩,
     ⟨"w-b", LadderElementType.NC_CONTACT, "B", ⟨3, 1⟩⟩,
     ⟨"w-y", LadderElementType.OUTPUT_COIL, "Y", ⟨6, 0⟩⟩], 2⟩

set_option maxRecDepth 8000 in
theorem synthesis_simulation_agree_witness :
    (∀ el ∈ rungC1w.elements,
      isInputElement el.type = true → cleanName el.varName) ∧
    analyzeRungLogic rungC1w ≠ "" ∧
    evalSTCondition (analyzeRungLogic rungC1w) [("A", false), ("B", false)]
      = some (rungFinalResult [("A", false), ("B", false)] rungC1w) :=
  ⟨by decide, by decide,
    synthesis_simulation_agree rungC1w [("A", false), ("B", false)]
      (by decide) (by decide)⟩

/-! ### Claim C9: the optimizer on clean synthesized expressions

`optimizeLogicExpression` is not idempotent on arbitrary strings (the
doubled-`NOT` collapse can manufacture a fresh `NOT NOT ` occurrence), but on
the expressions synthesized from rungs with clean variable names none of the
three replacement passes ever finds a match after the initial outer-paren
strip, which is itself idempotent.  The development below establishes the
no-match invariants suffix-wise. -/

/-- No suffix of `l` begins a `NOT\s+NOT\s+` match. -/
def nnAll (l : List Char) : Prop := ∀ t, t <:+ l → tryNotNot t = none

/-- No suffix of `l` begins a `\(\(([^()]+)\)\)` match. -/
def dpAll (l : List Char) : Prop := ∀ t, t <:+ l → tryDoubleParen t = none

theorem nnAll_tail {c : Char} {l : List Char} (h : nnAll (c :: l)) : nnAll l :=
  fun t ht => h t (ht.trans (List.suffix_cons c l))

theorem dpAll_tail {c : Char} {l : List Char} (h : dpAll (c :: l)) : dpAll l :=
  fun t ht => h t (ht.trans (List.suffix_cons c l))

theorem replaceNotNotF_id (fuel : Nat) :
    ∀ l, nnAll l → replaceNotNotF fuel l = l := by
  induction fuel with
  | zero => intro l h; rfl
  | succ f ih =>
      intro l h
      have h0 := h l (List.suffix_refl l)
      cases l with
      | nil => rfl
      | cons c cs =>
          show replaceNotNotF (f + 1) (c :: cs) = c :: cs
          rw [show replaceNotNotF (f + 1) (c :: cs)
              = (match tryNotNot (c :: cs) with
                 | some rest => replaceNotNotF f rest
                 | none => c :: replaceNotNotF f cs) from rfl]
          rw [h0]
          show c :: replaceNotNotF f cs = c :: cs
          rw [ih cs (nnAll_tail h)]

theorem replaceNotNot_id {l : List Char} (h : nnAll l) :
    replaceNotNot l = l :=
  replaceNotNotF_id l.length l h

theorem replaceDoubleParensF_id (fuel : Nat) :
    ∀ l, dpAll l → replaceDoubleParensF fuel l = l := by
  induction fuel with
  | zero => intro l h; rfl
  | succ f ih =>
      intro l h
      have h0 := h l (List.suffix_refl l)
      cases l with
      | nil => rfl
      | cons c cs =>
          show replaceDoubleParensF (f + 1) (c :: cs) = c :: cs
          rw [show replaceDoubleParensF (f + 1) (c :: cs)
              = (match tryDoubleParen (c :: cs) with
                 | some (body, rest) =>
                     '(' :: body ++ ')' :: replaceDoubleParensF f rest
                 | none => c :: replaceDoubleParensF f cs) from rfl]
          rw [h0]
          show c :: replaceDoubleParensF f cs = c :: cs
          rw [ih cs (dpAll_tail h)]

theorem replaceDoubleParens_id {l : List Char} (h : dpAll l) :
    replaceDoubleParens l = l :=
  replaceDoubleParensF_id l.length l h

/-- Either the outer-paren strip does nothing, or the string is a single
parenthesis pair around a nonempty parenthesis-free body and the strip
returns that body. -/
theorem strip_cases (l : List Char) :
    stripOuterParens l = l ∨
      ∃ body, l = '(' :: body ++ [')'] ∧ body ≠ [] ∧
        (∀ c ∈ body, notParen c = true) ∧ stripOuterParens l = body := by
  cases l with
  | nil => exact Or.inl rfl
  | cons c rest =>
      have hred : stripOuterParens (c :: rest)
          = if c = '(' ∧ rest.dropWhile notParen = [')']
                ∧ rest.takeWhile notParen ≠ []
            then rest.takeWhile notParen else c :: rest := rfl
      rw [hred]
      by_cases hcond : c = '(' ∧ rest.dropWhile notParen = [')']
          ∧ rest.takeWhile notParen ≠ []
      · rw [if_pos hcond]
        refine Or.inr ⟨rest.takeWhile notParen, ?_, hcond.2.2, ?_, rfl⟩
        · rw [hcond.1]
          have hsplit : rest.takeWhile notParen ++ rest.dropWhile notParen = rest :=
            List.takeWhile_append_dropWhile notParen rest
          rw [hcond.2.1] at hsplit
          conv_lhs => rw [← hsplit]
          simp
        · intro x hx
          exact List.mem_takeWhile_imp hx
      · rw [if_neg hcond]
        exact Or.inl rfl

/-- The outer-paren strip is idempotent on every string. -/
theorem strip_strip (l : List Char) :
    stripOuterParens (stripOuterParens l) = stripOuterParens l := by
  rcases strip_cases l with h | ⟨body, hl, hne, hpf, hs⟩
  · rw [h, h]
  · rw [hs]
    cases body with
    | nil => exact absurd rfl hne
    | cons b body' =>
        have hb : notParen b = true := hpf b (List.mem_cons_self b body')
        have hbne : ¬ b = '(' := by
          intro he
          rw [he] at hb
          simp [notParen] at hb
        have hred : stripOuterParens (b :: body')
            = if b = '(' ∧ body'.dropWhile notParen = [')']
                  ∧ body'.takeWhile notParen ≠ []
              then body'.takeWhile notParen else b :: body' := rfl
        rw [hred, if_neg (fun hcond => hbne hcond.1)]

theorem suffix_append_cases {α : Type _} {t a b : List α} (h : t <:+ a ++ b) :
    t <:+ b ∨ ∃ a', a' <:+ a ∧ t = a' ++ b := by
  induction a with
  | nil => exact Or.inl (by simpa using h)
  | cons c a' ih =>
      rcases List.suffix_cons_iff.mp (by simpa using h) with he | h2
      · exact Or.inr ⟨c :: a', List.suffix_refl _, by simpa using he⟩
      · rcases ih h2 with h3 | ⟨a'', ha, rfl⟩
        · exact Or.inl h3
        · exact Or.inr ⟨a'', ha.trans (List.suffix_cons c a'), rfl⟩

theorem tryNotNot_none_c0 {c : Char} (hc : ¬ c = 'N') (t : List Char) :
    tryNotNot (c :: t) = none := by
  cases t with
  | nil => rfl
  | cons c1 t1 =>
      cases t1 with
      | nil => rfl
      | cons c2 t2 =>
          simp only [tryNotNot]
          rw [if_neg (fun hh => hc hh.1)]

theorem tryNotNot_none_c1 {c1 : Char} (hc : ¬ c1 = 'O') (c0 : Char)
    (t : List Char) : tryNotNot (c0 :: c1 :: t) = none := by
  cases t with
  | nil => rfl
  | cons c2 t2 =>
      simp only [tryNotNot]
      rw [if_neg (fun hh => hc hh.2.1)]

theorem tryNotNot_none_c2 {c2 : Char} (hc : ¬ c2 = 'T') (c0 c1 : Char)
    (t : List Char) : tryNotNot (c0 :: c1 :: c2 :: t) = none := by
  simp only [tryNotNot]
  rw [if_neg (fun hh => hc hh.2.2.1)]

theorem tryNotNot_none_nows (t : List Char)
    (h : t.takeWhile isWsChar = []) (c0 c1 c2 : Char) :
    tryNotNot (c0 :: c1 :: c2 :: t) = none := by
  simp only [tryNotNot]
  rw [if_neg (fun hh => hh.2.2.2 h)]

/-- The continuations that can follow a variable or operand in a rendered
condition: end of string, a closing parenthesis, or one of the two keyword
separators. -/
def ContOk (cont : List Char) : Prop :=
  cont = [] ∨ (∃ X, cont = ')' :: X) ∨
    (∃ X, cont = ' ' :: 'A' :: 'N' :: 'D' :: ' ' :: X) ∨
    (∃ X, cont = ' ' :: 'O' :: 'R' :: ' ' :: X)


theorem tryNotNot_none_drop (rest : List Char) (c0 c1 c2 : Char)
    (hsecond : ∀ d0 d1 d2 rest2, rest.dropWhile isWsChar = d0 :: d1 :: d2 :: rest2 →
      ¬ (d0 = 'N' ∧ d1 = 'O' ∧ d2 = 'T' ∧ rest2.takeWhile isWsChar ≠ [])) :
    tryNotNot (c0 :: c1 :: c2 :: rest) = none := by
  simp only [tryNotNot]
  by_cases hcond : c0 = 'N' ∧ c1 = 'O' ∧ c2 = 'T' ∧ rest.takeWhile isWsChar ≠ []
  · rw [if_pos hcond]
    cases hd : rest.dropWhile isWsChar with
    | nil => rfl
    | cons d0 t0 =>
        cases t0 with
        | nil => rfl
        | cons d1 t1 =>
            cases t1 with
            | nil => rfl
            | cons d2 rest2 =>
                show (if d0 = 'N' ∧ d1 = 'O' ∧ d2 = 'T' ∧
                      rest2.takeWhile isWsChar ≠ []
                    then some (rest2.dropWhile isWsChar) else none) = none
                rw [if_neg (hsecond d0 d1 d2 rest2 hd)]
  · rw [if_neg hcond]

theorem tryNotNot_none_word (v : List Char) (hne : v ≠ [])
    (hws : ∀ c ∈ v, isWsChar c = false) (cont : List Char)
    (hc : ContOk cont) : tryNotNot (v ++ cont) = none := by
  match v, hne with
  | [c0], _ =>
      rcases hc with rfl | ⟨X, rfl⟩ | ⟨X, rfl⟩ | ⟨X, rfl⟩
      · rfl
      · exact tryNotNot_none_c1 (by decide) c0 X
      · exact tryNotNot_none_c1 (by decide) c0 _
      · exact tryNotNot_none_c1 (by decide) c0 _
  | [c0, c1], _ =>
      rcases hc with rfl | ⟨X, rfl⟩ | ⟨X, rfl⟩ | ⟨X, rfl⟩
      · rfl
      · exact tryNotNot_none_c2 (by decide) c0 c1 X
      · exact tryNotNot_none_c2 (by decide) c0 c1 _
      · exact tryNotNot_none_c2 (by decide) c0 c1 _
  | c0 :: c1 :: c2 :: v'', _ =>
      show tryNotNot (c0 :: c1 :: c2 :: (v'' ++ cont)) = none
      cases v'' with
      | cons d v3 =>
          apply tryNotNot_none_nows _
          rw [List.cons_append, List.takeWhile_cons_of_neg]
          simp [hws d (by simp)]
      | nil =>
          rw [List.nil_append]
          rcases hc with rfl | ⟨X, rfl⟩ | ⟨X, rfl⟩ | ⟨X, rfl⟩
          · exact tryNotNot_none_nows [] rfl c0 c1 c2
          · exact tryNotNot_none_nows _
              (List.takeWhile_cons_of_neg (by decide)) c0 c1 c2
          · apply tryNotNot_none_drop
            intro d0 d1 d2 rest2 hdrop
            rw [List.dropWhile_cons_of_pos (by decide),
              List.dropWhile_cons_of_neg (by decide)] at hdrop
            rcases List.cons.inj hdrop with ⟨rfl, -⟩
            exact fun hh => absurd hh.1 (by decide)
          · apply tryNotNot_none_drop
            intro d0 d1 d2 rest2 hdrop
            rw [List.dropWhile_cons_of_pos (by decide),
              List.dropWhile_cons_of_neg (by decide)] at hdrop
            rcases List.cons.inj hdrop with ⟨rfl, -⟩
            exact fun hh => absurd hh.1 (by decide)

theorem tryNotNot_none_marker (v : List Char) (hne : v ≠ [])
    (hws : ∀ c ∈ v, isWsChar c = false) (hnot : v ≠ ['N', 'O', 'T'])
    (cont : List Char) (hc : ContOk cont) :
    tryNotNot ('N' :: 'O' :: 'T' :: ' ' :: (v ++ cont)) = none := by
  apply tryNotNot_none_drop
  intro d0 d1 d2 rest2 hdrop
  have hdr : (' ' :: (v ++ cont)).dropWhile isWsChar = v ++ cont := by
    rw [List.dropWhile_cons_of_pos (by decide)]
    match v, hne with
    | e :: v', _ =>
        rw [List.cons_append, List.dropWhile_cons_of_neg]
        simp [hws e (by simp)]
  rw [hdr] at hdrop
  match v, hne, hnot with
  | [a], _, _ =>
      rcases hc with rfl | ⟨X, rfl⟩ | ⟨X, rfl⟩ | ⟨X, rfl⟩
      · simp at hdrop
      · obtain ⟨rfl, rfl, -⟩ :=
          (by simpa using hdrop : a = d0 ∧ ')' = d1 ∧ X = d2 :: rest2)
        exact fun hh => absurd hh.2.1 (by decide)
      · obtain ⟨rfl, rfl, -⟩ :=
          (by simpa using hdrop :
            a = d0 ∧ ' ' = d1 ∧ 'A' = d2 ∧ 'N' :: 'D' :: ' ' :: X = rest2)
        exact fun hh => absurd hh.2.1 (by decide)
      · obtain ⟨rfl, rfl, -⟩ :=
          (by simpa using hdrop :
            a = d0 ∧ ' ' = d1 ∧ 'O' = d2 ∧ 'R' :: ' ' :: X = rest2)
        exact fun hh => absurd hh.2.1 (by decide)
  | [a, b], _, _ =>
      rcases hc with rfl | ⟨X, rfl⟩ | ⟨X, rfl⟩ | ⟨X, rfl⟩
      · simp at hdrop
      · obtain ⟨rfl, rfl, rfl, -⟩ :=
          (by simpa using hdrop : a = d0 ∧ b = d1 ∧ ')' = d2 ∧ X = rest2)
        exact fun hh => absurd hh.2.2.1 (by decide)
      · obtain ⟨rfl, rfl, rfl, -⟩ :=
          (by simpa using hdrop :
            a = d0 ∧ b = d1 ∧ ' ' = d2 ∧ 'A' :: 'N' :: 'D' :: ' ' :: X = rest2)
        exact fun hh => absurd hh.2.2.1 (by decide)
      · obtain ⟨rfl, rfl, rfl, -⟩ :=
          (by simpa using hdrop :
            a = d0 ∧ b = d1 ∧ ' ' = d2 ∧ 'O' :: 'R' :: ' ' :: X = rest2)
        exact fun hh => absurd hh.2.2.1 (by decide)
  | a :: b :: c :: v3, _, hnot =>
      obtain ⟨rfl, rfl, rfl, h4⟩ :=
        (by simpa using hdrop : a = d0 ∧ b = d1 ∧ c = d2 ∧ v3 ++ cont = rest2)
      intro hh
      rcases hh with ⟨rfl, rfl, rfl, hws2⟩
      cases v3 with
      | nil => exact hnot rfl
      | cons e v4 =>
          apply hws2
          rw [← h4, List.cons_append, List.takeWhile_cons_of_neg]
          simp [hws e (by simp)]

/-- Clean names for the optimizer: clean identifiers that are additionally
free of every whitespace character the regexes' `\s` accepts. -/
def cleanName9 (v : String) : Prop :=
  cleanName v ∧ ∀ c ∈ v.data, isWsChar c = false

instance (v : String) : Decidable (cleanName9 v) := by
  unfold cleanName9; infer_instance

theorem cleanName9_ne_nil {v : String} (h : cleanName9 v) : v.data ≠ [] :=
  h.1.1

theorem cleanName9_ne_NOT {v : String} (h : cleanName9 v) :
    v.data ≠ ['N', 'O', 'T'] := by
  intro he
  apply h.1.2.2.2.2
  cases v with
  | mk l =>
      have he' : l = ['N', 'O', 'T'] := he
      subst he'
      rfl

theorem cleanName9_noParen {v : String} (h : cleanName9 v) :
    ∀ c ∈ v.data, notParen c = true := by
  intro c hc
  have := h.1.2.1 c hc
  simp only [isTokDelim, decide_eq_false_iff_not] at this
  push_neg at this
  simp only [notParen, decide_eq_true_eq]
  push_neg
  exact ⟨this.2.1, this.2.2⟩

theorem nnAll_nil : nnAll [] := by
  intro t ht
  rw [List.suffix_nil.mp ht]
  rfl

theorem nnAll_cons {c : Char} {t : List Char}
    (h1 : tryNotNot (c :: t) = none) (h2 : nnAll t) : nnAll (c :: t) := by
  intro u hu
  rcases List.suffix_cons_iff.mp hu with rfl | hu2
  · exact h1
  · exact h2 u hu2

theorem nnAll_cons_ne {c : Char} (hc : ¬ c = 'N') {t : List Char}
    (h : nnAll t) : nnAll (c :: t) :=
  nnAll_cons (tryNotNot_none_c0 hc t) h

theorem nnAll_word (v : List Char) (hws : ∀ c ∈ v, isWsChar c = false)
    (cont : List Char) (hcont : nnAll cont) (hc : ContOk cont) :
    nnAll (v ++ cont) := by
  induction v with
  | nil => simpa using hcont
  | cons c v' ih =>
      rw [List.cons_append]
      refine nnAll_cons ?_ (ih (fun x hx => hws x (List.mem_cons_of_mem c hx)))
      rw [← List.cons_append]
      exact tryNotNot_none_word (c :: v') (by simp) hws cont hc

theorem nnAll_atom (a : CondAtom) (h : cleanName9 a.v) (cont : List Char)
    (hcont : nnAll cont) (hc : ContOk cont) :
    nnAll ((renderAtom a).data ++ cont) := by
  unfold renderAtom
  cases hn : a.neg
  · simp only [Bool.false_eq_true, if_false]
    exact nnAll_word a.v.data h.2 cont hcont hc
  · simp only [if_true]
    rw [String.data_append,
      show ("NOT " : String).data = ['N', 'O', 'T', ' '] from rfl]
    rw [show (['N', 'O', 'T', ' '] ++ a.v.data) ++ cont
        = 'N' :: 'O' :: 'T' :: ' ' :: (a.v.data ++ cont) by simp]
    refine nnAll_cons ?_ ?_
    · exact tryNotNot_none_marker a.v.data (cleanName9_ne_nil h) h.2
        (cleanName9_ne_NOT h) cont hc
    · refine nnAll_cons_ne (by decide) ?_
      refine nnAll_cons_ne (by decide) ?_
      refine nnAll_cons_ne (by decide) ?_
      exact nnAll_word a.v.data h.2 cont hcont hc

theorem nnAll_sepAnd {t : List Char} (h : nnAll t) :
    nnAll (' ' :: 'A' :: 'N' :: 'D' :: ' ' :: t) := by
  refine nnAll_cons_ne (by decide) ?_
  refine nnAll_cons_ne (by decide) ?_
  refine nnAll_cons (tryNotNot_none_c1 (by decide) 'N' _) ?_
  refine nnAll_cons_ne (by decide) ?_
  exact nnAll_cons_ne (by decide) h

theorem nnAll_sepOr {t : List Char} (h : nnAll t) :
    nnAll (' ' :: 'O' :: 'R' :: ' ' :: t) := by
  refine nnAll_cons_ne (by decide) ?_
  refine nnAll_cons_ne (by decide) ?_
  refine nnAll_cons_ne (by decide) ?_
  exact nnAll_cons_ne (by decide) h

theorem nnAll_chain (l : List CondAtom) (hne : l ≠ [])
    (h9 : ∀ a ∈ l, cleanName9 a.v) (cont : List Char)
    (hcont : nnAll cont) (hc : ContOk cont) :
    nnAll ((renderChain l).data ++ cont) := by
  induction l with
  | nil => exact absurd rfl hne
  | cons a r ih =>
      cases r with
      | nil =>
          show nnAll ((renderAtom a).data ++ cont)
          exact nnAll_atom a (h9 a (List.mem_cons_self a [])) cont hcont hc
      | cons b r' =>
          have hj : renderChain (a :: b :: r') =
              renderAtom a ++ " AND " ++ renderChain (b :: r') := by
            unfold renderChain
            rw [List.map_cons]
            exact joinSep_cons " AND " (renderAtom a) _ (by simp)
          rw [hj, String.data_append, String.data_append]
          rw [show ((renderAtom a).data ++ (" AND ").data
              ++ (renderChain (b :: r')).data) ++ cont
              = (renderAtom a).data ++ (' ' :: 'A' :: 'N' :: 'D' :: ' '
                :: ((renderChain (b :: r')).data ++ cont)) by simp]
          refine nnAll_atom a (h9 a (List.mem_cons_self a _)) _ ?_ ?_
          · exact nnAll_sepAnd
              (ih (by simp) (fun x hx => h9 x (List.mem_cons_of_mem a hx)))
          · exact Or.inr (Or.inr (Or.inl ⟨_, rfl⟩))

theorem nnAll_path (p : List CondAtom) (hne : p ≠ [])
    (h9 : ∀ a ∈ p, cleanName9 a.v) (cont : List Char)
    (hcont : nnAll cont) (hc : ContOk cont) :
    nnAll ((renderPath p).data ++ cont) := by
  unfold renderPath
  by_cases hl : 1 < p.length
  · rw [if_pos hl, String.data_append, String.data_append]
    rw [show ((("(" : String)).data ++ (renderChain p).data
        ++ ((")" : String)).data) ++ cont
        = '(' :: ((renderChain p).data ++ (')' :: cont)) by simp]
    refine nnAll_cons_ne (by decide) ?_
    refine nnAll_chain p hne h9 _ ?_ ?_
    · exact nnAll_cons_ne (by decide) hcont
    · exact Or.inr (Or.inl ⟨cont, rfl⟩)
  · rw [if_neg hl]
    exact nnAll_chain p hne h9 cont hcont hc

theorem nnAll_orjoin (ps : List (List CondAtom)) (hne : ps ≠ [])
    (hps : ∀ p ∈ ps, p ≠ []) (h9 : ∀ p ∈ ps, ∀ a ∈ p, cleanName9 a.v)
    (cont : List Char) (hcont : nnAll cont) (hc : ContOk cont) :
    nnAll ((joinSep " OR " (ps.map renderPath)).data ++ cont) := by
  induction ps with
  | nil => exact absurd rfl hne
  | cons p r ih =>
      cases r with
      | nil =>
          show nnAll ((renderPath p).data ++ cont)
          exact nnAll_path p (hps p (List.mem_cons_self p []))
            (h9 p (List.mem_cons_self p [])) cont hcont hc
      | cons q r' =>
          rw [List.map_cons, joinSep_cons " OR " (renderPath p) _ (by simp),
            String.data_append, String.data_append]
          rw [show ((renderPath p).data ++ (" OR ").data
              ++ (joinSep " OR " ((q :: r').map renderPath)).data) ++ cont
              = (renderPath p).data ++ (' ' :: 'O' :: 'R' :: ' '
                :: ((joinSep " OR " ((q :: r').map renderPath)).data ++ cont))
              by simp]
          refine nnAll_path p (hps p (List.mem_cons_self p _))
            (h9 p (List.mem_cons_self p _)) _ ?_ ?_
          · exact nnAll_sepOr
              (ih (by simp) (fun x hx => hps x (List.mem_cons_of_mem p hx))
                (fun x hx => h9 x (List.mem_cons_of_mem p hx)))
          · exact Or.inr (Or.inr (Or.inr ⟨_, rfl⟩))

theorem nnAll_par (ps : List (List CondAtom)) (hne : ps ≠ [])
    (hps : ∀ p ∈ ps, p ≠ []) (h9 : ∀ p ∈ ps, ∀ a ∈ p, cleanName9 a.v)
    (cont : List Char) (hcont : nnAll cont) (hc : ContOk cont) :
    nnAll ((renderPar ps).data ++ cont) := by
  unfold renderPar
  rw [String.data_append, String.data_append]
  rw [show ((("(" : String)).data
      ++ (joinSep " OR " (ps.map renderPath)).data
      ++ ((")" : String)).data) ++ cont
      = '(' :: ((joinSep " OR " (ps.map renderPath)).data ++ (')' :: cont))
      by simp]
  refine nnAll_cons_ne (by decide) ?_
  refine nnAll_orjoin ps hne hps h9 _ ?_ ?_
  · exact nnAll_cons_ne (by decide) hcont
  · exact Or.inr (Or.inl ⟨cont, rfl⟩)

/-- Structural cleanliness of a section for the optimizer invariants. -/
def WFSec9 : CondSec → Prop
  | CondSec.atom a => cleanName9 a.v
  | CondSec.chain l => l ≠ [] ∧ ∀ a ∈ l, cleanName9 a.v
  | CondSec.par ps =>
      2 ≤ ps.length ∧ ∀ p ∈ ps, p ≠ [] ∧ ∀ a ∈ p, cleanName9 a.v

theorem nnAll_sec (sec : CondSec) (h : WFSec9 sec) (cont : List Char)
    (hcont : nnAll cont) (hc : ContOk cont) :
    nnAll ((renderSec sec).data ++ cont) := by
  cases sec with
  | atom a => exact nnAll_atom a h cont hcont hc
  | chain l => exact nnAll_chain l h.1 h.2 cont hcont hc
  | par ps =>
      exact nnAll_par ps
        (by intro he; rw [he] at h; exact absurd h.1 (by decide))
        (fun p hp => (h.2 p hp).1) (fun p hp => (h.2 p hp).2) cont hcont hc

theorem nnAll_top (secs : List CondSec) (h : ∀ sec ∈ secs, WFSec9 sec)
    (cont : List Char) (hcont : nnAll cont) (hc : ContOk cont) :
    nnAll ((renderTop secs).data ++ cont) := by
  induction secs with
  | nil => simpa using hcont
  | cons s r ih =>
      cases r with
      | nil =>
          show nnAll ((renderSec s).data ++ cont)
          exact nnAll_sec s (h s (List.mem_cons_self s [])) cont hcont hc
      | cons t r' =>
          show nnAll ((joinSep " AND "
            (renderSec s :: (t :: r').map renderSec)).data ++ cont)
          rw [joinSep_cons " AND " (renderSec s) _ (by simp),
            String.data_append, String.data_append]
          rw [show ((renderSec s).data ++ (" AND ").data
              ++ (joinSep " AND " ((t :: r').map renderSec)).data) ++ cont
              = (renderSec s).data ++ (' ' :: 'A' :: 'N' :: 'D' :: ' '
                :: ((joinSep " AND " ((t :: r').map renderSec)).data ++ cont))
              by simp]
          refine nnAll_sec s (h s (List.mem_cons_self s _)) _ ?_ ?_
          · have ih' := ih (fun x hx => h x (List.mem_cons_of_mem s hx))
            exact nnAll_sepAnd ih'
          · exact Or.inr (Or.inr (Or.inl ⟨_, rfl⟩))

theorem nnAll_render (secs : List CondSec) (h : ∀ sec ∈ secs, WFSec9 sec) :
    nnAll ((renderTop secs).data) := by
  have := nnAll_top secs h [] nnAll_nil (Or.inl rfl)
  simpa using this

theorem dropWhile_append_all {p : Char → Bool} {w : List Char}
    (hw : ∀ c ∈ w, p c = true) (l : List Char) :
    (w ++ l).dropWhile p = l.dropWhile p := by
  induction w with
  | nil => rfl
  | cons c w' ih =>
      rw [List.cons_append, List.dropWhile_cons_of_pos (hw c (by simp))]
      exact ih (fun x hx => hw x (List.mem_cons_of_mem c hx))

theorem tryDoubleParen_none_c0 {c : Char} (hc : ¬ c = '(') (t : List Char) :
    tryDoubleParen (c :: t) = none := by
  cases t with
  | nil => rfl
  | cons c1 t1 =>
      simp only [tryDoubleParen]
      rw [if_neg (fun hh => hc hh.1)]

theorem tryDoubleParen_none_c1 {c1 : Char} (hc : ¬ c1 = '(') (c0 : Char)
    (t : List Char) : tryDoubleParen (c0 :: c1 :: t) = none := by
  simp only [tryDoubleParen]
  rw [if_neg (fun hh => hc hh.2)]

theorem tryDoubleParen_none_dd (w : List Char)
    (hw : ∀ c ∈ w, notParen c = true) (c : Char) (hc : ¬ c = ')')
    (X : List Char) :
    tryDoubleParen ('(' :: '(' :: (w ++ ')' :: c :: X)) = none := by
  have hdrop : (w ++ ')' :: c :: X).dropWhile notParen = ')' :: c :: X := by
    rw [dropWhile_append_all hw, List.dropWhile_cons_of_neg (by decide)]
  show (if ('(' : Char) = '(' ∧ ('(' : Char) = '(' then
      match (w ++ ')' :: c :: X).dropWhile notParen with
      | d0 :: d1 :: r2 =>
          if d0 = ')' ∧ d1 = ')' ∧ (w ++ ')' :: c :: X).takeWhile notParen ≠ []
          then some ((w ++ ')' :: c :: X).takeWhile notParen, r2)
          else none
      | _ => none
    else none) = none
  rw [if_pos ⟨rfl, rfl⟩, hdrop]
  show (if (')' : Char) = ')' ∧ c = ')'
        ∧ (w ++ ')' :: c :: X).takeWhile notParen ≠ []
      then some ((w ++ ')' :: c :: X).takeWhile notParen, X)
      else none) = none
  rw [if_neg (fun hh => hc hh.2.1)]

theorem dpAll_nil : dpAll [] := by
  intro t ht
  rw [List.suffix_nil.mp ht]
  rfl

theorem dpAll_cons {c : Char} {t : List Char}
    (h1 : tryDoubleParen (c :: t) = none) (h2 : dpAll t) : dpAll (c :: t) := by
  intro u hu
  rcases List.suffix_cons_iff.mp hu with rfl | hu2
  · exact h1
  · exact h2 u hu2

theorem dpAll_cons_ne {c : Char} (hc : ¬ c = '(') {t : List Char}
    (h : dpAll t) : dpAll (c :: t) :=
  dpAll_cons (tryDoubleParen_none_c0 hc t) h

theorem dpAll_append_noParen {w : List Char}
    (hw : ∀ c ∈ w, notParen c = true) {cont : List Char} (hcont : dpAll cont) :
    dpAll (w ++ cont) := by
  induction w with
  | nil => simpa using hcont
  | cons c w' ih =>
      rw [List.cons_append]
      refine dpAll_cons_ne ?_ (ih (fun x hx => hw x (List.mem_cons_of_mem c hx)))
      intro he
      have := hw c (by simp)
      rw [he] at this
      simp [notParen] at this

theorem renderAtom_noParen (a : CondAtom)
    (h : ∀ c ∈ a.v.data, notParen c = true) :
    ∀ c ∈ (renderAtom a).data, notParen c = true := by
  unfold renderAtom
  cases hn : a.neg
  · simpa using h
  · simp only [if_true]
    intro c hc
    rw [String.data_append] at hc
    rcases List.mem_append.mp hc with h1 | h1
    · simp only [List.mem_cons, List.not_mem_nil, or_false] at h1
      rcases h1 with rfl | rfl | rfl | rfl
      all_goals decide
    · exact h c h1

theorem renderChain_noParen (l : List CondAtom)
    (h : ∀ a ∈ l, ∀ c ∈ a.v.data, notParen c = true) :
    ∀ c ∈ (renderChain l).data, notParen c = true := by
  induction l with
  | nil => intro c hc; simp [renderChain, joinSep] at hc
  | cons a r ih =>
      cases r with
      | nil =>
          show ∀ c ∈ (renderAtom a).data, _
          exact renderAtom_noParen a (h a (List.mem_cons_self a []))
      | cons b r' =>
          intro c hc
          rw [show renderChain (a :: b :: r')
              = renderAtom a ++ " AND " ++ renderChain (b :: r') from by
            unfold renderChain
            rw [List.map_cons]
            exact joinSep_cons " AND " (renderAtom a) _ (by simp)] at hc
          rw [String.data_append, String.data_append] at hc
          rcases List.mem_append.mp hc with h1 | h1
          · rcases List.mem_append.mp h1 with h2 | h2
            · exact renderAtom_noParen a (h a (List.mem_cons_self a _)) c h2
            · simp only [List.mem_cons, List.not_mem_nil, or_false] at h2
              rcases h2 with rfl | rfl | rfl | rfl | rfl
              all_goals decide
          · exact ih (fun x hx => h x (List.mem_cons_of_mem a hx)) c h1

theorem renderAtom_ne_nil (a : CondAtom) (hv : a.v.data ≠ []) :
    (renderAtom a).data ≠ [] := by
  unfold renderAtom
  cases hn : a.neg
  · simpa using hv
  · simp only [if_true]
    rw [String.data_append]
    simp

theorem renderChain_head (l : List CondAtom) (hne : l ≠ [])
    (h9 : ∀ a ∈ l, cleanName9 a.v) :
    ∃ hd tl, (renderChain l).data = hd :: tl ∧ ¬ hd = '(' := by
  have hnp := renderChain_noParen l (fun a ha => cleanName9_noParen (h9 a ha))
  have hnn : (renderChain l).data ≠ [] := by
    cases l with
    | nil => exact absurd rfl hne
    | cons a r =>
        cases r with
        | nil =>
            show (renderAtom a).data ≠ []
            exact renderAtom_ne_nil a (cleanName9_ne_nil (h9 a (by simp)))
        | cons b r' =>
            rw [show renderChain (a :: b :: r')
                = renderAtom a ++ " AND " ++ renderChain (b :: r') from by
              unfold renderChain
              rw [List.map_cons]
              exact joinSep_cons " AND " (renderAtom a) _ (by simp)]
            rw [String.data_append, String.data_append]
            intro he
            rcases List.append_eq_nil.mp he with ⟨h1, -⟩
            rcases List.append_eq_nil.mp h1 with ⟨h2, -⟩
            exact renderAtom_ne_nil a (cleanName9_ne_nil (h9 a (by simp))) h2
  cases hd : (renderChain l).data with
  | nil => exact absurd hd hnn
  | cons c tl =>
      refine ⟨c, tl, rfl, ?_⟩
      intro he
      have := hnp c (by rw [hd]; simp)
      rw [he] at this
      simp [notParen] at this

theorem dpAll_path (p : List CondAtom) (hne : p ≠ [])
    (h9 : ∀ a ∈ p, cleanName9 a.v) (cont : List Char) (hcont : dpAll cont) :
    dpAll ((renderPath p).data ++ cont) := by
  unfold renderPath
  by_cases hl : 1 < p.length
  · rw [if_pos hl, String.data_append, String.data_append]
    rw [show ((("(" : String)).data ++ (renderChain p).data
        ++ ((")" : String)).data) ++ cont
        = '(' :: ((renderChain p).data ++ (')' :: cont)) by simp]
    rcases renderChain_head p hne h9 with ⟨hd, tl, hdd, hhd⟩
    refine dpAll_cons ?_ ?_
    · rw [hdd, List.cons_append]
      exact tryDoubleParen_none_c1 hhd '(' _
    · exact dpAll_append_noParen
        (renderChain_noParen p (fun a ha => cleanName9_noParen (h9 a ha)))
        (dpAll_cons_ne (by decide) hcont)
  · rw [if_neg hl]
    exact dpAll_append_noParen
      (renderChain_noParen p (fun a ha => cleanName9_noParen (h9 a ha)))
      hcont

theorem dpAll_orjoin (ps : List (List CondAtom)) (hne : ps ≠ [])
    (hps : ∀ p ∈ ps, p ≠ []) (h9 : ∀ p ∈ ps, ∀ a ∈ p, cleanName9 a.v)
    (cont : List Char) (hcont : dpAll cont) :
    dpAll ((joinSep " OR " (ps.map renderPath)).data ++ cont) := by
  induction ps with
  | nil => exact absurd rfl hne
  | cons p r ih =>
      cases r with
      | nil =>
          show dpAll ((renderPath p).data ++ cont)
          exact dpAll_path p (hps p (by simp)) (h9 p (by simp)) cont hcont
      | cons q r' =>
          rw [List.map_cons, joinSep_cons " OR " (renderPath p) _ (by simp),
            String.data_append, String.data_append]
          rw [show ((renderPath p).data ++ (" OR ").data
              ++ (joinSep " OR " ((q :: r').map renderPath)).data) ++ cont
              = (renderPath p).data ++ (' ' :: 'O' :: 'R' :: ' '
                :: ((joinSep " OR " ((q :: r').map renderPath)).data ++ cont))
              by simp]
          refine dpAll_path p (hps p (by simp)) (h9 p (by simp)) _ ?_
          refine dpAll_cons_ne (by decide) ?_
          refine dpAll_cons_ne (by decide) ?_
          refine dpAll_cons_ne (by decide) ?_
          refine dpAll_cons_ne (by decide) ?_
          exact ih (by simp) (fun x hx => hps x (List.mem_cons_of_mem p hx))
            (fun x hx => h9 x (List.mem_cons_of_mem p hx))

theorem dpAll_par (ps : List (List CondAtom)) (h2 : 2 ≤ ps.length)
    (hps : ∀ p ∈ ps, p ≠ []) (h9 : ∀ p ∈ ps, ∀ a ∈ p, cleanName9 a.v)
    (cont : List Char) (hcont : dpAll cont) :
    dpAll ((renderPar ps).data ++ cont) := by
  unfold renderPar
  rw [String.data_append, String.data_append]
  rw [show ((("(" : String)).data
      ++ (joinSep " OR " (ps.map renderPath)).data
      ++ ((")" : String)).data) ++ cont
      = '(' :: ((joinSep " OR " (ps.map renderPath)).data ++ (')' :: cont))
      by simp]
  have hne : ps ≠ [] := by
    intro he; rw [he] at h2; exact absurd h2 (by decide)
  refine dpAll_cons ?_
    (dpAll_orjoin ps hne hps h9 _ (dpAll_cons_ne (by decide) hcont))
  match ps, h2 with
  | p1 :: p2 :: ps'', _ =>
      have hj : joinSep " OR " ((p1 :: p2 :: ps'').map renderPath)
          = renderPath p1 ++ " OR "
            ++ joinSep " OR " ((p2 :: ps'').map renderPath) := by
        rw [List.map_cons]
        exact joinSep_cons " OR " _ _ (by simp)
      rw [hj, String.data_append, String.data_append,
        show (" OR " : String).data = ' ' :: 'O' :: 'R' :: ' ' :: [] from rfl]
      by_cases hl : 1 < p1.length
      · rw [show renderPath p1 = "(" ++ renderChain p1 ++ ")" from by
          unfold renderPath; rw [if_pos hl]]
        rw [String.data_append, String.data_append]
        have hdd2 := tryDoubleParen_none_dd (renderChain p1).data
          (renderChain_noParen p1
            (fun a ha => cleanName9_noParen (h9 p1 (by simp) a ha)))
          ' ' (by decide)
          ('O' :: 'R' :: ' '
            :: ((joinSep " OR " ((p2 :: ps'').map renderPath)).data
              ++ ')' :: cont))
        simp only [List.append_assoc, List.cons_append, List.nil_append] at hdd2 ⊢
        exact hdd2
      · rw [show renderPath p1 = renderChain p1 from by
          unfold renderPath; rw [if_neg hl]]
        rcases renderChain_head p1 (hps p1 (by simp)) (h9 p1 (by simp))
          with ⟨hd, tl, hdd, hhd⟩
        rw [hdd]
        simp only [List.append_assoc, List.cons_append, List.nil_append]
        exact tryDoubleParen_none_c1 hhd '(' _

theorem dpAll_sec (sec : CondSec) (h : WFSec9 sec) (cont : List Char)
    (hcont : dpAll cont) : dpAll ((renderSec sec).data ++ cont) := by
  cases sec with
  | atom a =>
      exact dpAll_append_noParen (renderAtom_noParen a (cleanName9_noParen h))
        hcont
  | chain l =>
      exact dpAll_append_noParen
        (renderChain_noParen l (fun a ha => cleanName9_noParen (h.2 a ha)))
        hcont
  | par ps =>
      exact dpAll_par ps h.1 (fun p hp => (h.2 p hp).1)
        (fun p hp => (h.2 p hp).2) cont hcont

theorem dpAll_top (secs : List CondSec) (h : ∀ sec ∈ secs, WFSec9 sec)
    (cont : List Char) (hcont : dpAll cont) :
    dpAll ((renderTop secs).data ++ cont) := by
  induction secs with
  | nil => simpa using hcont
  | cons s r ih =>
      cases r with
      | nil =>
          show dpAll ((renderSec s).data ++ cont)
          exact dpAll_sec s (h s (List.mem_cons_self s [])) cont hcont
      | cons t r' =>
          show dpAll ((joinSep " AND "
            (renderSec s :: (t :: r').map renderSec)).data ++ cont)
          rw [joinSep_cons " AND " (renderSec s) _ (by simp),
            String.data_append, String.data_append]
          rw [show ((renderSec s).data ++ (" AND ").data
              ++ (joinSep " AND " ((t :: r').map renderSec)).data) ++ cont
              = (renderSec s).data ++ (' ' :: 'A' :: 'N' :: 'D' :: ' '
                :: ((joinSep " AND " ((t :: r').map renderSec)).data ++ cont))
              by simp]
          refine dpAll_sec s (h s (List.mem_cons_self s _)) _ ?_
          refine dpAll_cons_ne (by decide) ?_
          refine dpAll_cons_ne (by decide) ?_
          refine dpAll_cons_ne (by decide) ?_
          refine dpAll_cons_ne (by decide) ?_
          refine dpAll_cons_ne (by decide) ?_
          exact ih (fun x hx => h x (List.mem_cons_of_mem s hx))

theorem dpAll_render (secs : List CondSec) (h : ∀ sec ∈ secs, WFSec9 sec) :
    dpAll ((renderTop secs).data) := by
  have := dpAll_top secs h [] dpAll_nil
  simpa using this

theorem dpAll_of_noParen {w : List Char}
    (hw : ∀ c ∈ w, notParen c = true) : dpAll w := by
  have := dpAll_append_noParen hw dpAll_nil
  simpa using this

theorem tryNotNot_some_append {t r : List Char} {c : Char}
    (hc : isWsChar c = false) (h : tryNotNot t = some r) :
    tryNotNot (t ++ [c]) = some (r ++ [c]) := by
  match t with
  | [] => simp [tryNotNot] at h
  | [c0] => simp [tryNotNot] at h
  | [c0, c1] => simp [tryNotNot] at h
  | c0 :: c1 :: c2 :: rest =>
      have h0 : (if c0 = 'N' ∧ c1 = 'O' ∧ c2 = 'T' ∧
            rest.takeWhile isWsChar ≠ []
          then
            (match rest.dropWhile isWsChar with
             | d0 :: d1 :: d2 :: rest2 =>
                 if d0 = 'N' ∧ d1 = 'O' ∧ d2 = 'T' ∧
                     rest2.takeWhile isWsChar ≠ []
                 then some (rest2.dropWhile isWsChar)
                 else none
             | _ => none)
          else none) = some r := h
      by_cases hcond : c0 = 'N' ∧ c1 = 'O' ∧ c2 = 'T' ∧
          rest.takeWhile isWsChar ≠ []
      · rw [if_pos hcond] at h0
        show tryNotNot (c0 :: c1 :: c2 :: (rest ++ [c])) = _
        have htw : (rest ++ [c]).takeWhile isWsChar
            = rest.takeWhile isWsChar := takeWhile_append_neg isWsChar c hc rest []
        have hdw : (rest ++ [c]).dropWhile isWsChar
            = rest.dropWhile isWsChar ++ [c] := dropWhile_append_neg isWsChar c hc rest []
        show (if c0 = 'N' ∧ c1 = 'O' ∧ c2 = 'T' ∧
              (rest ++ [c]).takeWhile isWsChar ≠ []
            then
              (match (rest ++ [c]).dropWhile isWsChar with
               | d0 :: d1 :: d2 :: rest2 =>
                   if d0 = 'N' ∧ d1 = 'O' ∧ d2 = 'T' ∧
                       rest2.takeWhile isWsChar ≠ []
                   then some (rest2.dropWhile isWsChar)
                   else none
               | _ => none)
            else none) = some (r ++ [c])
        rw [if_pos ⟨hcond.1, hcond.2.1, hcond.2.2.1, by
          rw [htw]; exact hcond.2.2.2⟩]
        rw [hdw]
        cases hd : rest.dropWhile isWsChar with
        | nil => rw [hd] at h0; exact absurd h0 (by simp)
        | cons d0 t0 =>
            cases t0 with
            | nil => rw [hd] at h0; exact absurd h0 (by simp)
            | cons d1 t1 =>
                cases t1 with
                | nil => rw [hd] at h0; exact absurd h0 (by simp)
                | cons d2 rest2 =>
                    rw [hd] at h0
                    have h1 : (if d0 = 'N' ∧ d1 = 'O' ∧ d2 = 'T' ∧
                          rest2.takeWhile isWsChar ≠ []
                        then some (rest2.dropWhile isWsChar)
                        else none) = some r := h0
                    show (if d0 = 'N' ∧ d1 = 'O' ∧ d2 = 'T' ∧
                          (rest2 ++ [c]).takeWhile isWsChar ≠ []
                        then some ((rest2 ++ [c]).dropWhile isWsChar)
                        else none) = some (r ++ [c])
                    by_cases hcond2 : d0 = 'N' ∧ d1 = 'O' ∧ d2 = 'T' ∧
                        rest2.takeWhile isWsChar ≠ []
                    · rw [if_pos hcond2] at h1
                      have hr := Option.some.inj h1
                      rw [if_pos ⟨hcond2.1, hcond2.2.1, hcond2.2.2.1, by
                        rw [takeWhile_append_neg isWsChar c hc rest2 []]
                        exact hcond2.2.2.2⟩]
                      rw [dropWhile_append_neg isWsChar c hc rest2 [], hr]
                    · rw [if_neg hcond2] at h1
                      exact absurd h1 (by simp)
      · rw [if_neg hcond] at h0
        exact absurd h0 (by simp)

theorem suffix_append_right {α : Type _} {t l : List α} (x : List α)
    (h : t <:+ l) : t ++ x <:+ l ++ x := by
  rcases h with ⟨u, rfl⟩
  exact ⟨u, by simp⟩

theorem nnAll_strip {l : List Char} (h : nnAll l) :
    nnAll (stripOuterParens l) := by
  rcases strip_cases l with hs | ⟨body, hl, hne, hpf, hs⟩
  · rw [hs]; exact h
  · rw [hs]
    intro t ht
    have hsuf : t ++ [')'] <:+ l := by
      rw [hl]
      have h1 : t ++ [')'] <:+ body ++ [')'] := suffix_append_right [')'] ht
      have h2 : body ++ [')'] <:+ ('(' :: body) ++ [')'] := by
        rw [show ('(' :: body) ++ [')'] = '(' :: (body ++ [')']) from rfl]
        exact List.suffix_cons '(' (body ++ [')'])
      exact h1.trans h2
    have hnone := h (t ++ [')']) hsuf
    cases ho : tryNotNot t with
    | none => rfl
    | some r =>
        rw [tryNotNot_some_append (by decide) ho] at hnone
        exact absurd hnone (by simp)

theorem dpAll_strip {l : List Char} (h : dpAll l) :
    dpAll (stripOuterParens l) := by
  rcases strip_cases l with hs | ⟨body, hl, hne, hpf, hs⟩
  · rw [hs]; exact h
  · rw [hs]
    exact dpAll_of_noParen hpf

/-- The optimizer is the outer-paren strip alone on strings with none of the
two replacement patterns in any suffix, and is therefore idempotent there. -/
theorem optimize_eq_strip {s : String} (hnn : nnAll s.data)
    (hdp : dpAll s.data) :
    optimizeLogicExpression s = ⟨stripOuterParens s.data⟩ := by
  unfold optimizeLogicExpression
  rw [replaceDoubleParens_id (dpAll_strip hdp),
    replaceNotNot_id (nnAll_strip hnn)]

theorem optimize_idem_of_all {s : String} (hnn : nnAll s.data)
    (hdp : dpAll s.data) :
    optimizeLogicExpression (optimizeLogicExpression s)
      = optimizeLogicExpression s := by
  rw [optimize_eq_strip hnn hdp]
  have hd : (⟨stripOuterParens s.data⟩ : String).data
      = stripOuterParens s.data := rfl
  have hnn2 : nnAll (⟨stripOuterParens s.data⟩ : String).data := by
    rw [hd]; exact nnAll_strip hnn
  have hdp2 : dpAll (⟨stripOuterParens s.data⟩ : String).data := by
    rw [hd]; exact dpAll_strip hdp
  rw [optimize_eq_strip hnn2 hdp2, hd, strip_strip]

theorem shapeOf_wf9 (rung : LadderRung)
    (hne : inputElementsOf rung ≠ [])
    (hclean : ∀ el ∈ rung.elements,
      isInputElement el.type = true → cleanName9 el.varName) :
    ∀ sec ∈ shapeOf rung, WFSec9 sec := by
  have hcin : ∀ el ∈ inputElementsOf rung, cleanName9 (atomOf el).v := by
    intro el hel
    have := mem_inputElementsOf hel
    exact hclean el this.1 this.2
  intro sec hsec
  unfold shapeOf at hsec
  by_cases hj : 2 ≤ (junctionsOf rung).length
  · rw [if_pos hj] at hsec
    by_cases hsj : (sortByX (junctionsOf rung)).length < 2
    · rw [if_pos hsj] at hsec
      rcases List.mem_singleton.mp hsec with rfl
      exact ⟨fun he => hne (List.map_eq_nil_iff.mp he),
        fun a ha => by
          rcases List.mem_map.mp ha with ⟨el, hel, rfl⟩
          exact hcin el hel⟩
    · rw [if_neg hsj] at hsec
      rcases List.mem_append.mp hsec with h1 | h1
      · rcases List.mem_append.mp h1 with h2 | h2
        · rcases List.mem_map.mp h2 with ⟨el, hel, rfl⟩
          exact hcin el (List.mem_filter.mp hel).1
        · rcases List.mem_filterMap.mp h2 with ⟨pair, hpair, hsp⟩
          unfold secOfPair at hsp
          by_cases h0 : (sectionEls (inputElementsOf rung) pair).length = 0
          · rw [if_pos h0] at hsp
            exact absurd hsp (by simp)
          · rw [if_neg h0] at hsp
            have hels : sectionEls (inputElementsOf rung) pair ≠ [] := by
              intro he
              exact h0 (by rw [he]; rfl)
            by_cases h1l :
                (pathsOfSection (sectionEls (inputElementsOf rung) pair)).length = 1
            · rw [if_pos h1l] at hsp
              rcases Option.some.inj hsp with rfl
              have hpne : (pathsOfSection
                  (sectionEls (inputElementsOf rung) pair)) ≠ [] :=
                pathsOfSection_ne hels
              have hhead := headI_mem hpne
              refine ⟨?_, ?_⟩
              · intro he
                exact mem_pathsOfSection_ne hhead (List.map_eq_nil_iff.mp he)
              · intro a ha
                rcases List.mem_map.mp ha with ⟨el, hel, rfl⟩
                exact hcin el
                  (mem_sectionEls (mem_pathsOfSection hhead hel))
            · rw [if_neg h1l] at hsp
              rcases Option.some.inj hsp with rfl
              refine ⟨?_, ?_⟩
              · rw [List.length_map]
                have hpn0 : (pathsOfSection
                    (sectionEls (inputElementsOf rung) pair)).length ≠ 0 := by
                  intro he
                  exact pathsOfSection_ne hels (List.length_eq_zero.mp he)
                omega
              · intro p hp
                rcases List.mem_map.mp hp with ⟨q, hq, rfl⟩
                refine ⟨?_, ?_⟩
                · intro he
                  exact mem_pathsOfSection_ne hq (List.map_eq_nil_iff.mp he)
                · intro a ha
                  rcases List.mem_map.mp ha with ⟨el, hel, rfl⟩
                  exact hcin el (mem_sectionEls (mem_pathsOfSection hq hel))
      · rcases List.mem_map.mp h1 with ⟨el, hel, rfl⟩
        exact hcin el (List.mem_filter.mp hel).1
  · rw [if_neg hj] at hsec
    rcases List.mem_singleton.mp hsec with rfl
    exact ⟨fun he => hne (List.map_eq_nil_iff.mp he),
      fun a ha => by
        rcases List.mem_map.mp ha with ⟨el, hel, rfl⟩
        exact hcin el hel⟩

/-! ### Claim C9 -/

/-- A rung whose single contact carries an adversarial variable name: the
synthesizer emits the name verbatim as the rung's condition. -/
def rungC9cx : LadderRung :=
  ⟨"rung-c9-cx",
    [⟨"cx-a", LadderElementType.NO_CONTACT, "NONOT NOT T NOT A", ⟨1, 0⟩⟩,
     ⟨"cx-y", LadderElementType.OUTPUT_COIL, "Y", ⟨3, 0⟩⟩], 1⟩

set_option maxRecDepth 4000 in
/-- C9, counterexample: the cosmetic optimization pass is NOT idempotent on
every expression produced by `analyzeRungLogic`.  For the rung whose single
NO contact is named `NONOT NOT T NOT A`, the synthesized expression is that
name; one pass of the doubled-`NOT` collapse deletes the inner
`NOT NOT `-match and thereby glues a fresh `NOT NOT ` together
(`NONOT NOT T NOT A` → `NOT NOT A`), and a second pass collapses it again
(`→ A`), so applying the optimizer twice differs from applying it once. -/
theorem optimize_idempotent_refuted :
    analyzeRungLogic rungC9cx = "NONOT NOT T NOT A" ∧
    optimizeLogicExpression (analyzeRungLogic rungC9cx) = "NOT NOT A" ∧
    optimizeLogicExpression
        (optimizeLogicExpression (analyzeRungLogic rungC9cx))
      ≠ optimizeLogicExpression (analyzeRungLogic rungC9cx) := by
  refine ⟨by decide, by decide, by decide⟩

/-- C9 (amended): the cosmetic optimization pass is idempotent on every
expression `analyzeRungLogic` synthesizes from a rung whose contact variable
names are clean identifiers (nonempty, free of whitespace and parentheses,
and not the keywords `AND`/`OR`/`NOT`): on such expressions neither the
doubled-parenthesis nor the doubled-`NOT` replacement ever fires, and the
fully-wrapping-parenthesis strip is idempotent, so a second optimizer pass
returns its input unchanged. -/
theorem optimize_idempotent_on_clean (rung : LadderRung)
    (hclean : ∀ el ∈ rung.elements,
      isInputElement el.type = true → cleanName9 el.varName) :
    optimizeLogicExpression
        (optimizeLogicExpression (analyzeRungLogic rung))
      = optimizeLogicExpression (analyzeRungLogic rung) := by
  have hbr := analyzeRungLogic_render rung
  by_cases h0 : (inputElementsOf rung).length = 0
  · rw [hbr, if_pos h0]
    decide
  · have hne : inputElementsOf rung ≠ [] := fun he => h0 (by rw [he]; rfl)
    rw [hbr, if_neg h0]
    exact optimize_idem_of_all
      (nnAll_render (shapeOf rung) (shapeOf_wf9 rung hne hclean))
      (dpAll_render (shapeOf rung) (shapeOf_wf9 rung hne hclean))

set_option maxRecDepth 8000 in
theorem optimize_idempotent_on_clean_witness :
    (∀ el ∈ rungC1w.elements,
      isInputElement el.type = true → cleanName9 el.varName) ∧
    optimizeLogicExpression (analyzeRungLogic rungC1w) = "A OR NOT B" ∧
    optimizeLogicExpression
        (optimizeLogicExpression (analyzeRungLogic rungC1w))
      = optimizeLogicExpression (analyzeRungLogic rungC1w) :=
  ⟨by decide, by decide, optimize_idempotent_on_clean rungC1w (by decide)⟩
